import Mathlib

/-!
Image segmentation pipeline of `main.c`.

A shallow embedding of the functions of `src/main.c` that compute on the pixel
grid: the connected-component labelling (`createQueue`, `BFS`,
`find_components`), the edge detector (`sobel_filter`) and the highlighted map
(`generate_component_colors`), with the properties of the label grid, of the
component table and of the output images that follow from them.

Memory is modelled by total functions from indices: `Pixel* image` is a
`Nat → Pixel`, `int* pixel_comp` a `Nat → Nat`, `Component* components` a
`Nat → Component`, and the queue buffer a `Nat → Point`.  Array indices, the
pixel counter and the component id never exceed `width * height + 1` and are
kept in `Nat`; the running colour sums are C `int`s that can leave the 32-bit
range on large images and are wrapped explicitly (`wrap_int`).  The `double`
square root of `sobel_filter` is taken of an exact small integer and truncated,
which is the integer square root.  The `float` shading of
`generate_component_colors` is a parameter of the loop body; `shade_float`
is the arithmetic of the source, every operation rounded to binary32 (round to
nearest, ties to even; no extended precision, no fused multiply-add).
-/

namespace BigTask

/-! ## Data model -/

/-- The struct `Pixel`: four `unsigned char` channels. -/
structure Pixel where
  r : Fin 256
  g : Fin 256
  b : Fin 256
  a : Fin 256
deriving DecidableEq

/-- The struct `Component`: the pixel count and the three stored averages
(`unsigned char`, kept as the number they hold). -/
structure Component where
  pixel_cnt : Nat
  avg_r : Nat
  avg_g : Nat
  avg_b : Nat
deriving DecidableEq

/-- The struct `Point`: `int x, y`. -/
structure Point where
  x : Int
  y : Int
deriving DecidableEq

/-- The struct `Queue`: the buffer and the indices `front`, `rear`, `size`. -/
structure Queue where
  data : Nat → Point
  front : Nat
  rear : Nat
  size : Nat

/-- A 32-bit signed `int` after an addition: two's complement wrap-around. -/
def wrap_int (z : Int) : Int := (z + 2147483648) % 4294967296 - 2147483648

/-- The cast `(unsigned char)` of an `int`. -/
def to_uchar (z : Int) : Nat := (z % 256).toNat

/-- Writing `v` at index `i` of an array. -/
def store {α : Type} (m : Nat → α) (i : Nat) (v : α) : Nat → α :=
  fun j => if j = i then v else m j

/-- The function `createQueue`: `front = rear = 0` over a fresh buffer. -/
def createQueue (size : Nat) : Queue :=
  { data := fun _ => ⟨0, 0⟩, front := 0, rear := 0, size := size }

/-- The array `dx` of `BFS`. -/
def dx : List Int := [-1, 1, 0, 0]

/-- The array `dy` of `BFS`. -/
def dy : List Int := [0, 0, -1, 1]

/-- The value `diff` of `BFS`: the summed absolute channel difference between
the seed and the pixel under test. -/
def color_diff (seed current : Pixel) : Int :=
  (((seed.r.val : Int) - current.r.val).natAbs : Int)
    + (((seed.g.val : Int) - current.g.val).natAbs : Int)
    + (((seed.b.val : Int) - current.b.val).natAbs : Int)

/-- The local variables of `BFS` that change while its `while` loop runs. -/
structure BFSState where
  pixel_comp : Nat → Nat
  queue : Queue
  total_r : Int
  total_g : Int
  total_b : Int
  count : Nat

/-- The body of the `for (i = 0; i < 4; i++)` loop of `BFS` for the dequeued
point `p` and direction `i`. -/
def BFS_visit (image : Nat → Pixel) (width height : Nat) (seed : Pixel)
    (component_id : Nat) (threshold : Int) (p : Point) (st : BFSState) (i : Nat) :
    BFSState :=
  let nx := p.x + dx.getD i 0
  let ny := p.y + dy.getD i 0
  if 0 ≤ nx ∧ nx < width ∧ 0 ≤ ny ∧ ny < height then
    let idx := (ny * width + nx).toNat
    if st.pixel_comp idx = 0 then
      let current := image idx
      let diff := color_diff seed current
      if diff < threshold then
        { pixel_comp := store st.pixel_comp idx component_id
          queue := { st.queue with
            data := store st.queue.data st.queue.rear ⟨nx, ny⟩
            rear := st.queue.rear + 1 }
          total_r := wrap_int (st.total_r + current.r.val)
          total_g := wrap_int (st.total_g + current.g.val)
          total_b := wrap_int (st.total_b + current.b.val)
          count := st.count + 1 }
      else st
    else st
  else st

/-- One iteration of the `while` loop of `BFS`: dequeue a point and visit its
four neighbours. -/
def BFS_iter (image : Nat → Pixel) (width height : Nat) (seed : Pixel)
    (component_id : Nat) (threshold : Int) (st : BFSState) : BFSState :=
  let p := st.queue.data st.queue.front
  let st1 : BFSState := { st with queue := { st.queue with front := st.queue.front + 1 } }
  (List.range 4).foldl (BFS_visit image width height seed component_id threshold p) st1

/-- The `while (queue->front != queue->rear)` loop of `BFS`, run for at most
`fuel` iterations; `none` when the loop has not finished by then. -/
def BFS_loop (image : Nat → Pixel) (width height : Nat) (seed : Pixel)
    (component_id : Nat) (threshold : Int) : Nat → BFSState → Option BFSState
  | 0, st => if st.queue.front ≠ st.queue.rear then none else some st
  | fuel + 1, st =>
    if st.queue.front ≠ st.queue.rear then
      BFS_loop image width height seed component_id threshold fuel
        (BFS_iter image width height seed component_id threshold st)
    else some st

/-- The state of `BFS` when it reaches its `while` loop: the seed is in the
queue and labelled, the sums hold the seed's colour. -/
def BFS_init (image : Nat → Pixel) (pixel_comp : Nat → Nat) (width height : Nat)
    (x y : Nat) (component_id : Nat) : BFSState :=
  let queue := createQueue (width * height)
  let seed := image (y * width + x)
  { pixel_comp := store pixel_comp (y * width + x) component_id
    queue := { queue with
      data := store queue.data queue.rear ⟨x, y⟩
      rear := queue.rear + 1 }
    total_r := seed.r.val
    total_g := seed.g.val
    total_b := seed.b.val
    count := 1 }

/-- The record that `BFS` writes to `components[component_id]` after its loop. -/
def BFS_record (st : BFSState) : Component :=
  { pixel_cnt := st.count
    avg_r := to_uchar (st.total_r.tdiv st.count)
    avg_g := to_uchar (st.total_g.tdiv st.count)
    avg_b := to_uchar (st.total_b.tdiv st.count) }

/-- The function `BFS`.  The loop is given as many iterations as the queue has
slots (`width * height`): every iteration reads one slot, so a run that needs
more would read past the buffer.  The result is the label grid and the
component table after the call. -/
def BFS (image : Nat → Pixel) (pixel_comp : Nat → Nat) (components : Nat → Component)
    (width height : Nat) (x y : Nat) (component_id : Nat) (threshold : Int) :
    Option ((Nat → Nat) × (Nat → Component)) :=
  match BFS_loop image width height (image (y * width + x)) component_id threshold
      (width * height) (BFS_init image pixel_comp width height x y component_id) with
  | none => none
  | some st => some (st.pixel_comp, store components component_id (BFS_record st))

/-- The variables of `find_components` that change during its scan.  `seeds`
is a ghost log, absent from the C code: the position `(x, y)` of every call to
`BFS`, in call order. -/
structure ScanState where
  pixel_comp : Nat → Nat
  components : Nat → Component
  component_id : Nat
  seeds : List (Nat × Nat)

/-- The body of the inner `for` loop of `find_components` at column `x` of
row `y`. -/
def scan_pixel (image : Nat → Pixel) (width height : Nat) (threshold : Int)
    (y : Nat) (st : ScanState) (x : Nat) : Option ScanState :=
  let idx := y * width + x
  if st.pixel_comp idx = 0 ∧ 128 < (image idx).a.val then
    match BFS image st.pixel_comp st.components width height x y st.component_id
        threshold with
    | none => none
    | some res =>
      some { pixel_comp := res.1
             components := res.2
             component_id := st.component_id + 1
             seeds := st.seeds ++ [(x, y)] }
  else some st

/-- The first `n` iterations of the inner loop `for (x = 0; x < width; x++)`
of `find_components` in row `y`. -/
def scan_cols (image : Nat → Pixel) (width height : Nat) (threshold : Int)
    (y : Nat) (n : Nat) (st : ScanState) : Option ScanState :=
  (List.range n).foldlM (scan_pixel image width height threshold y) st

/-- The first `n` iterations of the outer loop `for (y = 0; y < height; y++)`
of `find_components`. -/
def scan_rows (image : Nat → Pixel) (width height : Nat) (threshold : Int)
    (n : Nat) (st : ScanState) : Option ScanState :=
  (List.range n).foldlM
    (fun st y => scan_cols image width height threshold y width st) st

/-- The function `find_components`: ids start at 1 and the two loops run over
all rows and columns. -/
def find_components (image : Nat → Pixel) (pixel_comp : Nat → Nat)
    (components : Nat → Component) (width height : Nat) (threshold : Int) :
    Option ScanState :=
  scan_rows image width height threshold height
    { pixel_comp := pixel_comp, components := components, component_id := 1, seeds := [] }

/-- The label grid that `calloc` hands to `find_components` in `main`. -/
def zero_labels : Nat → Nat := fun _ => 0

/-- The component table that `calloc` hands to `find_components` in `main`. -/
def zero_components : Nat → Component := fun _ => ⟨0, 0, 0, 0⟩

/-- An image given by the list of its pixels in row-major order. -/
def image_of (ps : List Pixel) : Nat → Pixel := fun i => ps.getD i ⟨0, 0, 0, 0⟩


/-! ## Positions, neighbours and the join test -/

/-- The neighbour `(nx, ny)` of `p` in direction `i`. -/
def neighbor (p : Point) (i : Nat) : Point := ⟨p.x + dx.getD i 0, p.y + dy.getD i 0⟩

/-- The bounds test `nx >= 0 && nx < width && ny >= 0 && ny < height`. -/
def InGrid (width height : Nat) (p : Point) : Prop :=
  0 ≤ p.x ∧ p.x < width ∧ 0 ≤ p.y ∧ p.y < height

instance (width height : Nat) (p : Point) : Decidable (InGrid width height p) := by
  unfold InGrid; infer_instance

/-- The row-major index `y * width + x` of a point. -/
def pidx (width : Nat) (p : Point) : Nat := (p.y * width + p.x).toNat

/-- Horizontal or vertical adjacency of two points: they differ by one step
in exactly one coordinate. -/
def Adj4 (p q : Point) : Prop := (p.x - q.x).natAbs + (p.y - q.y).natAbs = 1

instance (p q : Point) : Decidable (Adj4 p q) := by unfold Adj4; infer_instance

/-- The test under which `BFS` lets the in-bounds, unlabelled neighbour `n` join
the region: the three nested `if`s of the inner loop. -/
def Joins (image : Nat → Pixel) (width height : Nat) (seed : Pixel) (threshold : Int)
    (st : BFSState) (n : Point) : Prop :=
  InGrid width height n ∧ st.pixel_comp (pidx width n) = 0 ∧
    color_diff seed (image (pidx width n)) < threshold

/-- The state after the neighbour `n` has joined: it is labelled, enqueued and
added to the sums and to the count. -/
def join (image : Nat → Pixel) (width : Nat) (component_id : Nat) (st : BFSState)
    (n : Point) : BFSState :=
  { pixel_comp := store st.pixel_comp (pidx width n) component_id
    queue := { st.queue with
      data := store st.queue.data st.queue.rear n
      rear := st.queue.rear + 1 }
    total_r := wrap_int (st.total_r + (image (pidx width n)).r.val)
    total_g := wrap_int (st.total_g + (image (pidx width n)).g.val)
    total_b := wrap_int (st.total_b + (image (pidx width n)).b.val)
    count := st.count + 1 }

/-- The positions below `N` that carry the label `v`. -/
def labelled (pixel_comp : Nat → Nat) (N v : Nat) : Finset Nat :=
  (Finset.range N).filter (fun j => pixel_comp j = v)

/-- The number of positions below `N` that carry the label `v`. -/
def label_count (pixel_comp : Nat → Nat) (N v : Nat) : Nat := (labelled pixel_comp N v).card

/-- The sum of `f` over the positions below `N` that carry the label `v`. -/
def label_sum (f : Nat → Nat) (pixel_comp : Nat → Nat) (N v : Nat) : Nat :=
  (labelled pixel_comp N v).sum f

/-- One step of a path inside the class of label `v`: from `p` to a
horizontally or vertically adjacent in-grid position `q` that carries `v`. -/
def InRegion (pixel_comp : Nat → Nat) (width height : Nat) (v : Nat) (p q : Point) : Prop :=
  Adj4 p q ∧ InGrid width height q ∧ pixel_comp (pidx width q) = v

/-- The invariant of the `while` loop of `BFS` for the pass with id `c` seeded
at `s`, started on the label grid `L`. -/
structure BInv (image : Nat → Pixel) (L : Nat → Nat) (width height : Nat) (s : Point)
    (c : Nat) (threshold : Int) (st : BFSState) : Prop where
  frame : ∀ idx, st.pixel_comp idx = L idx ∨
    (L idx = 0 ∧ st.pixel_comp idx = c ∧ idx < width * height)
  seed_lab : st.pixel_comp (pidx width s) = c
  queue_ok : ∀ j, j < st.queue.rear → InGrid width height (st.queue.data j) ∧
    st.pixel_comp (pidx width (st.queue.data j)) = c
  in_queue : ∀ p, InGrid width height p → st.pixel_comp (pidx width p) = c →
    ∃ j, j < st.queue.rear ∧ st.queue.data j = p
  conn : ∀ p, InGrid width height p → st.pixel_comp (pidx width p) = c →
    Relation.ReflTransGen (InRegion st.pixel_comp width height c) s p
  diff : ∀ idx, st.pixel_comp idx = c →
    idx = pidx width s ∨ color_diff (image (pidx width s)) (image idx) < threshold
  count : st.count = label_count st.pixel_comp (width * height) c
  tot_r : st.total_r =
    wrap_int (label_sum (fun j => (image j).r.val) st.pixel_comp (width * height) c)
  tot_g : st.total_g =
    wrap_int (label_sum (fun j => (image j).g.val) st.pixel_comp (width * height) c)
  tot_b : st.total_b =
    wrap_int (label_sum (fun j => (image j).b.val) st.pixel_comp (width * height) c)
  pot : st.queue.rear + label_count st.pixel_comp (width * height) 0 ≤ width * height

/-- Every dequeued point has had its four neighbours tested: none of them can
still join. -/
def Closed (image : Nat → Pixel) (width height : Nat) (seed : Pixel) (threshold : Int)
    (st : BFSState) : Prop :=
  ∀ j, j < st.queue.front → ∀ i, i < 4 →
    ¬ Joins image width height seed threshold st (neighbor (st.queue.data j) i)

/-- The state `st2` is reached from `st1` by neighbour tests only: the read
index is the same, the queue has only grown, and no label has become 0. -/
structure Ext (st1 st2 : BFSState) : Prop where
  front_eq : st2.queue.front = st1.queue.front
  rear_le : st1.queue.rear ≤ st2.queue.rear
  data_eq : ∀ j, j < st1.queue.rear → st2.queue.data j = st1.queue.data j
  zero_of : ∀ idx, st2.pixel_comp idx = 0 → st1.pixel_comp idx = 0
  keep : ∀ idx, st1.pixel_comp idx ≠ 0 → st2.pixel_comp idx = st1.pixel_comp idx

/-- What the pass with id `c` seeded at `s` has established in a label grid
and component table: the class of `c` is connected to the seed, within the
threshold of the seed colour, closed under the join test, and summarised by
the record `components[c]`. -/
structure Region (image : Nat → Pixel) (width height : Nat) (threshold : Int)
    (pixel_comp : Nat → Nat) (components : Nat → Component) (s : Point) (c : Nat) :
    Prop where
  seed_in : InGrid width height s
  seed_lab : pixel_comp (pidx width s) = c
  conn : ∀ p, InGrid width height p → pixel_comp (pidx width p) = c →
    Relation.ReflTransGen (InRegion pixel_comp width height c) s p
  diff : ∀ idx, pixel_comp idx = c →
    idx = pidx width s ∨ color_diff (image (pidx width s)) (image idx) < threshold
  closed : ∀ p, InGrid width height p → pixel_comp (pidx width p) = c →
    ∀ q, Adj4 p q → InGrid width height q →
      (pixel_comp (pidx width q) ≠ 0 ∧ pixel_comp (pidx width q) ≤ c) ∨
      ¬ color_diff (image (pidx width s)) (image (pidx width q)) < threshold
  cnt : (components c).pixel_cnt = label_count pixel_comp (width * height) c
  avg_r : (components c).avg_r = to_uchar ((wrap_int
    (label_sum (fun j => (image j).r.val) pixel_comp (width * height) c)).tdiv
      (label_count pixel_comp (width * height) c))
  avg_g : (components c).avg_g = to_uchar ((wrap_int
    (label_sum (fun j => (image j).g.val) pixel_comp (width * height) c)).tdiv
      (label_count pixel_comp (width * height) c))
  avg_b : (components c).avg_b = to_uchar ((wrap_int
    (label_sum (fun j => (image j).b.val) pixel_comp (width * height) c)).tdiv
      (label_count pixel_comp (width * height) c))

/-- The invariant of the scan of `find_components` when it is about to test
the position of row-major index `pos`. -/
structure SInv (image : Nat → Pixel) (width height : Nat) (threshold : Int) (pos : Nat)
    (st : ScanState) : Prop where
  id_eq : st.component_id = st.seeds.length + 1
  lab_lt : ∀ idx, st.pixel_comp idx < st.component_id
  lab_grid : ∀ idx, st.pixel_comp idx ≠ 0 → idx < width * height
  sorted : st.seeds.Pairwise (fun a b => a.2 * width + a.1 < b.2 * width + b.1)
  seeds_lt : ∀ s ∈ st.seeds, s.2 * width + s.1 < pos
  regions : ∀ i s, st.seeds[i]? = some s →
    Region image width height threshold st.pixel_comp st.components ⟨s.1, s.2⟩ (i + 1)
  done : ∀ idx, idx < pos → 128 < (image idx).a.val → st.pixel_comp idx ≠ 0

/-- The number of positions below `N` whose alpha is above 128. -/
def opaque_count (image : Nat → Pixel) (N : Nat) : Nat :=
  ((Finset.range N).filter (fun j => 128 < (image j).a.val)).card

/-- The sum of `pixel_cnt` over the records of the ids `1 .. k`. -/
def pixel_cnt_sum (components : Nat → Component) (k : Nat) : Nat :=
  (Finset.range k).sum (fun i => (components (i + 1)).pixel_cnt)

/-- A 2x1 image: an opaque pixel and, right of it, a transparent pixel of the
same colour. -/
def img_opaque_transparent : Nat → Pixel :=
  image_of [⟨10, 10, 10, 255⟩, ⟨10, 10, 10, 0⟩]

/-- A 3x3 image: the centre is opaque with colour (200,10,10), the eight
pixels around it are transparent with colour (190,10,10). -/
def img_lone_centre : Nat → Pixel :=
  image_of [⟨190, 10, 10, 0⟩, ⟨190, 10, 10, 0⟩, ⟨190, 10, 10, 0⟩,
            ⟨190, 10, 10, 0⟩, ⟨200, 10, 10, 255⟩, ⟨190, 10, 10, 0⟩,
            ⟨190, 10, 10, 0⟩, ⟨190, 10, 10, 0⟩, ⟨190, 10, 10, 0⟩]

/-- A 2x1 image of two opaque pixels of the same colour. -/
def img_two_equal : Nat → Pixel :=
  image_of [⟨7, 7, 7, 255⟩, ⟨7, 7, 7, 255⟩]

/-- The state of `find_components` when its scan reaches column `x` of row
`y`: the rows before `y` are done, and so are the first `x` columns of row `y`. -/
def scan_upto (image : Nat → Pixel) (pixel_comp : Nat → Nat)
    (components : Nat → Component) (width height : Nat) (threshold : Int)
    (y x : Nat) : Option ScanState :=
  (scan_rows image width height threshold y
    { pixel_comp := pixel_comp, components := components, component_id := 1,
      seeds := [] }).bind
    (fun s => scan_cols image width height threshold y x s)

/-- Two pixels have identical red, green and blue bytes. -/
def same_rgb (p q : Pixel) : Prop := p.r = q.r ∧ p.g = q.g ∧ p.b = q.b

instance (p q : Pixel) : Decidable (same_rgb p q) := by unfold same_rgb; infer_instance

/-- One step of a monochrome path: from `p` to a horizontally or vertically
adjacent in-grid position `q` whose pixel has the colour of the pixel at `p`. -/
def MonoStep (image : Nat → Pixel) (width height : Nat) (p q : Point) : Prop :=
  Adj4 p q ∧ InGrid width height q ∧ same_rgb (image (pidx width p)) (image (pidx width q))

/-- One step between two grid positions of the class of label `c`. -/
def ClassStep (pixel_comp : Nat → Nat) (width height : Nat) (c : Nat) (p q : Point) : Prop :=
  Adj4 p q ∧ (InGrid width height p ∧ pixel_comp (pidx width p) = c) ∧
    (InGrid width height q ∧ pixel_comp (pidx width q) = c)

/-- The monochrome region of `p`: the grid positions joined to `p` by a
4-connected path of pixels of the colour of `p`. -/
def mono_region (image : Nat → Pixel) (width height : Nat) (p : Point) : Set Point :=
  {q | InGrid width height q ∧ Relation.ReflTransGen (MonoStep image width height) p q}

/-- A fully opaque image in which every pixel is white. -/
def img_white : Nat → Pixel := fun _ => ⟨255, 255, 255, 255⟩

/-- A fully opaque 4x2 image made of two solid 2x2 blocks: (200,10,10) on the
left and (10,10,200) on the right. -/
def img_two_blocks : Nat → Pixel :=
  image_of [⟨200, 10, 10, 255⟩, ⟨200, 10, 10, 255⟩, ⟨10, 10, 200, 255⟩, ⟨10, 10, 200, 255⟩,
            ⟨200, 10, 10, 255⟩, ⟨200, 10, 10, 255⟩, ⟨10, 10, 200, 255⟩, ⟨10, 10, 200, 255⟩]

/-- A 1x1 image: one opaque pixel. -/
def img_one_pixel : Nat → Pixel := image_of [⟨10, 10, 10, 255⟩]

/-- The state of `BFS` inside the iteration of its `while` loop that starts in
`st`: the point at `front` has been dequeued and the first `m` of its four
neighbours have been tested. -/
def BFS_midway (image : Nat → Pixel) (width height : Nat) (seed : Pixel)
    (component_id : Nat) (threshold : Int) (st : BFSState) (m : Nat) : BFSState :=
  (List.range m).foldl
    (BFS_visit image width height seed component_id threshold (st.queue.data st.queue.front))
    { st with queue := { st.queue with front := st.queue.front + 1 } }

/-- The state of `BFS` after `n` iterations of its `while` loop started in
`st0`; `none` when the loop has stopped before. -/
def BFS_after (image : Nat → Pixel) (width height : Nat) (seed : Pixel)
    (component_id : Nat) (threshold : Int) (st0 : BFSState) : Nat → Option BFSState
  | 0 => some st0
  | n + 1 =>
    match BFS_after image width height seed component_id threshold st0 n with
    | none => none
    | some s =>
      if s.queue.front ≠ s.queue.rear then
        some (BFS_iter image width height seed component_id threshold s)
      else none

/-- The invariant of the queue of `BFS`: it has `width * height` slots, the
enqueued points plus the unlabelled grid positions fit in them, every enqueued
point is a labelled grid position, and no point is enqueued twice. -/
structure QInv (width height : Nat) (st : BFSState) : Prop where
  size_eq : st.queue.size = width * height
  pot : st.queue.rear + label_count st.pixel_comp (width * height) 0 ≤ width * height
  entries : ∀ j, j < st.queue.rear → InGrid width height (st.queue.data j) ∧
    st.pixel_comp (pidx width (st.queue.data j)) ≠ 0
  distinct : ∀ i j, i < st.queue.rear → j < st.queue.rear →
    st.queue.data i = st.queue.data j → i = j

/-! ## The edge detector -/

/-- The array `gx` of `sobel_filter`. -/
def gx : List (List Int) := [[-1, 0, 1], [-2, 0, 2], [-1, 0, 1]]

/-- The array `gy` of `sobel_filter`. -/
def gy : List (List Int) := [[1, 2, 1], [0, 0, 0], [-1, -2, -1]]

/-- The six accumulators `sx_r .. sy_b` of `sobel_filter`. -/
structure SobelSums where
  sx_r : Int
  sx_g : Int
  sx_b : Int
  sy_r : Int
  sy_g : Int
  sy_b : Int

/-- The body of the innermost loop of `sobel_filter` for the offsets `dy`, `dx`
around the pixel `(x, y)`. -/
def sobel_tap (image : Nat → Pixel) (width : Nat) (x y : Nat) (acc : SobelSums)
    (dy dx : Int) : SobelSums :=
  let p := image ((((y : Int) + dy) * width + ((x : Int) + dx)).toNat)
  let kernel_x := (gx.getD (dy + 1).toNat []).getD (dx + 1).toNat 0
  let kernel_y := (gy.getD (dy + 1).toNat []).getD (dx + 1).toNat 0
  { sx_r := acc.sx_r + kernel_x * p.r.val
    sx_g := acc.sx_g + kernel_x * p.g.val
    sx_b := acc.sx_b + kernel_x * p.b.val
    sy_r := acc.sy_r + kernel_y * p.r.val
    sy_g := acc.sy_g + kernel_y * p.g.val
    sy_b := acc.sy_b + kernel_y * p.b.val }

/-- The two loops over `dy` and `dx` in `-1 .. 1` of `sobel_filter`, started
with all six accumulators at 0. -/
def sobel_sums (image : Nat → Pixel) (width : Nat) (x y : Nat) : SobelSums :=
  ([-1, 0, 1] : List Int).foldl
    (fun acc dy => ([-1, 0, 1] : List Int).foldl
      (fun acc dx => sobel_tap image width x y acc dy dx) acc)
    ⟨0, 0, 0, 0, 0, 0⟩

/-- The value `(int)sqrt(v)` for an `int` `v`.  Here `0 <= v < 2^53`, so `v` is
a `double`, its square root is correctly rounded, and the truncation of that is
the integer square root: the greatest `k` with `k * k <= v`. -/
def sqrt_int (v : Int) : Int :=
  (Nat.findGreatest (fun k => k * k ≤ v.toNat) v.toNat : Nat)

/-- The cast `(unsigned char)` of an `int`, as a byte. -/
def uchar (z : Int) : Fin 256 := Fin.ofNat (to_uchar z)

/-- The value `grad` of `sobel_filter` after the clamp to `0 .. 255`. -/
def sobel_grad (image : Nat → Pixel) (width : Nat) (x y : Nat) : Int :=
  let s := sobel_sums image width x y
  let grad_r := sqrt_int (s.sx_r * s.sx_r + s.sy_r * s.sy_r)
  let grad_g := sqrt_int (s.sx_g * s.sx_g + s.sy_g * s.sy_g)
  let grad_b := sqrt_int (s.sx_b * s.sx_b + s.sy_b * s.sy_b)
  let grad := (grad_r + grad_g + grad_b).tdiv 3
  if grad > 255 then 255 else (if grad < 0 then 0 else grad)

/-- The pixel that `sobel_filter` writes at `(x, y)`. -/
def sobel_pixel (image : Nat → Pixel) (width : Nat) (x y : Nat) : Pixel :=
  { r := uchar (sobel_grad image width x y)
    g := uchar (sobel_grad image width x y)
    b := uchar (sobel_grad image width x y)
    a := 255 }

/-- Two nested loops `for y in ys, for x in xs` that write `f x y` at the
index `y * width + x` of the output image. -/
def fill_grid (width : Nat) (f : Nat → Nat → Pixel) (ys xs : List Nat)
    (out : Nat → Pixel) : Nat → Pixel :=
  ys.foldl (fun o y => xs.foldl (fun o x => store o (y * width + x) (f x y)) o) out

/-- The function `sobel_filter`: `y` runs over `1 .. height - 2` and `x` over
`1 .. width - 2`; the result is the output image after the loops. -/
def sobel_filter (image : Nat → Pixel) (out_image : Nat → Pixel) (width height : Nat) :
    Nat → Pixel :=
  fill_grid width (sobel_pixel image width) (List.range' 1 (height - 2))
    (List.range' 1 (width - 2)) out_image

/-- The pixel at column `x` of row `y`. -/
def pixel_at (image : Nat → Pixel) (width : Nat) (x y : Int) : Pixel :=
  image (y * width + x).toNat

/-- The horizontal Sobel sum of the channel `ch` around `(x, y)`: the 3x3
neighbourhood weighted by `[[-1,0,1],[-2,0,2],[-1,0,1]]`. -/
def grad_x (ch : Pixel → Int) (image : Nat → Pixel) (width : Nat) (x y : Int) : Int :=
  -ch (pixel_at image width (x - 1) (y - 1)) + ch (pixel_at image width (x + 1) (y - 1))
    - 2 * ch (pixel_at image width (x - 1) y) + 2 * ch (pixel_at image width (x + 1) y)
    - ch (pixel_at image width (x - 1) (y + 1)) + ch (pixel_at image width (x + 1) (y + 1))

/-- The vertical Sobel sum of the channel `ch` around `(x, y)`: the 3x3
neighbourhood weighted by `[[1,2,1],[0,0,0],[-1,-2,-1]]`. -/
def grad_y (ch : Pixel → Int) (image : Nat → Pixel) (width : Nat) (x y : Int) : Int :=
  ch (pixel_at image width (x - 1) (y - 1)) + 2 * ch (pixel_at image width x (y - 1))
    + ch (pixel_at image width (x + 1) (y - 1))
    - ch (pixel_at image width (x - 1) (y + 1)) - 2 * ch (pixel_at image width x (y + 1))
    - ch (pixel_at image width (x + 1) (y + 1))

/-- The greatest `k` with `k * k <= v`: the square root rounded down. -/
def floor_sqrt (v : Nat) : Nat := Nat.findGreatest (fun k => k * k ≤ v) v

/-- The square root rounded to the nearest integer, as the specification words
the channel magnitude: one more than the floor when `v` exceeds
`k * k + k`, that is when the root is above `k + 1/2`. -/
def round_sqrt (v : Nat) : Nat :=
  if floor_sqrt v * floor_sqrt v + floor_sqrt v < v then floor_sqrt v + 1 else floor_sqrt v

/-- The red channel of a pixel as an `int`. -/
def red (p : Pixel) : Int := p.r.val

/-- The green channel of a pixel as an `int`. -/
def green (p : Pixel) : Int := p.g.val

/-- The blue channel of a pixel as an `int`. -/
def blue (p : Pixel) : Int := p.b.val

/-- The magnitude of the channel `ch` at `(x, y)` with the root rounded
by `root`. -/
def magnitude (root : Nat → Nat) (ch : Pixel → Int) (image : Nat → Pixel) (width : Nat)
    (x y : Int) : Nat :=
  root (grad_x ch image width x y * grad_x ch image width x y
    + grad_y ch image width x y * grad_y ch image width x y).toNat

/-- The grey value `min(255, (m_r + m_g + m_b) / 3)` at `(x, y)` with the
roots rounded by `root`. -/
def grey_value (root : Nat → Nat) (image : Nat → Pixel) (width : Nat) (x y : Int) : Nat :=
  min 255 ((magnitude root red image width x y + magnitude root green image width x y
    + magnitude root blue image width x y) / 3)

/-- An image whose pixels are all (0,0,0,0). -/
def blank_image : Nat → Pixel := fun _ => ⟨0, 0, 0, 0⟩

/-- A 3x3 opaque image, black except for (1,1,1) at the top centre and at the
right centre. -/
def img_corner : Nat → Pixel :=
  image_of [⟨0, 0, 0, 255⟩, ⟨1, 1, 1, 255⟩, ⟨0, 0, 0, 255⟩,
            ⟨0, 0, 0, 255⟩, ⟨0, 0, 0, 255⟩, ⟨1, 1, 1, 255⟩,
            ⟨0, 0, 0, 255⟩, ⟨0, 0, 0, 255⟩, ⟨0, 0, 0, 255⟩]

/-! ## The highlighted map -/

/-- The array `segment_colors` of `generate_component_colors`. -/
def segment_colors : List Pixel :=
  [⟨255, 0, 0, 255⟩, ⟨174, 0, 255, 255⟩, ⟨0, 255, 0, 255⟩, ⟨255, 0, 170, 255⟩,
   ⟨0, 0, 255, 255⟩]

/-- The first loop of `generate_component_colors`: starting from the all-zero
record, `i` runs from 1 while `i < num_components`, and a record with a
strictly larger `pixel_cnt` replaces `background`. -/
def find_background (components : Nat → Component) (num_components : Nat) : Component :=
  (List.range' 1 (num_components - 1)).foldl
    (fun background i =>
      if (components i).pixel_cnt > background.pixel_cnt then components i else background)
    ⟨0, 0, 0, 0⟩

/-- The test of `generate_component_colors` that a record is near the
background: the three `abs(..) < 30` joined by `&&`. -/
def near_background (c background : Component) : Prop :=
  ((c.avg_r : Int) - background.avg_r).natAbs < 30 ∧
    ((c.avg_g : Int) - background.avg_g).natAbs < 30 ∧
    ((c.avg_b : Int) - background.avg_b).natAbs < 30

instance (c background : Component) : Decidable (near_background c background) := by
  unfold near_background; infer_instance

/-- The body of the pixel loop of `generate_component_colors` at index `idx`.
The parameter `shade` stands for `(unsigned char)(c * brightness)`, the palette
channel `c` times the brightness of the original pixel, which the C code
computes in `float`; `shade_float` below is that arithmetic. -/
def highlight_pixel (shade : Fin 256 → Pixel → Fin 256) (pixel_comp : Nat → Nat)
    (components : Nat → Component) (background : Component) (original : Nat → Pixel)
    (idx : Nat) : Pixel :=
  let comp_id := pixel_comp idx
  if comp_id = 0 ∨ near_background (components comp_id) background then original idx
  else
    let color_idx := (comp_id - 1) % segment_colors.length
    let color := segment_colors.getD color_idx ⟨0, 0, 0, 0⟩
    { r := shade color.r (original idx)
      g := shade color.g (original idx)
      b := shade color.b (original idx)
      a := color.a }

/-- The function `generate_component_colors`: the background is chosen, then
`y` runs over the rows and `x` over the columns; the result is the output
image after the loops. -/
def generate_component_colors (shade : Fin 256 → Pixel → Fin 256) (output : Nat → Pixel)
    (pixel_comp : Nat → Nat) (components : Nat → Component)
    (width height num_components : Nat) (original : Nat → Pixel) : Nat → Pixel :=
  fill_grid width
    (fun x y => highlight_pixel shade pixel_comp components
      (find_background components num_components) original (y * width + x))
    (List.range height) (List.range width) output

/-- A 3x3 image in which every pixel is (5,6,7) with alpha 0. -/
def img_transparent : Nat → Pixel := fun _ => ⟨5, 6, 7, 0⟩

/-- A stand-in for the `float` shading that keeps the palette channel. -/
def shade_full : Fin 256 → Pixel → Fin 256 := fun c _ => c

/-- A 1x1 image: one opaque pixel of colour (200,10,10). -/
def img_one_red : Nat → Pixel := image_of [⟨200, 10, 10, 255⟩]

/-! ## The `float` shading

Lines 216-222 of `main.c` compute in `float`.  A nonnegative `float` is kept as
the dyadic rational `m / 2^e`, and every operation is the exact rational
operation followed by the rounding of IEEE 754 binary32 (round to nearest,
ties to even), one rounding per operation. -/

/-- A nonnegative `float` value: the dyadic number `m / 2^e`. -/
structure F32 where
  m : Nat
  e : Nat
deriving DecidableEq

/-- The rational number that a `float` value stands for. -/
def f32_val (x : F32) : ℚ := (x.m : ℚ) / 2 ^ x.e

/-- The integer nearest to `n / d`, a tie going to the even one. -/
def round_half_even (n d : Nat) : Nat :=
  if 2 * (n % d) < d then n / d
  else if d < 2 * (n % d) then n / d + 1
  else if (n / d) % 2 = 0 then n / d else n / d + 1

/-- The least `e` from `e` upward, within `fuel` steps, with
`2^23 <= (a / b) * 2^e`. -/
def places_from (a b : Nat) : Nat → Nat → Nat
  | 0, e => e
  | fuel + 1, e => if 2 ^ 23 * b ≤ a * 2 ^ e then e else places_from a b fuel (e + 1)

/-- The number of binary places of the `float` nearest to `a / b < 2^24`: the
least `e` with `2^23 <= (a / b) * 2^e`, so that the significand has 24 bits.
It is at most `b + 23`. -/
def places (a b : Nat) : Nat := places_from a b (b + 23) 0

/-- The least `k` from `k` upward, within `fuel` steps, with
`a / b < 2^(24 + k)`. -/
def drops_from (a b : Nat) : Nat → Nat → Nat
  | 0, k => k
  | fuel + 1, k => if a < 2 ^ (24 + k) * b then k else drops_from a b fuel (k + 1)

/-- Rounding of the rational `a / b >= 0` to `float` (binary32, round to nearest,
ties to even): the nearest number with a significand of 24 bits.  The exponent
range of `float` is not modelled; the values of `generate_component_colors`
lie between `2^-12` and `2^8`. -/
def f32_round (a b : Nat) : F32 :=
  if a = 0 then ⟨0, 0⟩
  else if 2 ^ 24 * b ≤ a then
    ⟨round_half_even a (b * 2 ^ drops_from a b a 0) * 2 ^ drops_from a b a 0, 0⟩
  else ⟨round_half_even (a * 2 ^ places a b) b, places a b⟩

/-- The `float` constant written `0.299f`, `0.587f` or `0.114f`: the decimal
`n / 1000` rounded to `float`. -/
def f32_const (n : Nat) : F32 := f32_round n 1000

/-- The `float` product of an `unsigned char` (converted exactly) and a
`float`. -/
def f32_mul_int (n : Nat) (x : F32) : F32 := f32_round (n * x.m) (2 ^ x.e)

/-- The `float` sum of two `float`s. -/
def f32_add (x y : F32) : F32 :=
  f32_round (x.m * 2 ^ y.e + y.m * 2 ^ x.e) (2 ^ (x.e + y.e))

/-- The `float` quotient of a `float` by the `float` of an integer (`255.0f`). -/
def f32_div_int (x : F32) (n : Nat) : F32 := f32_round x.m (n * 2 ^ x.e)

/-- The conversion of a nonnegative `float` to an integer type: truncation. -/
def f32_trunc (x : F32) : Nat := x.m / 2 ^ x.e

/-- The variable `brightness` of `generate_component_colors`:
`(r * 0.299f + g * 0.587f + b * 0.114f) / 255.0f`, every operation in `float`,
the sum taken left to right. -/
def brightness (p : Pixel) : F32 :=
  f32_div_int
    (f32_add
      (f32_add (f32_mul_int p.r.val (f32_const 299)) (f32_mul_int p.g.val (f32_const 587)))
      (f32_mul_int p.b.val (f32_const 114)))
    255

/-- The value `(unsigned char)(c * brightness)` that `generate_component_colors`
stores in a channel, for the palette channel `c` and the original pixel `p`. -/
def shade_float (c : Fin 256) (p : Pixel) : Fin 256 :=
  uchar (f32_trunc (f32_mul_int c.val (brightness p)) : Nat)

/-- The value `floor(c * L)` with the exact luminance
`L = (0.299*R + 0.587*G + 0.114*B) / 255` of the pixel `p`. -/
def exact_shade (c : Nat) (p : Pixel) : Nat :=
  c * (299 * p.r.val + 587 * p.g.val + 114 * p.b.val) / 255000

/-- A 3x1 opaque image: two grey pixels (200,200,200) and a pixel (8,80,32). -/
def img_grey_green : Nat → Pixel :=
  image_of [⟨200, 200, 200, 255⟩, ⟨200, 200, 200, 255⟩, ⟨8, 80, 32, 255⟩]

/-- The labels of `img_grey_green` with threshold 30: 1, 1, 2. -/
def labels_grey_green : Nat → Nat := fun i => [1, 1, 2].getD i 0

/-- The component table of `img_grey_green` with threshold 30: record 1 has two
pixels of average (200,200,200), record 2 one pixel of average (8,80,32). -/
def components_grey_green : Nat → Component :=
  fun i => [⟨0, 0, 0, 0⟩, ⟨2, 200, 200, 200⟩, ⟨1, 8, 80, 32⟩].getD i ⟨0, 0, 0, 0⟩

/-! ## Lemmas -/

theorem pidx_mk (width x y : Nat) : pidx width ⟨x, y⟩ = y * width + x := by
  unfold pidx
  have : ((y : Int) * width + x) = ((y * width + x : Nat) : Int) := by push_cast; ring
  simp only [this, Int.toNat_ofNat]

theorem pidx_cast {width height : Nat} {p : Point} (hp : InGrid width height p) :
    (pidx width p : Int) = p.y * width + p.x := by
  obtain ⟨h1, _, h3, _⟩ := hp
  unfold pidx
  have : 0 ≤ p.y * width := mul_nonneg h3 (Int.ofNat_nonneg _)
  rw [Int.toNat_of_nonneg (by omega)]

theorem pidx_lt {width height : Nat} {p : Point} (hp : InGrid width height p) :
    pidx width p < width * height := by
  have hc := pidx_cast hp
  obtain ⟨h1, h2, h3, h4⟩ := hp
  have h5 : p.y + 1 ≤ height := by omega
  have h6 : (p.y + 1) * width ≤ (height : Int) * width :=
    mul_le_mul_of_nonneg_right h5 (Int.ofNat_nonneg _)
  have h7 : (pidx width p : Int) < (width * height : Nat) := by
    push_cast; rw [hc]; nlinarith
  exact_mod_cast h7

theorem pidx_inj {width height : Nat} {p q : Point} (hp : InGrid width height p)
    (hq : InGrid width height q) (h : pidx width p = pidx width q) : p = q := by
  have hcp := pidx_cast hp
  have hcq := pidx_cast hq
  rw [h] at hcp
  obtain ⟨p1, p2, p3, p4⟩ := hp
  obtain ⟨q1, q2, q3, q4⟩ := hq
  have hy : p.y = q.y := by
    rcases lt_trichotomy p.y q.y with hlt | heq | hgt
    · exfalso
      have : (p.y + 1) * width ≤ q.y * width :=
        mul_le_mul_of_nonneg_right (by omega) (Int.ofNat_nonneg _)
      nlinarith
    · exact heq
    · exfalso
      have : (q.y + 1) * width ≤ p.y * width :=
        mul_le_mul_of_nonneg_right (by omega) (Int.ofNat_nonneg _)
      nlinarith
  have hx : p.x = q.x := by rw [hy] at hcp; omega
  cases p; cases q; simp_all

theorem adj4_iff_neighbor (p q : Point) : Adj4 p q ↔ ∃ i, i < 4 ∧ q = neighbor p i := by
  constructor
  · intro h
    unfold Adj4 at h
    have hc : (q.x = p.x - 1 ∧ q.y = p.y) ∨ (q.x = p.x + 1 ∧ q.y = p.y) ∨
        (q.x = p.x ∧ q.y = p.y - 1) ∨ (q.x = p.x ∧ q.y = p.y + 1) := by omega
    cases q with | mk qx qy =>
    simp only at hc
    rcases hc with ⟨h1, h2⟩ | ⟨h1, h2⟩ | ⟨h1, h2⟩ | ⟨h1, h2⟩
    · exact ⟨0, by omega, by simp [neighbor, dx, dy, h1, h2]; omega⟩
    · exact ⟨1, by omega, by simp [neighbor, dx, dy, h1, h2]⟩
    · exact ⟨2, by omega, by simp [neighbor, dx, dy, h1, h2]; omega⟩
    · exact ⟨3, by omega, by simp [neighbor, dx, dy, h1, h2]⟩
  · rintro ⟨i, hi, rfl⟩
    unfold Adj4
    have : i = 0 ∨ i = 1 ∨ i = 2 ∨ i = 3 := by omega
    rcases this with rfl | rfl | rfl | rfl <;> simp [neighbor, dx, dy]

theorem adj4_symm {p q : Point} (h : Adj4 p q) : Adj4 q p := by
  unfold Adj4 at *; omega


/-! ### Arrays and counting -/

theorem store_same {α : Type} (m : Nat → α) (i : Nat) (v : α) : store m i v i = v := by
  simp [store]

theorem store_other {α : Type} (m : Nat → α) {i j : Nat} (v : α) (h : j ≠ i) :
    store m i v j = m j := by
  simp [store, h]

theorem labelled_store_new (m : Nat → Nat) {N i v : Nat} (hi : i < N) (hv : m i ≠ v) :
    labelled (store m i v) N v = insert i (labelled m N v) ∧ i ∉ labelled m N v := by
  constructor
  · ext j
    simp only [labelled, Finset.mem_filter, Finset.mem_range, Finset.mem_insert]
    by_cases hj : j = i
    · subst hj; simp [store_same, hi]
    · simp [store_other _ _ hj, hj]
  · simp [labelled, hv]

theorem labelled_store_old (m : Nat → Nat) {N i v u : Nat} (hu : m i = u) (huv : u ≠ v)
    (hi : i < N) :
    labelled m N u = insert i (labelled (store m i v) N u) ∧
      i ∉ labelled (store m i v) N u := by
  constructor
  · ext j
    simp only [labelled, Finset.mem_filter, Finset.mem_range, Finset.mem_insert]
    by_cases hj : j = i
    · subst hj; simp [hi, hu]
    · simp [store_other _ _ hj, hj]
  · simp [labelled, store_same, Ne.symm huv]

theorem labelled_store_ne (m : Nat → Nat) {N i v u : Nat} (hu : m i ≠ u) (huv : v ≠ u) :
    labelled (store m i v) N u = labelled m N u := by
  ext j
  simp only [labelled, Finset.mem_filter, Finset.mem_range]
  by_cases hj : j = i
  · subst hj; simp [store_same, hu, huv]
  · simp [store_other _ _ hj]

theorem label_count_store_new (m : Nat → Nat) {N i v : Nat} (hi : i < N) (hv : m i ≠ v) :
    label_count (store m i v) N v = label_count m N v + 1 := by
  obtain ⟨h1, h2⟩ := labelled_store_new m hi hv
  simp [label_count, h1, Finset.card_insert_of_not_mem h2]

theorem label_sum_store_new (f : Nat → Nat) (m : Nat → Nat) {N i v : Nat} (hi : i < N)
    (hv : m i ≠ v) :
    label_sum f (store m i v) N v = label_sum f m N v + f i := by
  obtain ⟨h1, h2⟩ := labelled_store_new m hi hv
  simp [label_sum, h1, Finset.sum_insert h2, add_comm]

theorem label_count_store_old (m : Nat → Nat) {N i v u : Nat} (hu : m i = u) (huv : u ≠ v)
    (hi : i < N) :
    label_count (store m i v) N u + 1 = label_count m N u := by
  obtain ⟨h1, h2⟩ := labelled_store_old m hu huv hi
  simp only [label_count]
  rw [h1, Finset.card_insert_of_not_mem h2]

theorem label_count_le (m : Nat → Nat) (N v : Nat) : label_count m N v ≤ N := by
  unfold label_count labelled
  calc ((Finset.range N).filter (fun j => m j = v)).card
      ≤ (Finset.range N).card := Finset.card_filter_le _ _
    _ = N := Finset.card_range N

theorem wrap_int_add (a b : Int) : wrap_int (wrap_int a + b) = wrap_int (a + b) := by
  unfold wrap_int; omega

theorem wrap_int_small {a : Int} (h0 : 0 ≤ a) (h1 : a < 2147483648) : wrap_int a = a := by
  unfold wrap_int; omega


/-! ### One neighbour test -/

theorem BFS_visit_join (image : Nat → Pixel) (width height : Nat) (seed : Pixel)
    (c : Nat) (threshold : Int) (p : Point) (st : BFSState) (i : Nat)
    (h : Joins image width height seed threshold st (neighbor p i)) :
    BFS_visit image width height seed c threshold p st i =
      join image width c st (neighbor p i) := by
  obtain ⟨hg, hz, hd⟩ := h
  unfold InGrid neighbor at hg
  unfold pidx neighbor at hz hd
  simp only at hg hz hd
  unfold BFS_visit join pidx neighbor
  simp only [hg, hz, hd, and_self, if_true]

theorem BFS_visit_skip (image : Nat → Pixel) (width height : Nat) (seed : Pixel)
    (c : Nat) (threshold : Int) (p : Point) (st : BFSState) (i : Nat)
    (h : ¬ Joins image width height seed threshold st (neighbor p i)) :
    BFS_visit image width height seed c threshold p st i = st := by
  unfold Joins InGrid pidx neighbor at h
  simp only at h
  unfold BFS_visit
  simp only
  split_ifs with h1 h2 h3
  · exact absurd ⟨h1, h2, h3⟩ h
  all_goals rfl


theorem store_keep_val (m : Nat → Nat) (i j c : Nat) (h : m j = c) : store m i c j = c := by
  by_cases hj : j = i
  · subst hj; exact store_same _ _ _
  · rw [store_other _ _ hj]; exact h

theorem join_inv {image : Nat → Pixel} {L : Nat → Nat} {width height : Nat} {s : Point}
    {c : Nat} {threshold : Int} {st : BFSState} (hc : c ≠ 0)
    (hinv : BInv image L width height s c threshold st) {p n : Point}
    (hp : ∃ j, j < st.queue.rear ∧ st.queue.data j = p) (hadj : Adj4 p n)
    (hj : Joins image width height (image (pidx width s)) threshold st n) :
    BInv image L width height s c threshold (join image width c st n) := by
  obtain ⟨hg, hz, hd⟩ := hj
  have hlt := pidx_lt hg
  have hne : st.pixel_comp (pidx width n) ≠ c := by rw [hz]; exact Ne.symm hc
  have hmono : ∀ a b, InRegion st.pixel_comp width height c a b →
      InRegion (store st.pixel_comp (pidx width n) c) width height c a b := by
    intro a b ⟨h1, h2, h3⟩
    exact ⟨h1, h2, store_keep_val _ _ _ _ h3⟩
  obtain ⟨jp, hjp, hdp⟩ := hp
  have hpq := hinv.queue_ok jp hjp
  rw [hdp] at hpq
  refine ⟨?_, store_keep_val _ _ _ _ hinv.seed_lab, ?_, ?_, ?_, ?_, ?_, ?_, ?_, ?_, ?_⟩
  · intro idx
    by_cases h : idx = pidx width n
    · subst h
      right
      refine ⟨?_, store_same _ _ _, hlt⟩
      rcases hinv.frame (pidx width n) with h1 | ⟨_, h2, _⟩
      · rw [← h1]; exact hz
      · exact absurd h2 hne
    · simp only [join, store_other _ _ h]
      exact hinv.frame idx
  · intro j hj
    simp only [join] at hj ⊢
    by_cases h : j = st.queue.rear
    · subst h
      rw [store_same]
      exact ⟨hg, store_same _ _ _⟩
    · rw [store_other _ _ h]
      have := hinv.queue_ok j (by omega)
      exact ⟨this.1, store_keep_val _ _ _ _ this.2⟩
  · intro q hq hlab
    simp only [join] at hlab ⊢
    by_cases h : pidx width q = pidx width n
    · refine ⟨st.queue.rear, by omega, ?_⟩
      rw [store_same]
      exact (pidx_inj hq hg h).symm
    · rw [store_other _ _ h] at hlab
      obtain ⟨j, hj1, hj2⟩ := hinv.in_queue q hq hlab
      refine ⟨j, by omega, ?_⟩
      rw [store_other _ _ (by omega)]
      exact hj2
  · intro q hq hlab
    simp only [join] at hlab ⊢
    by_cases h : pidx width q = pidx width n
    · have hqn : q = n := pidx_inj hq hg h
      subst hqn
      have h1 := (hinv.conn p hpq.1 hpq.2).mono hmono
      exact h1.tail ⟨hadj, hg, store_same _ _ _⟩
    · rw [store_other _ _ h] at hlab
      exact (hinv.conn q hq hlab).mono hmono
  · intro idx hlab
    simp only [join] at hlab
    by_cases h : idx = pidx width n
    · subst h; right; exact hd
    · rw [store_other _ _ h] at hlab
      exact hinv.diff idx hlab
  · simp only [join]
    rw [label_count_store_new _ hlt hne, hinv.count]
  · simp only [join]
    rw [label_sum_store_new _ _ hlt hne, hinv.tot_r, wrap_int_add]
    push_cast; rfl
  · simp only [join]
    rw [label_sum_store_new _ _ hlt hne, hinv.tot_g, wrap_int_add]
    push_cast; rfl
  · simp only [join]
    rw [label_sum_store_new _ _ hlt hne, hinv.tot_b, wrap_int_add]
    push_cast; rfl
  · simp only [join]
    have := label_count_store_old (v := c) st.pixel_comp hz (Ne.symm hc) hlt
    have := hinv.pot
    omega


theorem Ext.refl (st : BFSState) : Ext st st :=
  ⟨rfl, le_refl _, fun _ _ => rfl, fun _ h => h, fun _ _ => rfl⟩

theorem Ext.trans {a b d : BFSState} (h1 : Ext a b) (h2 : Ext b d) : Ext a d where
  front_eq := h2.front_eq.trans h1.front_eq
  rear_le := le_trans h1.rear_le h2.rear_le
  data_eq := fun j hj => (h2.data_eq j (lt_of_lt_of_le hj h1.rear_le)).trans (h1.data_eq j hj)
  zero_of := fun idx h => h1.zero_of idx (h2.zero_of idx h)
  keep := fun idx h => by
    have hb := h1.keep idx h
    rw [h2.keep idx (by rw [hb]; exact h), hb]

theorem join_ext (image : Nat → Pixel) (width : Nat) (c : Nat) (st : BFSState)
    (n : Point) (hz : st.pixel_comp (pidx width n) = 0) :
    Ext st (join image width c st n) where
  front_eq := rfl
  rear_le := Nat.le_succ _
  data_eq := fun j hj => store_other _ _ (Nat.ne_of_lt hj)
  zero_of := fun idx h => by
    simp only [join] at h
    by_cases hi : idx = pidx width n
    · subst hi; exact hz
    · rwa [store_other _ _ hi] at h
  keep := fun idx h => by
    simp only [join]
    by_cases hi : idx = pidx width n
    · subst hi; exact absurd hz h
    · exact store_other _ _ hi

theorem BFS_visit_ext (image : Nat → Pixel) (width height : Nat) (seed : Pixel) (c : Nat)
    (threshold : Int) (p : Point) (st : BFSState) (i : Nat) :
    Ext st (BFS_visit image width height seed c threshold p st i) := by
  by_cases h : Joins image width height seed threshold st (neighbor p i)
  · rw [BFS_visit_join _ _ _ _ _ _ _ _ _ h]
    exact join_ext image width c st _ h.2.1
  · rw [BFS_visit_skip _ _ _ _ _ _ _ _ _ h]
    exact Ext.refl st

theorem not_joins_of_ext {image : Nat → Pixel} {width height : Nat} {seed : Pixel}
    {threshold : Int} {st1 st2 : BFSState} (hext : Ext st1 st2) {n : Point}
    (h : ¬ Joins image width height seed threshold st1 n) :
    ¬ Joins image width height seed threshold st2 n := by
  rintro ⟨h1, h2, h3⟩
  exact h ⟨h1, hext.zero_of _ h2, h3⟩

theorem BFS_visit_done (image : Nat → Pixel) (width height : Nat) (seed : Pixel) {c : Nat}
    (hc : c ≠ 0) (threshold : Int) (p : Point) (st : BFSState) (i : Nat) :
    ¬ Joins image width height seed threshold
      (BFS_visit image width height seed c threshold p st i) (neighbor p i) := by
  by_cases h : Joins image width height seed threshold st (neighbor p i)
  · rw [BFS_visit_join _ _ _ _ _ _ _ _ _ h]
    rintro ⟨_, h2, _⟩
    simp only [join, store_same] at h2
    exact hc h2
  · rw [BFS_visit_skip _ _ _ _ _ _ _ _ _ h]
    exact h

theorem BFS_visit_inv {image : Nat → Pixel} {L : Nat → Nat} {width height : Nat}
    {s : Point} {c : Nat} {threshold : Int} {st : BFSState} (hc : c ≠ 0)
    (hinv : BInv image L width height s c threshold st) {p : Point}
    (hp : ∃ j, j < st.queue.rear ∧ st.queue.data j = p) {i : Nat} (hi : i < 4) :
    BInv image L width height s c threshold
      (BFS_visit image width height (image (pidx width s)) c threshold p st i) := by
  by_cases h : Joins image width height (image (pidx width s)) threshold st (neighbor p i)
  · rw [BFS_visit_join _ _ _ _ _ _ _ _ _ h]
    exact join_inv hc hinv hp ((adj4_iff_neighbor p _).2 ⟨i, hi, rfl⟩) h
  · rw [BFS_visit_skip _ _ _ _ _ _ _ _ _ h]
    exact hinv

theorem BFS_visits_inv {image : Nat → Pixel} {L : Nat → Nat} {width height : Nat}
    {s : Point} {c : Nat} {threshold : Int} (hc : c ≠ 0) (p : Point) (l : List Nat)
    (hl : ∀ i ∈ l, i < 4) (st : BFSState)
    (hinv : BInv image L width height s c threshold st)
    (hp : ∃ j, j < st.queue.rear ∧ st.queue.data j = p) :
    BInv image L width height s c threshold
        (l.foldl (BFS_visit image width height (image (pidx width s)) c threshold p) st) ∧
      Ext st (l.foldl (BFS_visit image width height (image (pidx width s)) c threshold p) st) ∧
      ∀ i ∈ l, ¬ Joins image width height (image (pidx width s)) threshold
        (l.foldl (BFS_visit image width height (image (pidx width s)) c threshold p) st)
        (neighbor p i) := by
  induction l generalizing st with
  | nil => exact ⟨hinv, Ext.refl st, fun i hi => absurd hi (List.not_mem_nil i)⟩
  | cons a l ih =>
    have ha : a < 4 := hl a (List.mem_cons_self a l)
    have hl2 : ∀ i ∈ l, i < 4 := fun i hi => hl i (List.mem_cons_of_mem a hi)
    have hext := BFS_visit_ext image width height (image (pidx width s)) c threshold p st a
    have hinv2 := BFS_visit_inv hc hinv hp ha
    obtain ⟨j, hj1, hj2⟩ := hp
    have hp2 : ∃ j, j < (BFS_visit image width height (image (pidx width s)) c threshold
        p st a).queue.rear ∧ (BFS_visit image width height (image (pidx width s)) c threshold
        p st a).queue.data j = p :=
      ⟨j, lt_of_lt_of_le hj1 hext.rear_le, (hext.data_eq j hj1).trans hj2⟩
    obtain ⟨r1, r2, r3⟩ := ih hl2 _ hinv2 hp2
    simp only [List.foldl_cons]
    refine ⟨r1, hext.trans r2, ?_⟩
    intro i hi
    rcases List.mem_cons.1 hi with rfl | hi2
    · exact not_joins_of_ext r2 (BFS_visit_done image width height _ hc threshold p st i)
    · exact r3 i hi2


/-! ### The loop of `BFS` -/

theorem BFS_iter_inv {image : Nat → Pixel} {L : Nat → Nat} {width height : Nat}
    {s : Point} {c : Nat} {threshold : Int} {st : BFSState} (hc : c ≠ 0)
    (hinv : BInv image L width height s c threshold st)
    (hlt : st.queue.front < st.queue.rear)
    (hcl : Closed image width height (image (pidx width s)) threshold st) :
    BInv image L width height s c threshold
        (BFS_iter image width height (image (pidx width s)) c threshold st) ∧
      (BFS_iter image width height (image (pidx width s)) c threshold st).queue.front =
        st.queue.front + 1 ∧
      (BFS_iter image width height (image (pidx width s)) c threshold st).queue.front ≤
        (BFS_iter image width height (image (pidx width s)) c threshold st).queue.rear ∧
      Closed image width height (image (pidx width s)) threshold
        (BFS_iter image width height (image (pidx width s)) c threshold st) := by
  have hinv1 : BInv image L width height s c threshold
      { st with queue := { st.queue with front := st.queue.front + 1 } } :=
    ⟨hinv.frame, hinv.seed_lab, hinv.queue_ok, hinv.in_queue, hinv.conn, hinv.diff, hinv.count,
      hinv.tot_r, hinv.tot_g, hinv.tot_b, hinv.pot⟩
  have hl : ∀ i ∈ List.range 4, i < 4 := fun i hi => List.mem_range.1 hi
  obtain ⟨r1, r2, r3⟩ := BFS_visits_inv hc (st.queue.data st.queue.front) (List.range 4) hl
    { st with queue := { st.queue with front := st.queue.front + 1 } } hinv1
    ⟨st.queue.front, hlt, rfl⟩
  have hfront := r2.front_eq
  have hrear := r2.rear_le
  simp only at hfront hrear
  refine ⟨r1, hfront, ?_, ?_⟩
  · have h1 : (BFS_iter image width height (image (pidx width s)) c threshold st).queue.front
        = st.queue.front + 1 := hfront
    have h2 : st.queue.rear ≤
        (BFS_iter image width height (image (pidx width s)) c threshold st).queue.rear := hrear
    omega
  · intro j hj i hi
    have hj' : j < st.queue.front + 1 := by
      have : (BFS_iter image width height (image (pidx width s)) c threshold st).queue.front
          = st.queue.front + 1 := hfront
      omega
    have hdata : (BFS_iter image width height (image (pidx width s)) c threshold
        st).queue.data j = st.queue.data j := r2.data_eq j (by simp only; omega)
    rw [hdata]
    by_cases hjf : j = st.queue.front
    · subst hjf
      exact r3 i (List.mem_range.2 hi)
    · have h0 := hcl j (by omega) i hi
      refine not_joins_of_ext r2 ?_
      exact h0

theorem BFS_loop_inv {image : Nat → Pixel} {L : Nat → Nat} {width height : Nat}
    {s : Point} {c : Nat} {threshold : Int} (hc : c ≠ 0) (fuel : Nat) (st : BFSState)
    (hinv : BInv image L width height s c threshold st)
    (hle : st.queue.front ≤ st.queue.rear)
    (hcl : Closed image width height (image (pidx width s)) threshold st)
    (hfuel : width * height ≤ fuel + st.queue.front) :
    ∃ st2, BFS_loop image width height (image (pidx width s)) c threshold fuel st = some st2 ∧
      BInv image L width height s c threshold st2 ∧
      st2.queue.front = st2.queue.rear ∧
      Closed image width height (image (pidx width s)) threshold st2 := by
  induction fuel generalizing st with
  | zero =>
    have hpot := hinv.pot
    have : st.queue.front = st.queue.rear := by omega
    refine ⟨st, ?_, hinv, this, hcl⟩
    simp [BFS_loop, this]
  | succ fuel ih =>
    by_cases hfr : st.queue.front = st.queue.rear
    · refine ⟨st, ?_, hinv, hfr, hcl⟩
      simp [BFS_loop, hfr]
    · have hlt : st.queue.front < st.queue.rear := by omega
      obtain ⟨i1, i2, i3, i4⟩ := BFS_iter_inv hc hinv hlt hcl
      obtain ⟨st2, h1, h2⟩ := ih _ i1 i3 i4 (by rw [i2]; omega)
      refine ⟨st2, ?_, h2⟩
      simp only [BFS_loop, ne_eq, hfr, not_false_eq_true, if_true]
      exact h1


/-! ### One pass of `BFS` -/

theorem labelled_empty {m : Nat → Nat} {v : Nat} (N : Nat) (h : ∀ idx, m idx ≠ v) :
    labelled m N v = ∅ := by
  ext j
  simp [labelled, h j]

theorem BFS_init_inv (image : Nat → Pixel) (L : Nat → Nat) {width height x y c : Nat}
    (threshold : Int) (hc : c ≠ 0) (hx : x < width) (hy : y < height)
    (hz : L (y * width + x) = 0) (hL : ∀ idx, L idx ≠ c) :
    BInv image L width height ⟨x, y⟩ c threshold
      (BFS_init image L width height x y c) := by
  have hg : InGrid width height ⟨x, y⟩ := by
    unfold InGrid; simp only; omega
  have hlt : y * width + x < width * height := by
    have := pidx_lt hg
    rwa [pidx_mk] at this
  have hne : L (y * width + x) ≠ c := hL _
  have hlab : ∀ idx, store L (y * width + x) c idx = c → idx = y * width + x := by
    intro idx h
    by_contra hi
    rw [store_other _ _ hi] at h
    exact hL idx h
  have hsum : ∀ f : Nat → Nat, label_sum f L (width * height) c = 0 := by
    intro f; simp [label_sum, labelled_empty _ hL]
  have hcnt : label_count L (width * height) c = 0 := by
    simp [label_count, labelled_empty _ hL]
  refine ⟨?_, by rw [pidx_mk]; exact store_same _ _ _, ?_, ?_, ?_, ?_, ?_, ?_, ?_, ?_, ?_⟩
  · intro idx
    by_cases h : idx = y * width + x
    · subst h; right; exact ⟨hz, store_same _ _ _, hlt⟩
    · left; exact store_other _ _ h
  · intro j hj
    have hj0 : j = 0 := by
      simp only [BFS_init, createQueue] at hj; omega
    subst hj0
    simp only [BFS_init, createQueue, store_same, pidx_mk]
    exact ⟨hg, trivial⟩
  · intro p hp hlab'
    refine ⟨0, by simp [BFS_init, createQueue], ?_⟩
    simp only [BFS_init, createQueue, store_same]
    have := hlab _ hlab'
    rw [← pidx_mk] at this
    exact (pidx_inj hp hg this).symm
  · intro p hp hlab'
    have := hlab _ hlab'
    rw [← pidx_mk] at this
    rw [pidx_inj hp hg this]
  · intro idx hlab'
    left
    rw [pidx_mk]
    exact hlab _ hlab'
  · simp only [BFS_init]
    rw [label_count_store_new _ hlt hne, hcnt]
  · simp only [BFS_init]
    rw [label_sum_store_new _ _ hlt hne, hsum, wrap_int_small (by positivity)
      (by have := (image (y * width + x)).r.isLt; simp only [zero_add]; omega)]
    simp
  · simp only [BFS_init]
    rw [label_sum_store_new _ _ hlt hne, hsum, wrap_int_small (by positivity)
      (by have := (image (y * width + x)).g.isLt; simp only [zero_add]; omega)]
    simp
  · simp only [BFS_init]
    rw [label_sum_store_new _ _ hlt hne, hsum, wrap_int_small (by positivity)
      (by have := (image (y * width + x)).b.isLt; simp only [zero_add]; omega)]
    simp
  · simp only [BFS_init, createQueue]
    have h1 := label_count_store_old (v := c) L hz (Ne.symm hc) hlt
    have h2 := label_count_le L (width * height) 0
    omega

theorem BFS_spec (image : Nat → Pixel) (L : Nat → Nat) (components : Nat → Component)
    {width height x y c : Nat} (threshold : Int) (hc : c ≠ 0) (hx : x < width)
    (hy : y < height) (hz : L (y * width + x) = 0) (hL : ∀ idx, L idx < c) :
    ∃ res, BFS image L components width height x y c threshold = some res ∧
      (∀ idx, res.1 idx = L idx ∨ (L idx = 0 ∧ res.1 idx = c ∧ idx < width * height)) ∧
      (∀ j, j ≠ c → res.2 j = components j) ∧
      Region image width height threshold res.1 res.2 ⟨x, y⟩ c := by
  have hL' : ∀ idx, L idx ≠ c := fun idx => Nat.ne_of_lt (hL idx)
  have hinit := BFS_init_inv image L threshold hc hx hy hz hL'
  have hcl0 : Closed image width height (image (pidx width ⟨x, y⟩)) threshold
      (BFS_init image L width height x y c) := by
    intro j hj
    simp [BFS_init, createQueue] at hj
  obtain ⟨st, h1, h2, h3, h4⟩ := BFS_loop_inv hc (width * height) _ hinit
    (by simp [BFS_init, createQueue]) hcl0 (Nat.le_add_right _ _)
  rw [pidx_mk] at h1
  refine ⟨(st.pixel_comp, store components c (BFS_record st)), ?_, h2.frame, ?_, ?_⟩
  · simp only [BFS, h1]
  · intro j hj
    exact store_other _ _ hj
  · have hg : InGrid width height ⟨x, y⟩ := by
      unfold InGrid; simp only; omega
    refine ⟨hg, h2.seed_lab, h2.conn, h2.diff, ?_, ?_, ?_, ?_, ?_⟩
    · intro p hp hlab q hadj hq
      show (st.pixel_comp (pidx width q) ≠ 0 ∧ st.pixel_comp (pidx width q) ≤ c) ∨ _
      obtain ⟨j, hj1, hj2⟩ := h2.in_queue p hp hlab
      obtain ⟨i, hi, hqi⟩ := (adj4_iff_neighbor p q).1 hadj
      have := h4 j (by omega) i hi
      rw [hj2, ← hqi] at this
      by_cases hd : color_diff (image (pidx width ⟨x, y⟩)) (image (pidx width q)) < threshold
      · left
        have hq0 : st.pixel_comp (pidx width q) ≠ 0 := fun h0 => this ⟨hq, h0, hd⟩
        refine ⟨hq0, ?_⟩
        rcases h2.frame (pidx width q) with h | ⟨_, h, _⟩
        · rw [h]; exact le_of_lt (hL _)
        · rw [h]
      · right; exact hd
    · simp only [store_same, BFS_record]; exact h2.count
    · simp only [store_same, BFS_record]; rw [h2.tot_r, h2.count]
    · simp only [store_same, BFS_record]; rw [h2.tot_g, h2.count]
    · simp only [store_same, BFS_record]; rw [h2.tot_b, h2.count]


/-! ### The scan of `find_components` -/

theorem Region.later {image : Nat → Pixel} {width height : Nat} {threshold : Int}
    {P P2 : Nat → Nat} {C C2 : Nat → Component} {s : Point} {c c2 : Nat}
    (hR : Region image width height threshold P C s c) (hc : c ≠ 0) (hcc : c < c2)
    (hframe : ∀ idx, P2 idx = P idx ∨ (P idx = 0 ∧ P2 idx = c2 ∧ idx < width * height))
    (hC : C2 c = C c) : Region image width height threshold P2 C2 s c := by
  have hiff : ∀ idx, P2 idx = c ↔ P idx = c := by
    intro idx
    rcases hframe idx with h | ⟨h0, h1, _⟩
    · rw [h]
    · constructor
      · intro h; omega
      · intro h; omega
  have hkeep : ∀ idx, P idx ≠ 0 → P2 idx = P idx := by
    intro idx h
    rcases hframe idx with h1 | ⟨h0, _, _⟩
    · exact h1
    · exact absurd h0 h
  have hset : labelled P2 (width * height) c = labelled P (width * height) c := by
    ext j
    simp only [labelled, Finset.mem_filter, Finset.mem_range, hiff]
  have hcnt : label_count P2 (width * height) c = label_count P (width * height) c := by
    simp only [label_count, hset]
  have hsum : ∀ f, label_sum f P2 (width * height) c = label_sum f P (width * height) c := by
    intro f; simp only [label_sum, hset]
  refine ⟨hR.seed_in, (hiff _).2 hR.seed_lab, ?_, ?_, ?_, ?_, ?_, ?_, ?_⟩
  · intro p hp hlab
    refine (hR.conn p hp ((hiff _).1 hlab)).mono ?_
    intro a b ⟨h1, h2, h3⟩
    exact ⟨h1, h2, (hiff _).2 h3⟩
  · intro idx hlab
    exact hR.diff idx ((hiff _).1 hlab)
  · intro p hp hlab q hadj hq
    rcases hR.closed p hp ((hiff _).1 hlab) q hadj hq with ⟨h1, h2⟩ | h
    · left; rw [hkeep _ h1]; exact ⟨h1, h2⟩
    · right; exact h
  · rw [hC, hcnt]; exact hR.cnt
  · rw [hC, hcnt, hsum]; exact hR.avg_r
  · rw [hC, hcnt, hsum]; exact hR.avg_g
  · rw [hC, hcnt, hsum]; exact hR.avg_b

theorem scan_pixel_inv (image : Nat → Pixel) {width height : Nat} (threshold : Int)
    {x y : Nat} (hx : x < width) (hy : y < height) {st : ScanState}
    (hinv : SInv image width height threshold (y * width + x) st) :
    ∃ st2, scan_pixel image width height threshold y st x = some st2 ∧
      SInv image width height threshold (y * width + x + 1) st2 ∧
      (∀ idx, st.pixel_comp idx ≠ 0 → st2.pixel_comp idx = st.pixel_comp idx) := by
  by_cases hguard : st.pixel_comp (y * width + x) = 0 ∧ 128 < (image (y * width + x)).a.val
  · have hc : st.component_id ≠ 0 := by rw [hinv.id_eq]; omega
    obtain ⟨res, hres, hframe, hcomp, hreg⟩ := BFS_spec image st.pixel_comp st.components
      threshold hc hx hy hguard.1 hinv.lab_lt
    have hkeep : ∀ idx, st.pixel_comp idx ≠ 0 → res.1 idx = st.pixel_comp idx := by
      intro idx h
      rcases hframe idx with h1 | ⟨h0, _, _⟩
      · exact h1
      · exact absurd h0 h
    refine ⟨{ pixel_comp := res.1, components := res.2,
              component_id := st.component_id + 1, seeds := st.seeds ++ [(x, y)] },
      ?_, ?_, hkeep⟩
    · simp only [scan_pixel, hguard, and_self, if_true, hres]
    · refine ⟨?_, ?_, ?_, ?_, ?_, ?_, ?_⟩
      · simp only [List.length_append, List.length_singleton]
        rw [hinv.id_eq]
      · intro idx
        show res.1 idx < st.component_id + 1
        rcases hframe idx with h1 | ⟨_, h1, _⟩
        · rw [h1]; exact Nat.lt_succ_of_lt (hinv.lab_lt idx)
        · rw [h1]; exact Nat.lt_succ_self _
      · intro idx h
        change res.1 idx ≠ 0 at h
        rcases hframe idx with h1 | ⟨_, _, h1⟩
        · rw [h1] at h; exact hinv.lab_grid idx h
        · exact h1
      · show (st.seeds ++ [(x, y)]).Pairwise _
        rw [List.pairwise_append]
        refine ⟨hinv.sorted, List.pairwise_singleton _ _, ?_⟩
        intro a ha b hb
        rw [List.mem_singleton] at hb
        subst hb
        exact hinv.seeds_lt a ha
      · intro s hs
        change s ∈ st.seeds ++ [(x, y)] at hs
        rcases List.mem_append.1 hs with h | h
        · exact Nat.lt_succ_of_lt (hinv.seeds_lt s h)
        · rw [List.mem_singleton] at h
          subst h
          exact Nat.lt_succ_self _
      · intro i s hs
        change (st.seeds ++ [(x, y)])[i]? = some s at hs
        show Region image width height threshold res.1 res.2 ⟨s.1, s.2⟩ (i + 1)
        by_cases hi : i < st.seeds.length
        · rw [List.getElem?_append_left hi] at hs
          have hR := hinv.regions i s hs
          have hlt : i + 1 < st.component_id := by rw [hinv.id_eq]; omega
          exact hR.later (Nat.succ_ne_zero i) hlt hframe (hcomp _ (Nat.ne_of_lt hlt))
        · have hlen : st.seeds.length ≤ i := Nat.le_of_not_lt hi
          rw [List.getElem?_append_right hlen] at hs
          have hi0 : i - st.seeds.length = 0 := by
            by_contra hne
            have : [(x, y)][i - st.seeds.length]? = none := by
              apply List.getElem?_eq_none
              simp only [List.length_singleton]; omega
            rw [this] at hs
            exact Option.noConfusion hs
          rw [hi0] at hs
          simp only [List.getElem?_cons_zero, Option.some.injEq] at hs
          subst hs
          have : i + 1 = st.component_id := by rw [hinv.id_eq]; omega
          rw [this]
          exact hreg
      · intro idx hidx ha
        show res.1 idx ≠ 0
        by_cases hi : idx = y * width + x
        · subst hi
          have := hreg.seed_lab
          rw [pidx_mk] at this
          rw [this]; exact hc
        · have h0 := hinv.done idx (by omega) ha
          rw [hkeep idx h0]; exact h0
  · refine ⟨st, ?_, ?_, fun _ _ => rfl⟩
    · simp only [scan_pixel, hguard, if_false]
    · refine ⟨hinv.id_eq, hinv.lab_lt, hinv.lab_grid, hinv.sorted, ?_, hinv.regions, ?_⟩
      · intro s hs
        exact Nat.lt_succ_of_lt (hinv.seeds_lt s hs)
      · intro idx hidx ha
        by_cases hi : idx = y * width + x
        · subst hi
          intro h0
          exact hguard ⟨h0, ha⟩
        · exact hinv.done idx (by omega) ha


theorem scan_cols_succ (image : Nat → Pixel) (width height : Nat) (threshold : Int)
    (y n : Nat) (st : ScanState) :
    scan_cols image width height threshold y (n + 1) st =
      (scan_cols image width height threshold y n st).bind
        (fun s => scan_pixel image width height threshold y s n) := by
  simp only [scan_cols, List.range_succ, List.foldlM_append, List.foldlM_cons,
    List.foldlM_nil]
  cases List.foldlM (scan_pixel image width height threshold y) st (List.range n) <;> simp

theorem scan_rows_succ (image : Nat → Pixel) (width height : Nat) (threshold : Int)
    (n : Nat) (st : ScanState) :
    scan_rows image width height threshold (n + 1) st =
      (scan_rows image width height threshold n st).bind
        (fun s => scan_cols image width height threshold n width s) := by
  simp only [scan_rows, List.range_succ, List.foldlM_append, List.foldlM_cons,
    List.foldlM_nil]
  cases List.foldlM (fun st y => scan_cols image width height threshold y width st) st
    (List.range n) <;> simp

theorem scan_cols_inv (image : Nat → Pixel) {width height : Nat} (threshold : Int)
    {y : Nat} (hy : y < height) {st : ScanState}
    (hinv : SInv image width height threshold (y * width) st) (n : Nat) (hn : n ≤ width) :
    ∃ st2, scan_cols image width height threshold y n st = some st2 ∧
      SInv image width height threshold (y * width + n) st2 := by
  induction n with
  | zero => exact ⟨st, by simp [scan_cols], hinv⟩
  | succ n ih =>
    obtain ⟨st1, h1, h2⟩ := ih (by omega)
    obtain ⟨st2, h3, h4, _⟩ := scan_pixel_inv image threshold (show n < width by omega) hy h2
    refine ⟨st2, ?_, h4⟩
    rw [scan_cols_succ, h1]
    exact h3

theorem scan_rows_inv (image : Nat → Pixel) {width height : Nat} (threshold : Int)
    {st : ScanState} (hinv : SInv image width height threshold 0 st) (n : Nat)
    (hn : n ≤ height) :
    ∃ st2, scan_rows image width height threshold n st = some st2 ∧
      SInv image width height threshold (n * width) st2 := by
  induction n with
  | zero => exact ⟨st, by simp [scan_rows], by simpa using hinv⟩
  | succ n ih =>
    obtain ⟨st1, h1, h2⟩ := ih (by omega)
    obtain ⟨st2, h3, h4⟩ := scan_cols_inv image threshold (show n < height by omega) h2
      width (le_refl _)
    refine ⟨st2, ?_, ?_⟩
    · rw [scan_rows_succ, h1]
      exact h3
    · have : (n + 1) * width = n * width + width := by ring
      rw [this]
      exact h4

theorem SInv_start (image : Nat → Pixel) (components : Nat → Component)
    (width height : Nat) (threshold : Int) :
    SInv image width height threshold 0
      { pixel_comp := zero_labels, components := components, component_id := 1,
        seeds := [] } where
  id_eq := rfl
  lab_lt := fun _ => Nat.zero_lt_one
  lab_grid := fun _ h => absurd rfl h
  sorted := List.Pairwise.nil
  seeds_lt := fun _ h => absurd h (List.not_mem_nil _)
  regions := fun i s h => by simp at h
  done := fun _ h => absurd h (Nat.not_lt_zero _)

theorem find_components_inv (image : Nat → Pixel) (components : Nat → Component)
    (width height : Nat) (threshold : Int) :
    ∃ st, find_components image zero_labels components width height threshold = some st ∧
      SInv image width height threshold (height * width) st :=
  scan_rows_inv image threshold (SInv_start image components width height threshold)
    height (le_refl _)


/-! ### The result of `find_components` -/

theorem region_of_id {image : Nat → Pixel} {width height : Nat} {threshold : Int}
    {pos : Nat} {st : ScanState} (hinv : SInv image width height threshold pos st)
    {i : Nat} (h1 : 1 ≤ i) (h2 : i ≤ st.seeds.length) :
    ∃ s, st.seeds[i - 1]? = some s ∧
      Region image width height threshold st.pixel_comp st.components ⟨s.1, s.2⟩ i := by
  have hlt : i - 1 < st.seeds.length := by omega
  refine ⟨st.seeds[i - 1], List.getElem?_eq_getElem hlt, ?_⟩
  have := hinv.regions (i - 1) _ (List.getElem?_eq_getElem hlt)
  rwa [Nat.sub_add_cancel h1] at this

theorem Region.count_pos {image : Nat → Pixel} {width height : Nat} {threshold : Int}
    {P : Nat → Nat} {C : Nat → Component} {s : Point} {c : Nat}
    (hR : Region image width height threshold P C s c) :
    1 ≤ label_count P (width * height) c := by
  unfold label_count
  apply Finset.card_pos.2
  refine ⟨pidx width s, ?_⟩
  simp only [labelled, Finset.mem_filter, Finset.mem_range]
  exact ⟨pidx_lt hR.seed_in, hR.seed_lab⟩

theorem label_sum_le (f : Nat → Nat) (hf : ∀ j, f j ≤ 255) (m : Nat → Nat) (N v : Nat) :
    label_sum f m N v ≤ 255 * label_count m N v := by
  unfold label_sum label_count
  have := Finset.sum_le_card_nsmul (labelled m N v) f 255 (fun j _ => hf j)
  simpa [mul_comm] using this

theorem avg_exact {S n N : Nat} (hn : 1 ≤ n) (hnN : n ≤ N) (hS : S ≤ 255 * n)
    (hN : 255 * N < 2147483648) :
    to_uchar ((wrap_int (S : Int)).tdiv (n : Int)) = S / n ∧ S / n ≤ 255 := by
  have hdiv : S / n ≤ 255 := by
    apply Nat.div_le_of_le_mul
    rw [mul_comm]; exact hS
  refine ⟨?_, hdiv⟩
  rw [wrap_int_small (by positivity) (by omega), ← Int.ofNat_tdiv]
  unfold to_uchar
  generalize S / n = v at hdiv ⊢
  omega


/-! ### Labels are written once -/

theorem BFS_visits_ext (image : Nat → Pixel) (width height : Nat) (seed : Pixel) (c : Nat)
    (threshold : Int) (p : Point) (l : List Nat) (st : BFSState) :
    Ext st (l.foldl (BFS_visit image width height seed c threshold p) st) := by
  induction l generalizing st with
  | nil => exact Ext.refl st
  | cons a l ih =>
    simp only [List.foldl_cons]
    exact (BFS_visit_ext image width height seed c threshold p st a).trans (ih _)

theorem BFS_iter_keep (image : Nat → Pixel) (width height : Nat) (seed : Pixel) (c : Nat)
    (threshold : Int) (st : BFSState) (idx : Nat) (h : st.pixel_comp idx ≠ 0) :
    (BFS_iter image width height seed c threshold st).pixel_comp idx = st.pixel_comp idx :=
  (BFS_visits_ext image width height seed c threshold (st.queue.data st.queue.front)
    (List.range 4) { st with queue := { st.queue with front := st.queue.front + 1 } }).keep
    idx h

theorem BFS_loop_keep (image : Nat → Pixel) (width height : Nat) (seed : Pixel) (c : Nat)
    (threshold : Int) (fuel : Nat) (st st2 : BFSState)
    (hrun : BFS_loop image width height seed c threshold fuel st = some st2)
    (idx : Nat) (h : st.pixel_comp idx ≠ 0) : st2.pixel_comp idx = st.pixel_comp idx := by
  induction fuel generalizing st with
  | zero =>
    simp only [BFS_loop] at hrun
    split_ifs at hrun
    cases hrun
    rfl
  | succ fuel ih =>
    simp only [BFS_loop] at hrun
    split_ifs at hrun with hfr
    · have hk := BFS_iter_keep image width height seed c threshold st idx h
      rw [ih _ hrun (by rw [hk]; exact h), hk]
    · cases hrun
      rfl

theorem BFS_keep (image : Nat → Pixel) (L : Nat → Nat) (components : Nat → Component)
    (width height x y c : Nat) (threshold : Int) (hz : L (y * width + x) = 0)
    (res : (Nat → Nat) × (Nat → Component))
    (hrun : BFS image L components width height x y c threshold = some res)
    (idx : Nat) (h : L idx ≠ 0) : res.1 idx = L idx := by
  unfold BFS at hrun
  split at hrun
  · exact Option.noConfusion hrun
  · rename_i st hst
    cases hrun
    have hne : idx ≠ y * width + x := by
      intro he; rw [he] at h; exact h hz
    have h0 : (BFS_init image L width height x y c).pixel_comp idx = L idx :=
      store_other _ _ hne
    have := BFS_loop_keep image width height _ c threshold _ _ st hst idx
      (by rw [h0]; exact h)
    show st.pixel_comp idx = L idx
    rw [this, h0]

theorem scan_pixel_keep (image : Nat → Pixel) (width height : Nat) (threshold : Int)
    (y x : Nat) (st st2 : ScanState)
    (hrun : scan_pixel image width height threshold y st x = some st2)
    (idx : Nat) (h : st.pixel_comp idx ≠ 0) : st2.pixel_comp idx = st.pixel_comp idx := by
  unfold scan_pixel at hrun
  simp only at hrun
  split_ifs at hrun with hguard
  · split at hrun
    · exact Option.noConfusion hrun
    · rename_i res hres
      cases hrun
      exact BFS_keep image st.pixel_comp st.components width height x y st.component_id
        threshold hguard.1 res hres idx h
  · cases hrun
    rfl

theorem scan_cols_between (image : Nat → Pixel) (width height : Nat) (threshold : Int)
    (y x : Nat) (s0 sx : ScanState)
    (hx : scan_cols image width height threshold y x s0 = some sx) (k : Nat)
    (sn : ScanState) (hn : scan_cols image width height threshold y (x + k) s0 = some sn)
    (idx : Nat) (h : sx.pixel_comp idx ≠ 0) : sn.pixel_comp idx = sx.pixel_comp idx := by
  induction k generalizing sn with
  | zero =>
    rw [Nat.add_zero, hx] at hn
    cases hn
    rfl
  | succ k ih =>
    rw [← Nat.add_assoc, scan_cols_succ] at hn
    cases hm : scan_cols image width height threshold y (x + k) s0 with
    | none => rw [hm] at hn; exact Option.noConfusion hn
    | some sm =>
      rw [hm] at hn
      have h1 := ih sm hm
      have h2 := scan_pixel_keep image width height threshold y (x + k) sm sn hn idx
        (by rw [h1]; exact h)
      rw [h2, h1]

theorem scan_cols_keep (image : Nat → Pixel) (width height : Nat) (threshold : Int)
    (y n : Nat) (s0 sn : ScanState)
    (hn : scan_cols image width height threshold y n s0 = some sn)
    (idx : Nat) (h : s0.pixel_comp idx ≠ 0) : sn.pixel_comp idx = s0.pixel_comp idx := by
  have h0 : scan_cols image width height threshold y 0 s0 = some s0 := by
    simp [scan_cols]
  exact scan_cols_between image width height threshold y 0 s0 s0 h0 n sn
    (by rw [Nat.zero_add]; exact hn) idx h

theorem scan_rows_between (image : Nat → Pixel) (width height : Nat) (threshold : Int)
    (y : Nat) (s0 sy : ScanState)
    (hy : scan_rows image width height threshold y s0 = some sy) (k : Nat)
    (sn : ScanState) (hn : scan_rows image width height threshold (y + k) s0 = some sn)
    (idx : Nat) (h : sy.pixel_comp idx ≠ 0) : sn.pixel_comp idx = sy.pixel_comp idx := by
  induction k generalizing sn with
  | zero =>
    rw [Nat.add_zero, hy] at hn
    cases hn
    rfl
  | succ k ih =>
    rw [← Nat.add_assoc, scan_rows_succ] at hn
    cases hm : scan_rows image width height threshold (y + k) s0 with
    | none => rw [hm] at hn; exact Option.noConfusion hn
    | some sm =>
      rw [hm] at hn
      have h1 := ih sm hm
      have h2 := scan_cols_keep image width height threshold (y + k) width sm sn hn idx
        (by rw [h1]; exact h)
      rw [h2, h1]

theorem scan_upto_keep (image : Nat → Pixel) (pixel_comp : Nat → Nat)
    (components : Nat → Component) (width height : Nat) (threshold : Int)
    (st : ScanState)
    (hst : find_components image pixel_comp components width height threshold = some st)
    (y x : Nat) (hy : y < height) (hx : x ≤ width) (s : ScanState)
    (hs : scan_upto image pixel_comp components width height threshold y x = some s)
    (idx : Nat) (h : s.pixel_comp idx ≠ 0) : st.pixel_comp idx = s.pixel_comp idx := by
  unfold scan_upto at hs
  unfold find_components at hst
  cases hrow : scan_rows image width height threshold y
      { pixel_comp := pixel_comp, components := components, component_id := 1,
        seeds := [] } with
  | none => rw [hrow] at hs; exact Option.noConfusion hs
  | some sy =>
    rw [hrow] at hs
    have hs' : scan_cols image width height threshold y x sy = some s := hs
    have hh : (y + 1) + (height - (y + 1)) = height := by omega
    have hst2 : scan_rows image width height threshold ((y + 1) + (height - (y + 1)))
        { pixel_comp := pixel_comp, components := components, component_id := 1,
          seeds := [] } = some st := by rw [hh]; exact hst
    cases hrow1 : scan_rows image width height threshold (y + 1)
        { pixel_comp := pixel_comp, components := components, component_id := 1,
          seeds := [] } with
    | none =>
      exfalso
      have : ∀ k, scan_rows image width height threshold (y + 1 + k)
          { pixel_comp := pixel_comp, components := components, component_id := 1,
            seeds := [] } = none := by
        intro k
        induction k with
        | zero => exact hrow1
        | succ k ih => rw [← Nat.add_assoc, scan_rows_succ, ih]; rfl
      rw [this] at hst2
      exact Option.noConfusion hst2
    | some s1 =>
      have hrow1' := hrow1
      rw [scan_rows_succ, hrow] at hrow1'
      have hc : scan_cols image width height threshold y width sy = some s1 := hrow1'
      have hw : x + (width - x) = width := by omega
      have hc2 : scan_cols image width height threshold y (x + (width - x)) sy = some s1 := by
        rw [hw]; exact hc
      have k1 := scan_cols_between image width height threshold y x sy s hs' (width - x)
        s1 hc2 idx h
      have k2 := scan_rows_between image width height threshold (y + 1) _ s1 hrow1
        (height - (y + 1)) st hst2 idx (by rw [k1]; exact h)
      rw [k2, k1]

/-! ### Threshold 0 -/

theorem color_diff_nonneg (seed current : Pixel) : 0 ≤ color_diff seed current := by
  unfold color_diff; omega

theorem color_diff_lt_one (seed current : Pixel) :
    color_diff seed current < 1 ↔
      (seed.r = current.r ∧ seed.g = current.g ∧ seed.b = current.b) := by
  unfold color_diff
  constructor
  · intro h
    refine ⟨Fin.ext ?_, Fin.ext ?_, Fin.ext ?_⟩ <;> omega
  · rintro ⟨h1, h2, h3⟩
    rw [h1, h2, h3]
    omega

theorem BFS_visit_threshold_nonpos (image : Nat → Pixel) (width height : Nat)
    (seed : Pixel) (c : Nat) {threshold : Int} (ht : threshold ≤ 0) (p : Point)
    (st : BFSState) (i : Nat) :
    BFS_visit image width height seed c threshold p st i = st := by
  apply BFS_visit_skip
  rintro ⟨_, _, h⟩
  have := color_diff_nonneg seed (image (pidx width (neighbor p i)))
  omega

theorem strict_mono_onto_id (k N : Nat) (f : Nat → Nat)
    (hmono : ∀ i j, i < j → j < k → f i < f j)
    (hsurj : ∀ n, n < N → ∃ i, i < k ∧ f i = n)
    (hlt : ∀ i, i < k → f i < N) : ∀ i, i < k → f i = i := by
  have hge : ∀ i, i < k → i ≤ f i := by
    intro i
    induction i with
    | zero => intro _; exact Nat.zero_le _
    | succ i ih =>
      intro hi
      have h1 := ih (by omega)
      have h2 := hmono i (i + 1) (Nat.lt_succ_self i) hi
      omega
  intro i
  induction i using Nat.strong_induction_on with
  | _ i ih =>
    intro hi
    have h1 := hge i hi
    have h2 := hlt i hi
    obtain ⟨j, hj, hfj⟩ := hsurj i (by omega)
    rcases lt_trichotomy j i with hlt' | heq | hgt
    · have := ih j hlt' hj
      omega
    · rw [heq] at hfj; exact hfj
    · have := hmono i j hgt hj
      omega

theorem singleton_classes {image : Nat → Pixel} {width height : Nat} {st : ScanState}
    (hinv : SInv image width height 0 (height * width) st)
    (hop : ∀ idx, idx < width * height → 128 < (image idx).a.val) :
    st.seeds.length = width * height ∧
      ∀ idx, idx < width * height → st.pixel_comp idx = idx + 1 := by
  have hf : ∀ i (hi : i < st.seeds.length),
      st.seeds[i]? = some (st.seeds.getD i (0, 0)) := by
    intro i hi
    rw [List.getD_eq_getElem _ _ hi]
    exact List.getElem?_eq_getElem hi
  have hmono : ∀ i j, i < j → j < st.seeds.length →
      (st.seeds.getD i (0, 0)).2 * width + (st.seeds.getD i (0, 0)).1 <
        (st.seeds.getD j (0, 0)).2 * width + (st.seeds.getD j (0, 0)).1 := by
    intro i j hij hj
    have hi : i < st.seeds.length := by omega
    rw [List.getD_eq_getElem _ _ hi, List.getD_eq_getElem _ _ hj]
    exact (List.pairwise_iff_getElem.1 hinv.sorted) i j hi hj hij
  have hlab : ∀ n, n < width * height → ∃ i, i < st.seeds.length ∧
      st.pixel_comp n = i + 1 ∧
      (st.seeds.getD i (0, 0)).2 * width + (st.seeds.getD i (0, 0)).1 = n := by
    intro n hn
    have h0 := hinv.done n (by rw [mul_comm]; exact hn) (hop n hn)
    have h1 := hinv.lab_lt n
    rw [hinv.id_eq] at h1
    refine ⟨st.pixel_comp n - 1, by omega, by omega, ?_⟩
    have hR := hinv.regions _ _ (hf (st.pixel_comp n - 1) (by omega))
    have hd := hR.diff n (by omega)
    rw [pidx_mk] at hd
    rcases hd with h | h
    · exact h.symm
    · have := color_diff_nonneg (image ((st.seeds.getD (st.pixel_comp n - 1) (0, 0)).2 * width
        + (st.seeds.getD (st.pixel_comp n - 1) (0, 0)).1)) (image n)
      omega
  have hlt : ∀ i, i < st.seeds.length →
      (st.seeds.getD i (0, 0)).2 * width + (st.seeds.getD i (0, 0)).1 < width * height := by
    intro i hi
    have hR := hinv.regions _ _ (hf i hi)
    have := pidx_lt hR.seed_in
    rwa [pidx_mk] at this
  have hid := strict_mono_onto_id st.seeds.length (width * height)
    (fun i => (st.seeds.getD i (0, 0)).2 * width + (st.seeds.getD i (0, 0)).1) hmono
    (fun n hn => by
      obtain ⟨i, hi, _, h⟩ := hlab n hn
      exact ⟨i, hi, h⟩) hlt
  have hall : ∀ idx, idx < width * height → st.pixel_comp idx = idx + 1 := by
    intro idx hidx
    obtain ⟨i, hi, h1, h2⟩ := hlab idx hidx
    have := hid i hi
    simp only at this
    omega
  refine ⟨?_, hall⟩
  apply Nat.le_antisymm
  · by_contra hcon
    have hk : st.seeds.length - 1 < st.seeds.length := by omega
    have h1 := hid _ hk
    have h2 := hlt _ hk
    simp only at h1
    omega
  · by_contra hcon
    have hN : width * height - 1 < width * height := by omega
    have h1 := hall _ hN
    have h2 := hinv.lab_lt (width * height - 1)
    rw [hinv.id_eq] at h2
    omega

/-! ### Monochrome regions -/

theorem same_rgb_refl (p : Pixel) : same_rgb p p := ⟨rfl, rfl, rfl⟩

theorem same_rgb_symm {p q : Pixel} (h : same_rgb p q) : same_rgb q p :=
  ⟨h.1.symm, h.2.1.symm, h.2.2.symm⟩

theorem same_rgb_trans {p q r : Pixel} (h1 : same_rgb p q) (h2 : same_rgb q r) :
    same_rgb p r :=
  ⟨h1.1.trans h2.1, h1.2.1.trans h2.2.1, h1.2.2.trans h2.2.2⟩

theorem color_diff_same {p q : Pixel} (h : same_rgb p q) : color_diff p q = 0 := by
  unfold color_diff
  rw [h.1, h.2.1, h.2.2]
  omega

theorem class_color {image : Nat → Pixel} {width height : Nat} {threshold : Int}
    {pos : Nat} {st : ScanState} (hinv : SInv image width height threshold pos st)
    (hdich : ∀ i j, i < width * height → j < width * height →
      same_rgb (image i) (image j) ∨ threshold ≤ color_diff (image i) (image j))
    {c : Nat} {s : Point}
    (hR : Region image width height threshold st.pixel_comp st.components s c) (hc : c ≠ 0)
    {idx : Nat} (hlab : st.pixel_comp idx = c) :
    same_rgb (image (pidx width s)) (image idx) := by
  rcases hR.diff idx hlab with h | h
  · rw [h]; exact same_rgb_refl _
  · have hidx : idx < width * height := hinv.lab_grid idx (by rw [hlab]; exact hc)
    rcases hdich _ _ (pidx_lt hR.seed_in) hidx with h1 | h1
    · exact h1
    · omega

theorem step_label_le {image : Nat → Pixel} {width height : Nat} {threshold : Int}
    {st : ScanState} (hinv : SInv image width height threshold (height * width) st)
    (hop : ∀ idx, idx < width * height → 128 < (image idx).a.val)
    (hthr : 0 < threshold)
    (hdich : ∀ i j, i < width * height → j < width * height →
      same_rgb (image i) (image j) ∨ threshold ≤ color_diff (image i) (image j))
    {a b : Point} (ha : InGrid width height a) (hb : InGrid width height b)
    (hadj : Adj4 a b) (hcol : same_rgb (image (pidx width a)) (image (pidx width b))) :
    st.pixel_comp (pidx width b) ≤ st.pixel_comp (pidx width a) := by
  have ha0 := hinv.done _ (by rw [mul_comm]; exact pidx_lt ha) (hop _ (pidx_lt ha))
  have ha1 := hinv.lab_lt (pidx width a)
  rw [hinv.id_eq] at ha1
  obtain ⟨s, _, hR⟩ := region_of_id hinv (Nat.pos_of_ne_zero ha0) (by omega)
  have hsa := class_color hinv hdich hR ha0 rfl
  rcases hR.closed a ha rfl b hadj hb with ⟨_, h⟩ | h
  · exact h
  · exfalso
    apply h
    rw [color_diff_same (same_rgb_trans hsa hcol)]
    exact hthr

theorem mono_path_same_label {image : Nat → Pixel} {width height : Nat} {threshold : Int}
    {st : ScanState} (hinv : SInv image width height threshold (height * width) st)
    (hop : ∀ idx, idx < width * height → 128 < (image idx).a.val)
    (hthr : 0 < threshold)
    (hdich : ∀ i j, i < width * height → j < width * height →
      same_rgb (image i) (image j) ∨ threshold ≤ color_diff (image i) (image j))
    {p q : Point} (hp : InGrid width height p)
    (hpath : Relation.ReflTransGen (MonoStep image width height) p q) :
    InGrid width height q ∧ st.pixel_comp (pidx width p) = st.pixel_comp (pidx width q) := by
  induction hpath with
  | refl => exact ⟨hp, rfl⟩
  | tail _ hstep ih =>
    obtain ⟨hb, hlab⟩ := ih
    obtain ⟨hadj, hc, hcol⟩ := hstep
    refine ⟨hc, ?_⟩
    have h1 := step_label_le hinv hop hthr hdich hb hc hadj hcol
    have h2 := step_label_le hinv hop hthr hdich hc hb (adj4_symm hadj) (same_rgb_symm hcol)
    omega

theorem region_class_path {pixel_comp : Nat → Nat} {width height c : Nat} {s p : Point}
    (hs : InGrid width height s) (hsl : pixel_comp (pidx width s) = c)
    (hpath : Relation.ReflTransGen (InRegion pixel_comp width height c) s p) :
    Relation.ReflTransGen (ClassStep pixel_comp width height c) s p ∧
      InGrid width height p ∧ pixel_comp (pidx width p) = c := by
  induction hpath with
  | refl => exact ⟨Relation.ReflTransGen.refl, hs, hsl⟩
  | tail _ hstep ih =>
    obtain ⟨h1, h2, h3⟩ := ih
    obtain ⟨hadj, hg, hl⟩ := hstep
    exact ⟨h1.tail ⟨hadj, ⟨h2, h3⟩, ⟨hg, hl⟩⟩, hg, hl⟩

theorem class_step_symm (pixel_comp : Nat → Nat) (width height c : Nat) :
    Symmetric (ClassStep pixel_comp width height c) := by
  intro a b ⟨h1, h2, h3⟩
  exact ⟨adj4_symm h1, h3, h2⟩

theorem same_label_mono_path {image : Nat → Pixel} {width height : Nat} {threshold : Int}
    {st : ScanState} (hinv : SInv image width height threshold (height * width) st)
    (hop : ∀ idx, idx < width * height → 128 < (image idx).a.val)
    (hdich : ∀ i j, i < width * height → j < width * height →
      same_rgb (image i) (image j) ∨ threshold ≤ color_diff (image i) (image j))
    {p q : Point} (hp : InGrid width height p) (hq : InGrid width height q)
    (hlab : st.pixel_comp (pidx width p) = st.pixel_comp (pidx width q)) :
    Relation.ReflTransGen (MonoStep image width height) p q := by
  have hp0 := hinv.done _ (by rw [mul_comm]; exact pidx_lt hp) (hop _ (pidx_lt hp))
  have hp1 := hinv.lab_lt (pidx width p)
  rw [hinv.id_eq] at hp1
  obtain ⟨s, _, hR⟩ := region_of_id hinv (Nat.pos_of_ne_zero hp0) (by omega)
  obtain ⟨k1, _, _⟩ := region_class_path hR.seed_in hR.seed_lab (hR.conn p hp rfl)
  obtain ⟨k2, _, _⟩ := region_class_path hR.seed_in hR.seed_lab (hR.conn q hq hlab.symm)
  have k3 := Relation.ReflTransGen.symmetric (class_step_symm _ _ _ _) k1
  refine (k3.trans k2).mono ?_
  intro a b ⟨hadj, ⟨_, hla⟩, ⟨hb, hlb⟩⟩
  refine ⟨hadj, hb, ?_⟩
  exact same_rgb_trans (same_rgb_symm (class_color hinv hdich hR hp0 hla))
    (class_color hinv hdich hR hp0 hlb)

theorem point_of_idx {width height idx : Nat} (h : idx < width * height) :
    ∃ p, InGrid width height p ∧ pidx width p = idx := by
  have hw : 0 < width := by
    rcases Nat.eq_zero_or_pos width with h0 | h0
    · rw [h0, Nat.zero_mul] at h; exact absurd h (Nat.not_lt_zero _)
    · exact h0
  refine ⟨⟨(idx % width : Nat), (idx / width : Nat)⟩, ?_, ?_⟩
  · have h1 := Nat.mod_lt idx hw
    have h2 : idx / width < height := Nat.div_lt_of_lt_mul h
    unfold InGrid
    simp only
    exact ⟨Int.ofNat_nonneg _, Int.ofNat_lt.2 h1, Int.ofNat_nonneg _, Int.ofNat_lt.2 h2⟩
  · rw [pidx_mk]
    exact Nat.div_add_mod' idx width

theorem class_ncard (pixel_comp : Nat → Nat) (width height c : Nat) :
    Set.ncard {q : Point | InGrid width height q ∧ pixel_comp (pidx width q) = c} =
      label_count pixel_comp (width * height) c := by
  have hinj : Set.InjOn (pidx width)
      {q : Point | InGrid width height q ∧ pixel_comp (pidx width q) = c} := by
    intro a ha b hb hab
    exact pidx_inj ha.1 hb.1 hab
  have himg : pidx width '' {q : Point | InGrid width height q ∧
      pixel_comp (pidx width q) = c} = ↑(labelled pixel_comp (width * height) c) := by
    ext idx
    simp only [Set.mem_image, Set.mem_setOf_eq, labelled, Finset.coe_filter,
      Finset.mem_range]
    constructor
    · rintro ⟨q, ⟨hq, hl⟩, rfl⟩
      exact ⟨pidx_lt hq, hl⟩
    · rintro ⟨h1, h2⟩
      obtain ⟨p, hp, hpi⟩ := point_of_idx h1
      exact ⟨p, ⟨hp, by rw [hpi]; exact h2⟩, hpi⟩
  rw [← Set.ncard_image_of_injOn hinj, himg, Set.ncard_coe_Finset]
  rfl

theorem mono_path_color {image : Nat → Pixel} {width height : Nat} {p q : Point}
    (hpath : Relation.ReflTransGen (MonoStep image width height) p q) :
    same_rgb (image (pidx width p)) (image (pidx width q)) := by
  induction hpath with
  | refl => exact same_rgb_refl _
  | tail _ hstep ih => exact same_rgb_trans ih hstep.2.2

theorem avg_of_const {f : Nat → Nat} {m : Nat → Nat} {N c v : Nat}
    (hconst : ∀ j, m j = c → f j = v) (hv : v ≤ 255) (hpos : 1 ≤ label_count m N c)
    (hN : 255 * N < 2147483648) :
    to_uchar ((wrap_int (label_sum f m N c : Nat)).tdiv (label_count m N c : Nat)) = v := by
  have hsum : label_sum f m N c = label_count m N c * v := by
    unfold label_sum label_count
    apply Finset.sum_const_nat
    intro j hj
    simp only [labelled, Finset.mem_filter] at hj
    exact hconst j hj.2
  have hS : label_sum f m N c ≤ 255 * label_count m N c := by
    rw [hsum, mul_comm]
    exact Nat.mul_le_mul_right _ hv
  have := (avg_exact hpos (label_count_le m N c) hS hN).1
  rw [this, hsum, Nat.mul_div_cancel_left _ hpos]

theorem region_eq_class {image : Nat → Pixel} {width height : Nat} {threshold : Int}
    {st : ScanState} (hinv : SInv image width height threshold (height * width) st)
    (hop : ∀ idx, idx < width * height → 128 < (image idx).a.val)
    (hthr : 0 < threshold)
    (hdich : ∀ i j, i < width * height → j < width * height →
      same_rgb (image i) (image j) ∨ threshold ≤ color_diff (image i) (image j))
    {p : Point} (hp : InGrid width height p) :
    mono_region image width height p =
      {q : Point | InGrid width height q ∧
        st.pixel_comp (pidx width q) = st.pixel_comp (pidx width p)} := by
  ext q
  simp only [mono_region, Set.mem_setOf_eq]
  constructor
  · rintro ⟨hq, hpath⟩
    exact ⟨hq, (mono_path_same_label hinv hop hthr hdich hp hpath).2.symm⟩
  · rintro ⟨hq, hlab⟩
    exact ⟨hq, same_label_mono_path hinv hop hdich hp hq hlab.symm⟩

theorem label_range {image : Nat → Pixel} {width height : Nat} {threshold : Int}
    {st : ScanState} (hinv : SInv image width height threshold (height * width) st)
    (hop : ∀ idx, idx < width * height → 128 < (image idx).a.val)
    {idx : Nat} (h : idx < width * height) :
    1 ≤ st.pixel_comp idx ∧ st.pixel_comp idx ≤ st.seeds.length := by
  have h0 := hinv.done idx (by rw [mul_comm]; exact h) (hop idx h)
  have h1 := hinv.lab_lt idx
  rw [hinv.id_eq] at h1
  omega

theorem row_path {image : Nat → Pixel} {width height : Nat}
    (huni : ∀ i j, i < width * height → j < width * height →
      same_rgb (image i) (image j)) (hh : 0 < height) (x : Nat) (hx : x < width) :
    Relation.ReflTransGen (MonoStep image width height) ⟨0, 0⟩ ⟨x, 0⟩ := by
  induction x with
  | zero => exact Relation.ReflTransGen.refl
  | succ x ih =>
    have ha : InGrid width height ⟨(x : Nat), 0⟩ := by
      unfold InGrid; simp only; omega
    have hb : InGrid width height ⟨((x + 1 : Nat) : Int), 0⟩ := by
      unfold InGrid; simp only; omega
    refine (ih (by omega)).tail ⟨?_, hb, huni _ _ (pidx_lt ha) (pidx_lt hb)⟩
    unfold Adj4
    simp only
    omega

theorem grid_path {image : Nat → Pixel} {width height : Nat}
    (huni : ∀ i j, i < width * height → j < width * height →
      same_rgb (image i) (image j)) (x : Nat) (hx : x < width) (y : Nat) (hy : y < height) :
    Relation.ReflTransGen (MonoStep image width height) ⟨0, 0⟩ ⟨x, y⟩ := by
  induction y with
  | zero => exact row_path huni hy x hx
  | succ y ih =>
    have ha : InGrid width height ⟨(x : Nat), (y : Nat)⟩ := by
      unfold InGrid; simp only; omega
    have hb : InGrid width height ⟨(x : Nat), ((y + 1 : Nat) : Int)⟩ := by
      unfold InGrid; simp only; omega
    refine (ih (by omega)).tail ⟨?_, hb, huni _ _ (pidx_lt ha) (pidx_lt hb)⟩
    unfold Adj4
    simp only
    omega

theorem label_count_all {m : Nat → Nat} {N c : Nat} (h : ∀ idx, idx < N → m idx = c) :
    label_count m N c = N := by
  unfold label_count labelled
  rw [Finset.filter_true_of_mem (fun j hj => h j (Finset.mem_range.1 hj)),
    Finset.card_range]

theorem uniform_one_component {image : Nat → Pixel} {width height : Nat}
    {threshold : Int} {st : ScanState}
    (hinv : SInv image width height threshold (height * width) st)
    (hop : ∀ idx, idx < width * height → 128 < (image idx).a.val)
    (hthr : 0 < threshold)
    (huni : ∀ i j, i < width * height → j < width * height →
      same_rgb (image i) (image j)) (hN : 0 < width * height) :
    st.seeds.length = 1 ∧ (∀ idx, idx < width * height → st.pixel_comp idx = 1) ∧
      (st.components 1).pixel_cnt = width * height := by
  have hdich : ∀ i j, i < width * height → j < width * height →
      same_rgb (image i) (image j) ∨ threshold ≤ color_diff (image i) (image j) :=
    fun i j hi hj => Or.inl (huni i j hi hj)
  have hw : 0 < width := Nat.pos_of_mul_pos_right hN
  have hh : 0 < height := Nat.pos_of_mul_pos_left hN
  have h00 : InGrid width height ⟨0, 0⟩ := by
    unfold InGrid; simp only; omega
  have hsame : ∀ idx, idx < width * height →
      st.pixel_comp idx = st.pixel_comp (pidx width ⟨0, 0⟩) := by
    intro idx hidx
    obtain ⟨p, hp, hpi⟩ := point_of_idx hidx
    have hpx : p = ⟨(p.x.toNat : Nat), (p.y.toNat : Nat)⟩ := by
      obtain ⟨h1, _, h3, _⟩ := hp
      cases p with | mk px py =>
      simp only at h1 h3
      simp only [Int.toNat_of_nonneg h1, Int.toNat_of_nonneg h3]
    have hpath := grid_path huni p.x.toNat (by have := hp.2.1; omega) p.y.toNat
      (by have := hp.2.2.2; omega)
    rw [← hpx] at hpath
    rw [← hpi]
    exact (mono_path_same_label hinv hop hthr hdich h00 hpath).2.symm
  have hr0 := label_range hinv hop (pidx_lt h00)
  have hone : st.pixel_comp (pidx width ⟨0, 0⟩) = 1 := by
    obtain ⟨s, _, hR⟩ := region_of_id hinv (le_refl 1) (by omega)
    have := hsame _ (pidx_lt hR.seed_in)
    rw [hR.seed_lab] at this
    exact this.symm
  have hlen : st.seeds.length = 1 := by
    obtain ⟨s, _, hR⟩ := region_of_id hinv (le_trans hr0.1 hr0.2) (le_refl _)
    have := hsame _ (pidx_lt hR.seed_in)
    rw [hR.seed_lab, hone] at this
    exact this
  have hall : ∀ idx, idx < width * height → st.pixel_comp idx = 1 := by
    intro idx hidx
    rw [hsame idx hidx, hone]
  refine ⟨hlen, hall, ?_⟩
  obtain ⟨s, _, hR⟩ := region_of_id hinv (le_refl 1) (by omega)
  rw [hR.cnt]
  exact label_count_all hall

theorem label_sum_all_const {f : Nat → Nat} {m : Nat → Nat} {N c v : Nat}
    (h : ∀ idx, idx < N → m idx = c) (hf : ∀ idx, f idx = v) :
    label_sum f m N c = N * v := by
  unfold label_sum labelled
  rw [Finset.filter_true_of_mem (fun j hj => h j (Finset.mem_range.1 hj)),
    Finset.sum_const_nat (fun j _ => hf j), Finset.card_range]

theorem white_image_average :
    ∃ st, find_components img_white zero_labels zero_components 4000 3000 30 = some st ∧
      st.seeds.length = 1 ∧ (st.components 1).pixel_cnt = 4000 * 3000 ∧
      (st.components 1).avg_r = 154 := by
  obtain ⟨st, hst, hinv⟩ := find_components_inv img_white zero_components 4000 3000 30
  have hop : ∀ idx, idx < 4000 * 3000 → 128 < (img_white idx).a.val := by
    intro idx _
    show 128 < (255 : Fin 256).val
    decide
  have huni : ∀ i j, i < 4000 * 3000 → j < 4000 * 3000 →
      same_rgb (img_white i) (img_white j) := fun _ _ _ _ => same_rgb_refl _
  obtain ⟨h1, h2, h3⟩ := uniform_one_component hinv hop (by decide) huni (by decide)
  refine ⟨st, hst, h1, h3, ?_⟩
  obtain ⟨s, _, hR⟩ := region_of_id hinv (le_refl 1) (by omega)
  rw [hR.avg_r, label_count_all h2,
    label_sum_all_const (f := fun j => (img_white j).r.val) (v := 255) h2 (fun _ => rfl)]
  decide

theorem two_regions {image : Nat → Pixel} {width height : Nat} {threshold : Int}
    {st : ScanState} (hinv : SInv image width height threshold (height * width) st)
    (hop : ∀ idx, idx < width * height → 128 < (image idx).a.val)
    (hthr : 0 < threshold)
    (hdich : ∀ i j, i < width * height → j < width * height →
      same_rgb (image i) (image j) ∨ threshold ≤ color_diff (image i) (image j))
    {a b : Point} (ha : InGrid width height a) (hb : InGrid width height b)
    (hcol : ¬ same_rgb (image (pidx width a)) (image (pidx width b)))
    (hcover : ∀ p, InGrid width height p →
      p ∈ mono_region image width height a ∨ p ∈ mono_region image width height b) :
    st.seeds.length = 2 ∧
      ((st.pixel_comp (pidx width a) = 1 ∧ st.pixel_comp (pidx width b) = 2) ∨
        (st.pixel_comp (pidx width a) = 2 ∧ st.pixel_comp (pidx width b) = 1)) := by
  have hne : st.pixel_comp (pidx width a) ≠ st.pixel_comp (pidx width b) := by
    intro h
    exact hcol (mono_path_color (same_label_mono_path hinv hop hdich ha hb h))
  have hra := label_range hinv hop (pidx_lt ha)
  have hrb := label_range hinv hop (pidx_lt hb)
  have hmem : ∀ i, 1 ≤ i → i ≤ st.seeds.length →
      i = st.pixel_comp (pidx width a) ∨ i = st.pixel_comp (pidx width b) := by
    intro i h1 h2
    obtain ⟨s, _, hR⟩ := region_of_id hinv h1 h2
    rcases hcover _ hR.seed_in with ⟨_, hp⟩ | ⟨_, hp⟩
    · left
      rw [← hR.seed_lab]
      exact ((mono_path_same_label hinv hop hthr hdich ha hp).2).symm
    · right
      rw [← hR.seed_lab]
      exact ((mono_path_same_label hinv hop hthr hdich hb hp).2).symm
  have hk2 : 2 ≤ st.seeds.length := by omega
  have m1 := hmem 1 (le_refl 1) (by omega)
  have m2 := hmem 2 (by omega) hk2
  have hk : st.seeds.length = 2 := by
    by_contra hcon
    have m3 := hmem 3 (by omega) (by omega)
    omega
  refine ⟨hk, ?_⟩
  omega

theorem two_blocks_example :
    (find_components img_two_blocks zero_labels zero_components 4 2 30).map
        (fun st => (st.seeds, st.components 1, st.components 2)) =
      some ([(0, 0), (2, 0)], ⟨4, 200, 10, 10⟩, ⟨4, 10, 10, 200⟩) := by
  decide

/-! ### The sum of the pixel counts -/

theorem pixel_cnt_sum_eq_labelled {image : Nat → Pixel} {width height : Nat}
    {threshold : Int} {pos : Nat} {st : ScanState}
    (hinv : SInv image width height threshold pos st) :
    pixel_cnt_sum st.components st.seeds.length =
      ((Finset.range (width * height)).filter (fun j => st.pixel_comp j ≠ 0)).card := by
  have h1 : pixel_cnt_sum st.components st.seeds.length =
      (Finset.range st.seeds.length).sum
        (fun i => label_count st.pixel_comp (width * height) (i + 1)) := by
    unfold pixel_cnt_sum
    apply Finset.sum_congr rfl
    intro i hi
    obtain ⟨s, _, hR⟩ := region_of_id hinv (Nat.succ_le_succ (Nat.zero_le i))
      (Nat.succ_le_of_lt (Finset.mem_range.1 hi))
    exact hR.cnt
  have hmap : ∀ j ∈ (Finset.range (width * height)).filter (fun j => st.pixel_comp j ≠ 0),
      st.pixel_comp j - 1 ∈ Finset.range st.seeds.length := by
    intro j hj
    simp only [Finset.mem_filter, Finset.mem_range] at hj ⊢
    have := hinv.lab_lt j
    rw [hinv.id_eq] at this
    omega
  rw [h1, Finset.card_eq_sum_card_fiberwise hmap]
  apply Finset.sum_congr rfl
  intro i _
  unfold label_count labelled
  congr 1
  ext j
  simp only [Finset.mem_filter, Finset.mem_range]
  omega

theorem opaque_count_le_pixel_cnt_sum (image : Nat → Pixel) (components : Nat → Component)
    (width height : Nat) (threshold : Int) :
    ∃ st, find_components image zero_labels components width height threshold = some st ∧
      opaque_count image (width * height) ≤
        pixel_cnt_sum st.components st.seeds.length := by
  obtain ⟨st, hst, hinv⟩ := find_components_inv image components width height threshold
  refine ⟨st, hst, ?_⟩
  rw [pixel_cnt_sum_eq_labelled hinv]
  unfold opaque_count
  apply Finset.card_le_card
  intro j hj
  simp only [Finset.mem_filter, Finset.mem_range] at hj ⊢
  exact ⟨hj.1, hinv.done j (by rw [mul_comm]; exact hj.1) hj.2⟩

/-! ### The number of passes -/

theorem seeds_length_le {image : Nat → Pixel} {width height : Nat} {threshold : Int}
    {pos : Nat} {st : ScanState} (hinv : SInv image width height threshold pos st) :
    st.seeds.length ≤ width * height := by
  have hge : ∀ i (hi : i < st.seeds.length),
      i ≤ (st.seeds[i]).2 * width + (st.seeds[i]).1 := by
    intro i
    induction i with
    | zero => intro _; exact Nat.zero_le _
    | succ i ih =>
      intro hi
      have h1 := ih (by omega)
      have h2 := (List.pairwise_iff_getElem.1 hinv.sorted) i (i + 1) (by omega) hi
        (Nat.lt_succ_self i)
      omega
  by_contra hcon
  have hk : st.seeds.length - 1 < st.seeds.length := by omega
  have h1 := hge _ hk
  have hR := hinv.regions _ _ (List.getElem?_eq_getElem hk)
  have h2 := pidx_lt hR.seed_in
  rw [pidx_mk] at h2
  omega

/-! ### The queue of `BFS` -/

theorem join_qinv {image : Nat → Pixel} {width height : Nat} {seed : Pixel} {c : Nat}
    {threshold : Int} {st : BFSState} (hc : c ≠ 0) (hq : QInv width height st) {n : Point}
    (hj : Joins image width height seed threshold st n) :
    QInv width height (join image width c st n) := by
  obtain ⟨hg, hz, _⟩ := hj
  have hlt := pidx_lt hg
  refine ⟨hq.size_eq, ?_, ?_, ?_⟩
  · simp only [join]
    have := label_count_store_old (v := c) st.pixel_comp hz (Ne.symm hc) hlt
    have := hq.pot
    omega
  · intro j hj
    simp only [join] at hj ⊢
    by_cases h : j = st.queue.rear
    · subst h
      rw [store_same, store_same]
      exact ⟨hg, hc⟩
    · rw [store_other _ _ h]
      have h1 := hq.entries j (by omega)
      refine ⟨h1.1, ?_⟩
      by_cases h2 : pidx width (st.queue.data j) = pidx width n
      · rw [h2, store_same]; exact hc
      · rw [store_other _ _ h2]; exact h1.2
  · intro i j hi hj hij
    simp only [join] at hi hj hij
    by_cases h1 : i = st.queue.rear
    · by_cases h2 : j = st.queue.rear
      · rw [h1, h2]
      · exfalso
        rw [h1, store_same, store_other _ _ h2] at hij
        have := (hq.entries j (by omega)).2
        rw [← hij] at this
        exact this hz
    · by_cases h2 : j = st.queue.rear
      · exfalso
        rw [h2, store_same, store_other _ _ h1] at hij
        have := (hq.entries i (by omega)).2
        rw [hij] at this
        exact this hz
      · rw [store_other _ _ h1, store_other _ _ h2] at hij
        exact hq.distinct i j (by omega) (by omega) hij

theorem BFS_visit_qinv (image : Nat → Pixel) {width height : Nat} (seed : Pixel) {c : Nat}
    (threshold : Int) {st : BFSState} (hc : c ≠ 0) (hq : QInv width height st)
    (p : Point) (i : Nat) :
    QInv width height (BFS_visit image width height seed c threshold p st i) := by
  by_cases h : Joins image width height seed threshold st (neighbor p i)
  · rw [BFS_visit_join _ _ _ _ _ _ _ _ _ h]
    exact join_qinv hc hq h
  · rw [BFS_visit_skip _ _ _ _ _ _ _ _ _ h]
    exact hq

theorem BFS_midway_succ (image : Nat → Pixel) (width height : Nat) (seed : Pixel)
    (c : Nat) (threshold : Int) (st : BFSState) (m : Nat) :
    BFS_midway image width height seed c threshold st (m + 1) =
      BFS_visit image width height seed c threshold (st.queue.data st.queue.front)
        (BFS_midway image width height seed c threshold st m) m := by
  simp only [BFS_midway, List.range_succ, List.foldl_append, List.foldl_cons,
    List.foldl_nil]

theorem BFS_midway_qinv (image : Nat → Pixel) {width height : Nat} (seed : Pixel)
    {c : Nat} (threshold : Int) {st : BFSState} (hc : c ≠ 0) (hq : QInv width height st)
    (m : Nat) :
    QInv width height (BFS_midway image width height seed c threshold st m) ∧
      (BFS_midway image width height seed c threshold st m).queue.front =
        st.queue.front + 1 ∧
      st.queue.rear ≤ (BFS_midway image width height seed c threshold st m).queue.rear := by
  induction m with
  | zero =>
    refine ⟨⟨hq.size_eq, hq.pot, hq.entries, hq.distinct⟩, rfl, le_refl _⟩
  | succ m ih =>
    obtain ⟨h1, h2, h3⟩ := ih
    rw [BFS_midway_succ]
    have hext := BFS_visit_ext image width height seed c threshold
      (st.queue.data st.queue.front)
      (BFS_midway image width height seed c threshold st m) m
    exact ⟨BFS_visit_qinv image seed threshold hc h1 _ m, hext.front_eq.trans h2,
      le_trans h3 hext.rear_le⟩

theorem BFS_iter_eq_midway (image : Nat → Pixel) (width height : Nat) (seed : Pixel)
    (c : Nat) (threshold : Int) (st : BFSState) :
    BFS_iter image width height seed c threshold st =
      BFS_midway image width height seed c threshold st 4 := rfl

theorem BFS_after_qinv (image : Nat → Pixel) {width height : Nat} (seed : Pixel)
    {c : Nat} (threshold : Int) {st0 : BFSState} (hc : c ≠ 0)
    (hq : QInv width height st0) (hle : st0.queue.front ≤ st0.queue.rear) (n : Nat)
    (sn : BFSState)
    (hn : BFS_after image width height seed c threshold st0 n = some sn) :
    QInv width height sn ∧ sn.queue.front ≤ sn.queue.rear := by
  induction n generalizing sn with
  | zero =>
    simp only [BFS_after] at hn
    cases hn
    exact ⟨hq, hle⟩
  | succ n ih =>
    simp only [BFS_after] at hn
    cases hm : BFS_after image width height seed c threshold st0 n with
    | none => rw [hm] at hn; exact Option.noConfusion hn
    | some s =>
      rw [hm] at hn
      simp only at hn
      obtain ⟨k1, k2⟩ := ih s hm
      split_ifs at hn with hfr
      cases hn
      rw [BFS_iter_eq_midway]
      obtain ⟨p1, p2, p3⟩ := BFS_midway_qinv image seed threshold hc k1 4
      refine ⟨p1, ?_⟩
      omega

theorem BFS_loop_terminates (image : Nat → Pixel) {width height : Nat} (seed : Pixel)
    {c : Nat} (threshold : Int) (hc : c ≠ 0) (fuel : Nat) (st : BFSState)
    (hq : QInv width height st) (hle : st.queue.front ≤ st.queue.rear)
    (hfuel : width * height ≤ fuel + st.queue.front) :
    ∃ st2, BFS_loop image width height seed c threshold fuel st = some st2 := by
  induction fuel generalizing st with
  | zero =>
    have hpot := hq.pot
    have : st.queue.front = st.queue.rear := by omega
    exact ⟨st, by simp [BFS_loop, this]⟩
  | succ fuel ih =>
    by_cases hfr : st.queue.front = st.queue.rear
    · exact ⟨st, by simp [BFS_loop, hfr]⟩
    · obtain ⟨p1, p2, p3⟩ := BFS_midway_qinv image seed threshold hc hq 4
      rw [← BFS_iter_eq_midway] at p1 p2 p3
      obtain ⟨st2, h1⟩ := ih _ p1 (by omega) (by omega)
      refine ⟨st2, ?_⟩
      simp only [BFS_loop, ne_eq, hfr, not_false_eq_true, if_true]
      exact h1

theorem BFS_init_qinv (image : Nat → Pixel) (L : Nat → Nat) {width height x y c : Nat}
    (hc : c ≠ 0) (hx : x < width) (hy : y < height) (hz : L (y * width + x) = 0) :
    QInv width height (BFS_init image L width height x y c) := by
  have hg : InGrid width height ⟨x, y⟩ := by
    unfold InGrid; simp only; omega
  have hlt : y * width + x < width * height := by
    have := pidx_lt hg
    rwa [pidx_mk] at this
  refine ⟨rfl, ?_, ?_, ?_⟩
  · simp only [BFS_init, createQueue]
    have h1 := label_count_store_old (v := c) L hz (Ne.symm hc) hlt
    have h2 := label_count_le L (width * height) 0
    omega
  · intro j hj
    have hj0 : j = 0 := by
      simp only [BFS_init, createQueue] at hj; omega
    subst hj0
    simp only [BFS_init, createQueue, store_same, pidx_mk]
    exact ⟨hg, hc⟩
  · intro i j hi hj _
    simp only [BFS_init, createQueue] at hi hj
    omega

theorem scan_pixel_id_le (image : Nat → Pixel) (width height : Nat) (threshold : Int)
    (y x : Nat) (st st2 : ScanState)
    (hrun : scan_pixel image width height threshold y st x = some st2) :
    st.component_id ≤ st2.component_id := by
  unfold scan_pixel at hrun
  simp only at hrun
  split_ifs at hrun with hguard
  · split at hrun
    · exact Option.noConfusion hrun
    · cases hrun
      exact Nat.le_succ _
  · cases hrun
    exact le_refl _

theorem scan_cols_id_le (image : Nat → Pixel) (width height : Nat) (threshold : Int)
    (y n : Nat) (st st2 : ScanState)
    (hrun : scan_cols image width height threshold y n st = some st2) :
    st.component_id ≤ st2.component_id := by
  induction n generalizing st2 with
  | zero =>
    simp only [scan_cols, List.range_zero, List.foldlM_nil] at hrun
    cases hrun
    exact le_refl _
  | succ n ih =>
    rw [scan_cols_succ] at hrun
    cases hm : scan_cols image width height threshold y n st with
    | none => rw [hm] at hrun; exact Option.noConfusion hrun
    | some sm =>
      rw [hm] at hrun
      exact le_trans (ih sm hm) (scan_pixel_id_le image width height threshold y n sm st2 hrun)

theorem scan_rows_id_le (image : Nat → Pixel) (width height : Nat) (threshold : Int)
    (n : Nat) (st st2 : ScanState)
    (hrun : scan_rows image width height threshold n st = some st2) :
    st.component_id ≤ st2.component_id := by
  induction n generalizing st2 with
  | zero =>
    simp only [scan_rows, List.range_zero, List.foldlM_nil] at hrun
    cases hrun
    exact le_refl _
  | succ n ih =>
    rw [scan_rows_succ] at hrun
    cases hm : scan_rows image width height threshold n st with
    | none => rw [hm] at hrun; exact Option.noConfusion hrun
    | some sm =>
      rw [hm] at hrun
      exact le_trans (ih sm hm)
        (scan_cols_id_le image width height threshold n width sm st2 hrun)

theorem scan_upto_id_pos (image : Nat → Pixel) (pixel_comp : Nat → Nat)
    (components : Nat → Component) (width height : Nat) (threshold : Int)
    (y x : Nat) (s : ScanState)
    (hs : scan_upto image pixel_comp components width height threshold y x = some s) :
    1 ≤ s.component_id := by
  unfold scan_upto at hs
  cases hrow : scan_rows image width height threshold y
      { pixel_comp := pixel_comp, components := components, component_id := 1,
        seeds := [] } with
  | none => rw [hrow] at hs; exact Option.noConfusion hs
  | some sy =>
    rw [hrow] at hs
    have h1 := scan_rows_id_le image width height threshold y _ sy hrow
    have h2 := scan_cols_id_le image width height threshold y x sy s hs
    exact le_trans h1 h2

/-! ### Output loops and the edge detector -/

theorem idx_inj {w x y x2 y2 : Nat} (hx : x < w) (hx2 : x2 < w)
    (h : y * w + x = y2 * w + x2) : y = y2 ∧ x = x2 := by
  have hw : 0 < w := by omega
  have h1 : (y * w + x) / w = y := by
    rw [Nat.add_comm, Nat.add_mul_div_right _ _ hw, Nat.div_eq_of_lt hx, Nat.zero_add]
  have h2 : (y2 * w + x2) / w = y2 := by
    rw [Nat.add_comm, Nat.add_mul_div_right _ _ hw, Nat.div_eq_of_lt hx2, Nat.zero_add]
  have hy : y = y2 := by rw [← h1, ← h2, h]
  subst hy
  exact ⟨rfl, by omega⟩

theorem fill_row_miss (w : Nat) (f : Nat → Nat → Pixel) (y : Nat) (xs : List Nat)
    (out : Nat → Pixel) (idx : Nat) (h : ∀ x ∈ xs, idx ≠ y * w + x) :
    (xs.foldl (fun o x => store o (y * w + x) (f x y)) out) idx = out idx := by
  induction xs generalizing out with
  | nil => rfl
  | cons a t ih =>
    simp only [List.foldl_cons]
    rw [ih _ (fun x hx => h x (List.mem_cons_of_mem a hx)),
      store_other _ _ (h a (List.mem_cons_self a t))]

theorem fill_row_hit (w : Nat) (f : Nat → Nat → Pixel) (y : Nat) (xs : List Nat)
    (out : Nat → Pixel) (x : Nat) (hx : x ∈ xs) :
    (xs.foldl (fun o x => store o (y * w + x) (f x y)) out) (y * w + x) = f x y := by
  induction xs generalizing out with
  | nil => exact absurd hx (List.not_mem_nil x)
  | cons a t ih =>
    simp only [List.foldl_cons]
    by_cases ht : x ∈ t
    · exact ih _ ht
    · have ha : x = a := by
        rcases List.mem_cons.1 hx with h | h
        · exact h
        · exact absurd h ht
      subst ha
      rw [fill_row_miss w f y t _ _ (fun x2 hx2 heq => ht (by
        have : x = x2 := by omega
        rw [this]; exact hx2)), store_same]

theorem fill_grid_miss (w : Nat) (f : Nat → Nat → Pixel) (ys xs : List Nat)
    (out : Nat → Pixel) (idx : Nat) (h : ∀ y ∈ ys, ∀ x ∈ xs, idx ≠ y * w + x) :
    fill_grid w f ys xs out idx = out idx := by
  unfold fill_grid
  induction ys generalizing out with
  | nil => rfl
  | cons a t ih =>
    simp only [List.foldl_cons]
    rw [ih _ (fun y hy => h y (List.mem_cons_of_mem a hy)),
      fill_row_miss w f a xs out idx (h a (List.mem_cons_self a t))]

theorem fill_grid_hit (w : Nat) (f : Nat → Nat → Pixel) (ys xs : List Nat)
    (out : Nat → Pixel) (hxs : ∀ x ∈ xs, x < w) (x y : Nat) (hx : x ∈ xs) (hy : y ∈ ys) :
    fill_grid w f ys xs out (y * w + x) = f x y := by
  unfold fill_grid
  induction ys generalizing out with
  | nil => exact absurd hy (List.not_mem_nil y)
  | cons a t ih =>
    simp only [List.foldl_cons]
    by_cases ht : y ∈ t
    · exact ih _ ht
    · have ha : y = a := by
        rcases List.mem_cons.1 hy with h | h
        · exact h
        · exact absurd h ht
      subst ha
      have := fill_grid_miss w f t xs
        (xs.foldl (fun o x => store o (y * w + x) (f x y)) out) (y * w + x)
        (fun y2 hy2 x2 hx2 heq => ht (by
          have := (idx_inj (hxs x hx) (hxs x2 hx2) heq).1
          rw [this]; exact hy2))
      unfold fill_grid at this
      rw [this, fill_row_hit w f y xs out x hx]

theorem sobel_sums_eq (image : Nat → Pixel) (width : Nat) (x y : Nat) :
    (sobel_sums image width x y).sx_r = grad_x red image width x y ∧
    (sobel_sums image width x y).sx_g = grad_x green image width x y ∧
    (sobel_sums image width x y).sx_b = grad_x blue image width x y ∧
    (sobel_sums image width x y).sy_r = grad_y red image width x y ∧
    (sobel_sums image width x y).sy_g = grad_y green image width x y ∧
    (sobel_sums image width x y).sy_b = grad_y blue image width x y := by
  simp only [sobel_sums, List.foldl_cons, List.foldl_nil, sobel_tap, gx, gy, grad_x, grad_y,
    pixel_at, red, green, blue]
  simp only [Int.reduceNeg, Int.reduceAdd, Int.toNat_zero, Int.toNat_one, Int.reduceToNat, List.getD_cons_zero,
    List.getD_cons_succ, ← Int.sub_eq_add_neg]
  refine ⟨?_, ?_, ?_, ?_, ?_, ?_⟩ <;> ring_nf
theorem floor_sqrt_le (v : Nat) : floor_sqrt v * floor_sqrt v ≤ v := by
  unfold floor_sqrt
  exact Nat.findGreatest_spec (P := fun k => k * k ≤ v) (Nat.zero_le v) (by simp)

theorem floor_sqrt_lt (v : Nat) : v < (floor_sqrt v + 1) * (floor_sqrt v + 1) := by
  unfold floor_sqrt
  by_contra hcon
  have hle : (Nat.findGreatest (fun k => k * k ≤ v) v + 1) *
      (Nat.findGreatest (fun k => k * k ≤ v) v + 1) ≤ v := Nat.le_of_not_lt hcon
  have hb : Nat.findGreatest (fun k => k * k ≤ v) v + 1 ≤ v := by
    have h1 : Nat.findGreatest (fun k => k * k ≤ v) v + 1 ≤
        (Nat.findGreatest (fun k => k * k ≤ v) v + 1) *
        (Nat.findGreatest (fun k => k * k ≤ v) v + 1) := Nat.le_mul_self _
    omega
  have := Nat.le_findGreatest (P := fun k => k * k ≤ v) hb hle
  omega

theorem sqrt_int_eq (v : Int) : sqrt_int v = (floor_sqrt v.toNat : Nat) := rfl

theorem uchar_val {n : Nat} (h : n ≤ 255) : (uchar (n : Int)).val = n := by
  unfold uchar to_uchar
  have h1 : ((n : Int) % 256).toNat = n := by omega
  rw [h1]
  show n % (255 + 1) = n
  omega

theorem sobel_grad_eq (image : Nat → Pixel) (width : Nat) (x y : Nat) :
    sobel_grad image width x y = (grey_value floor_sqrt image width x y : Nat) := by
  obtain ⟨h1, h2, h3, h4, h5, h6⟩ := sobel_sums_eq image width x y
  simp only [sobel_grad, h1, h2, h3, h4, h5, h6, sqrt_int_eq, grey_value, magnitude]
  generalize floor_sqrt (grad_x red image width x y * grad_x red image width x y
    + grad_y red image width x y * grad_y red image width x y).toNat = a
  generalize floor_sqrt (grad_x green image width x y * grad_x green image width x y
    + grad_y green image width x y * grad_y green image width x y).toNat = b
  generalize floor_sqrt (grad_x blue image width x y * grad_x blue image width x y
    + grad_y blue image width x y * grad_y blue image width x y).toNat = c
  have hd : ((a : Int) + b + c).tdiv 3 = ((a + b + c) / 3 : Nat) := by
    rw [Int.ofNat_tdiv]; push_cast; rfl
  rw [hd]
  generalize (a + b + c) / 3 = g
  split_ifs with k1 k2
  · have : min 255 g = 255 := by omega
    rw [this]; rfl
  · omega
  · have : min 255 g = g := by omega
    rw [this]

theorem sobel_filter_interior (image out_image : Nat → Pixel) (width height : Nat)
    (x y : Nat) (hx1 : 1 ≤ x) (hx2 : x + 1 < width) (hy1 : 1 ≤ y) (hy2 : y + 1 < height) :
    sobel_filter image out_image width height (y * width + x) =
      sobel_pixel image width x y := by
  unfold sobel_filter
  apply fill_grid_hit
  · intro x2 hx
    rw [List.mem_range'_1] at hx
    omega
  · rw [List.mem_range'_1]; omega
  · rw [List.mem_range'_1]; omega

theorem sobel_pixel_val (image : Nat → Pixel) (width : Nat) (x y : Nat) :
    (sobel_pixel image width x y).r.val = grey_value floor_sqrt image width x y ∧
    (sobel_pixel image width x y).g.val = grey_value floor_sqrt image width x y ∧
    (sobel_pixel image width x y).b.val = grey_value floor_sqrt image width x y ∧
    (sobel_pixel image width x y).a.val = 255 := by
  have hle : grey_value floor_sqrt image width x y ≤ 255 := by
    unfold grey_value; exact Nat.min_le_left _ _
  simp only [sobel_pixel, sobel_grad_eq]
  exact ⟨uchar_val hle, uchar_val hle, uchar_val hle, rfl⟩
theorem pixel_at_uniform {image : Nat → Pixel} {width height : Nat}
    (huni : ∀ i, i < width * height → ∀ j, j < width * height →
      same_rgb (image i) (image j)) {a b : Int} (ha0 : 0 ≤ a) (ha : a < width)
    (hb0 : 0 ≤ b) (hb : b < height) :
    same_rgb (pixel_at image width a b) (image 0) := by
  have hg : InGrid width height ⟨a, b⟩ := ⟨ha0, ha, hb0, hb⟩
  have hlt : (b * width + a).toNat < width * height := pidx_lt hg
  exact huni _ hlt 0 (by omega)

theorem grey_value_uniform {image : Nat → Pixel} {width height : Nat}
    (huni : ∀ i, i < width * height → ∀ j, j < width * height →
      same_rgb (image i) (image j)) {x y : Nat} (hx1 : 1 ≤ x) (hx2 : x + 1 < width)
    (hy1 : 1 ≤ y) (hy2 : y + 1 < height) :
    grey_value floor_sqrt image width x y = 0 := by
  have p1 := pixel_at_uniform huni (a := (x : Int) - 1) (b := (y : Int) - 1)
    (by omega) (by omega) (by omega) (by omega)
  have p2 := pixel_at_uniform huni (a := (x : Int)) (b := (y : Int) - 1)
    (by omega) (by omega) (by omega) (by omega)
  have p3 := pixel_at_uniform huni (a := (x : Int) + 1) (b := (y : Int) - 1)
    (by omega) (by omega) (by omega) (by omega)
  have p4 := pixel_at_uniform huni (a := (x : Int) - 1) (b := (y : Int))
    (by omega) (by omega) (by omega) (by omega)
  have p6 := pixel_at_uniform huni (a := (x : Int) + 1) (b := (y : Int))
    (by omega) (by omega) (by omega) (by omega)
  have p7 := pixel_at_uniform huni (a := (x : Int) - 1) (b := (y : Int) + 1)
    (by omega) (by omega) (by omega) (by omega)
  have p8 := pixel_at_uniform huni (a := (x : Int)) (b := (y : Int) + 1)
    (by omega) (by omega) (by omega) (by omega)
  have p9 := pixel_at_uniform huni (a := (x : Int) + 1) (b := (y : Int) + 1)
    (by omega) (by omega) (by omega) (by omega)
  have hxr : grad_x red image width x y = 0 := by
    simp only [grad_x, red, p1.1, p3.1, p4.1, p6.1, p7.1, p9.1]; ring
  have hxg : grad_x green image width x y = 0 := by
    simp only [grad_x, green, p1.2.1, p3.2.1, p4.2.1, p6.2.1, p7.2.1, p9.2.1]; ring
  have hxb : grad_x blue image width x y = 0 := by
    simp only [grad_x, blue, p1.2.2, p3.2.2, p4.2.2, p6.2.2, p7.2.2, p9.2.2]; ring
  have hyr : grad_y red image width x y = 0 := by
    simp only [grad_y, red, p1.1, p2.1, p3.1, p7.1, p8.1, p9.1]; ring
  have hyg : grad_y green image width x y = 0 := by
    simp only [grad_y, green, p1.2.1, p2.2.1, p3.2.1, p7.2.1, p8.2.1, p9.2.1]; ring
  have hyb : grad_y blue image width x y = 0 := by
    simp only [grad_y, blue, p1.2.2, p2.2.2, p3.2.2, p7.2.2, p8.2.2, p9.2.2]; ring
  simp only [grey_value, magnitude, hxr, hxg, hxb, hyr, hyg, hyb]
  decide
/-! ### The highlighted map -/

theorem idx_lt_of_lt {width height x y : Nat} (hx : x < width) (hy : y < height) :
    y * width + x < width * height := by
  have h1 : y * width + x < (y + 1) * width := by
    rw [Nat.succ_mul]; omega
  have h2 : (y + 1) * width ≤ height * width := Nat.mul_le_mul_right _ hy
  rw [Nat.mul_comm width height]
  omega

theorem generate_at (shade : Fin 256 → Pixel → Fin 256) (output : Nat → Pixel)
    (pixel_comp : Nat → Nat) (components : Nat → Component)
    (width height num_components : Nat) (original : Nat → Pixel) (x y : Nat)
    (hx : x < width) (hy : y < height) :
    generate_component_colors shade output pixel_comp components width height
        num_components original (y * width + x) =
      highlight_pixel shade pixel_comp components
        (find_background components num_components) original (y * width + x) := by
  unfold generate_component_colors
  exact fill_grid_hit width _ (List.range height) (List.range width) output
    (fun x2 hx2 => List.mem_range.1 hx2) x y (List.mem_range.2 hx) (List.mem_range.2 hy)

theorem palette_alpha (k : Nat) :
    (segment_colors.getD (k % segment_colors.length) ⟨0, 0, 0, 0⟩).a = 255 := by
  have h : k % segment_colors.length < 5 := Nat.mod_lt _ (by decide)
  generalize k % segment_colors.length = j at h
  interval_cases j <;> rfl

theorem near_background_self (c : Component) : near_background c c := by
  unfold near_background
  omega

theorem scan_pixel_transparent (image : Nat → Pixel) (width height : Nat)
    (threshold : Int) (y x : Nat) (st : ScanState)
    (h : (image (y * width + x)).a.val ≤ 128) :
    scan_pixel image width height threshold y st x = some st := by
  unfold scan_pixel
  simp only
  rw [if_neg]
  rintro ⟨_, h2⟩
  omega

theorem scan_cols_transparent (image : Nat → Pixel) {width height : Nat}
    (threshold : Int) {y : Nat} (hy : y < height) (st : ScanState)
    (h : ∀ idx, idx < width * height → (image idx).a.val ≤ 128) (n : Nat)
    (hn : n ≤ width) :
    scan_cols image width height threshold y n st = some st := by
  induction n with
  | zero => simp [scan_cols]
  | succ n ih =>
    rw [scan_cols_succ, ih (by omega)]
    exact scan_pixel_transparent image width height threshold y n st
      (h _ (idx_lt_of_lt (by omega) hy))

theorem scan_rows_transparent (image : Nat → Pixel) {width height : Nat}
    (threshold : Int) (st : ScanState)
    (h : ∀ idx, idx < width * height → (image idx).a.val ≤ 128) (n : Nat)
    (hn : n ≤ height) :
    scan_rows image width height threshold n st = some st := by
  induction n with
  | zero => simp [scan_rows]
  | succ n ih =>
    rw [scan_rows_succ, ih (by omega)]
    exact scan_cols_transparent image threshold (show n < height by omega) st h width
      (le_refl _)

theorem coords_of_idx {width height idx : Nat} (h : idx < width * height) :
    ∃ x y, x < width ∧ y < height ∧ idx = y * width + x := by
  have hw : 0 < width := by
    rcases Nat.eq_zero_or_pos width with h0 | h0
    · rw [h0, Nat.zero_mul] at h; exact absurd h (Nat.not_lt_zero _)
    · exact h0
  exact ⟨idx % width, idx / width, Nat.mod_lt idx hw, Nat.div_lt_of_lt_mul h,
    (Nat.div_add_mod' idx width).symm⟩
theorem background_fold_spec (components : Nat → Component) (m : Nat) :
    ((List.range' 1 m).foldl
        (fun background i =>
          if (components i).pixel_cnt > background.pixel_cnt then components i
          else background) ⟨0, 0, 0, 0⟩ = ⟨0, 0, 0, 0⟩ ∧
      ∀ i, 1 ≤ i → i ≤ m → (components i).pixel_cnt = 0) ∨
    ∃ j, 1 ≤ j ∧ j ≤ m ∧
      (List.range' 1 m).foldl
        (fun background i =>
          if (components i).pixel_cnt > background.pixel_cnt then components i
          else background) ⟨0, 0, 0, 0⟩ = components j ∧
      0 < (components j).pixel_cnt ∧
      (∀ i, 1 ≤ i → i ≤ m → (components i).pixel_cnt ≤ (components j).pixel_cnt) ∧
      ∀ i, 1 ≤ i → i < j → (components i).pixel_cnt < (components j).pixel_cnt := by
  induction m with
  | zero =>
    left
    exact ⟨rfl, fun i h1 h2 => by omega⟩
  | succ m ih =>
    rw [List.range'_concat, List.foldl_append]
    simp only [List.foldl_cons, List.foldl_nil, Nat.one_mul]
    rcases ih with ⟨hb, hz⟩ | ⟨j, hj1, hj2, hb, hpos, hmax, hfirst⟩
    · rw [hb]
      by_cases hc : (components (1 + m)).pixel_cnt > 0
      · right
        refine ⟨1 + m, by omega, by omega, by simp only [hc, if_true], hc, ?_, ?_⟩
        · intro i h1 h2
          by_cases hi : i = 1 + m
          · rw [hi]
          · rw [hz i h1 (by omega)]; exact Nat.zero_le _
        · intro i h1 h2
          rw [hz i h1 (by omega)]; exact hc
      · left
        refine ⟨by simp only [hc, if_false], ?_⟩
        intro i h1 h2
        by_cases hi : i = 1 + m
        · rw [hi]; omega
        · exact hz i h1 (by omega)
    · rw [hb]
      by_cases hc : (components (1 + m)).pixel_cnt > (components j).pixel_cnt
      · right
        refine ⟨1 + m, by omega, by omega, by simp only [hc, if_true], by omega, ?_, ?_⟩
        · intro i h1 h2
          by_cases hi : i = 1 + m
          · rw [hi]
          · have := hmax i h1 (by omega); omega
        · intro i h1 h2
          have := hmax i h1 (by omega); omega
      · right
        refine ⟨j, hj1, by omega, by simp only [hc, if_false], hpos, ?_, hfirst⟩
        intro i h1 h2
        by_cases hi : i = 1 + m
        · rw [hi]; omega
        · exact hmax i h1 (by omega)

theorem find_background_spec (components : Nat → Component) (n : Nat) :
    (find_background components n = ⟨0, 0, 0, 0⟩ ∧
      ∀ i, 1 ≤ i → i < n → (components i).pixel_cnt = 0) ∨
    ∃ j, 1 ≤ j ∧ j < n ∧ find_background components n = components j ∧
      0 < (components j).pixel_cnt ∧
      (∀ i, 1 ≤ i → i < n → (components i).pixel_cnt ≤ (components j).pixel_cnt) ∧
      ∀ i, 1 ≤ i → i < j → (components i).pixel_cnt < (components j).pixel_cnt := by
  unfold find_background
  rcases background_fold_spec components (n - 1) with ⟨hb, hz⟩ | ⟨j, h1, h2, hb, h3, h4, h5⟩
  · left
    exact ⟨hb, fun i k1 k2 => hz i k1 (by omega)⟩
  · right
    exact ⟨j, h1, by omega, hb, h3, fun i k1 k2 => h4 i k1 (by omega), h5⟩
theorem BFS_components_other (image : Nat → Pixel) (L : Nat → Nat)
    (components : Nat → Component) (width height x y c : Nat) (threshold : Int)
    (res : (Nat → Nat) × (Nat → Component))
    (hrun : BFS image L components width height x y c threshold = some res)
    (j : Nat) (hj : j ≠ c) : res.2 j = components j := by
  unfold BFS at hrun
  split at hrun
  · exact Option.noConfusion hrun
  · cases hrun
    exact store_other _ _ hj

theorem scan_pixel_frame (image : Nat → Pixel) (width height : Nat) (threshold : Int)
    (y x : Nat) (st st2 : ScanState)
    (hrun : scan_pixel image width height threshold y st x = some st2)
    (hid : 1 ≤ st.component_id) (j : Nat) (hj : j = 0 ∨ st2.component_id ≤ j) :
    st2.components j = st.components j := by
  unfold scan_pixel at hrun
  simp only at hrun
  split_ifs at hrun with hguard
  · split at hrun
    · exact Option.noConfusion hrun
    · rename_i res hres
      cases hrun
      simp only at hj
      exact BFS_components_other image st.pixel_comp st.components width height x y
        st.component_id threshold res hres j (by omega)
  · cases hrun
    rfl

theorem scan_cols_frame (image : Nat → Pixel) (width height : Nat) (threshold : Int)
    (y n : Nat) (st st2 : ScanState)
    (hrun : scan_cols image width height threshold y n st = some st2)
    (hid : 1 ≤ st.component_id) (j : Nat) (hj : j = 0 ∨ st2.component_id ≤ j) :
    st2.components j = st.components j := by
  induction n generalizing st2 with
  | zero =>
    simp only [scan_cols, List.range_zero, List.foldlM_nil] at hrun
    cases hrun
    rfl
  | succ n ih =>
    rw [scan_cols_succ] at hrun
    cases hm : scan_cols image width height threshold y n st with
    | none => rw [hm] at hrun; exact Option.noConfusion hrun
    | some sm =>
      rw [hm] at hrun
      have h1 := scan_cols_id_le image width height threshold y n st sm hm
      have h2 := scan_pixel_id_le image width height threshold y n sm st2 hrun
      rw [scan_pixel_frame image width height threshold y n sm st2 hrun (by omega) j hj]
      exact ih sm hm (by omega)

theorem scan_rows_frame (image : Nat → Pixel) (width height : Nat) (threshold : Int)
    (n : Nat) (st st2 : ScanState)
    (hrun : scan_rows image width height threshold n st = some st2)
    (hid : 1 ≤ st.component_id) (j : Nat) (hj : j = 0 ∨ st2.component_id ≤ j) :
    st2.components j = st.components j := by
  induction n generalizing st2 with
  | zero =>
    simp only [scan_rows, List.range_zero, List.foldlM_nil] at hrun
    cases hrun
    rfl
  | succ n ih =>
    rw [scan_rows_succ] at hrun
    cases hm : scan_rows image width height threshold n st with
    | none => rw [hm] at hrun; exact Option.noConfusion hrun
    | some sm =>
      rw [hm] at hrun
      have h1 := scan_rows_id_le image width height threshold n st sm hm
      have h2 := scan_cols_id_le image width height threshold n width sm st2 hrun
      rw [scan_cols_frame image width height threshold n width sm st2 hrun (by omega) j hj]
      exact ih sm hm (by omega)

theorem background_first_largest (image : Nat → Pixel) (width height : Nat)
    (threshold : Int) :
    ∃ st, find_components image zero_labels zero_components width height threshold =
        some st ∧
      (1 ≤ st.seeds.length → st.seeds.length < width * height →
        ∃ j, 1 ≤ j ∧ j ≤ st.seeds.length ∧
          find_background st.components (width * height) = st.components j ∧
          (∀ i, 1 ≤ i → i ≤ st.seeds.length →
            (st.components i).pixel_cnt ≤ (st.components j).pixel_cnt) ∧
          ∀ i, 1 ≤ i → i < j → (st.components i).pixel_cnt < (st.components j).pixel_cnt) := by
  obtain ⟨st, hst, hinv⟩ := find_components_inv image zero_components width height threshold
  refine ⟨st, hst, ?_⟩
  intro hk1 hk2
  have hframe : ∀ j, st.seeds.length < j → (st.components j).pixel_cnt = 0 := by
    intro j hj
    have := scan_rows_frame image width height threshold height _ st hst (le_refl 1) j
      (Or.inr (by rw [hinv.id_eq]; omega))
    rw [this]
    rfl
  rcases find_background_spec st.components (width * height) with
    ⟨_, hz⟩ | ⟨j, h1, h2, hb, h3, h4, h5⟩
  · exfalso
    obtain ⟨s, _, hR⟩ := region_of_id hinv (le_refl 1) hk1
    have := hR.count_pos
    rw [← hR.cnt, hz 1 (le_refl 1) (by omega)] at this
    exact absurd this (by decide)
  · refine ⟨j, h1, ?_, hb, fun i k1 k2 => h4 i k1 (by omega), h5⟩
    by_contra hcon
    have := hframe j (by omega)
    omega

/-! ## The `float` shading: rounding error -/

theorem round_half_even_near (n d : Nat) (hd : 0 < d) :
    2 * (round_half_even n d * d) ≤ 2 * n + d ∧ 2 * n ≤ 2 * (round_half_even n d * d) + d := by
  have h := Nat.div_add_mod n d
  have hr := Nat.mod_lt n hd
  unfold round_half_even
  generalize n / d = q at h ⊢
  generalize n % d = r at h hr ⊢
  have hq : q * d = d * q := Nat.mul_comm q d
  generalize d * q = t at h hq
  split_ifs <;> simp only [Nat.add_mul, Nat.one_mul, hq] <;> omega

theorem places_from_spec (a b : Nat) (fuel e : Nat)
    (h : 2 ^ 23 * b ≤ a * 2 ^ (e + fuel)) :
    2 ^ 23 * b ≤ a * 2 ^ places_from a b fuel e := by
  induction fuel generalizing e with
  | zero => simpa [places_from] using h
  | succ f ih =>
    unfold places_from
    split_ifs with hp
    · exact hp
    · apply ih
      rw [Nat.add_assoc, Nat.add_comm 1 f]
      exact h

theorem places_spec (a b : Nat) (ha : 0 < a) : 2 ^ 23 * b ≤ a * 2 ^ places a b := by
  unfold places
  apply places_from_spec
  rw [Nat.zero_add, Nat.pow_add]
  have h1 : b ≤ 2 ^ b := (Nat.lt_two_pow b).le
  calc 2 ^ 23 * b ≤ 2 ^ 23 * 2 ^ b := Nat.mul_le_mul_left _ h1
    _ = 1 * (2 ^ b * 2 ^ 23) := by ring
    _ ≤ a * (2 ^ b * 2 ^ 23) := Nat.mul_le_mul_right _ ha

theorem f32_round_near (a b : Nat) (hb : 0 < b) (hs : (a : ℚ) / b < 2 ^ 24) :
    |f32_val (f32_round a b) - (a : ℚ) / b| ≤ (a : ℚ) / b / 2 ^ 24 := by
  have hB : (0 : ℚ) < b := by exact_mod_cast hb
  unfold f32_round
  by_cases ha : a = 0
  · subst ha
    simp [f32_val]
  · rw [if_neg ha]
    have hsmall : ¬ 2 ^ 24 * b ≤ a := by
      intro hbig
      have : (2 : ℚ) ^ 24 * b ≤ a := by exact_mod_cast hbig
      rw [div_lt_iff₀ hB] at hs
      linarith
    rw [if_neg hsmall]
    obtain ⟨h1, h2⟩ := round_half_even_near (a * 2 ^ places a b) b hb
    have h3 := places_spec a b (Nat.pos_of_ne_zero ha)
    simp only [f32_val]
    generalize round_half_even (a * 2 ^ places a b) b = m at h1 h2
    have q1 : (2 : ℚ) * (m * b) ≤ 2 * (a * 2 ^ places a b) + b := by exact_mod_cast h1
    have q2 : (2 : ℚ) * (a * 2 ^ places a b) ≤ 2 * (m * b) + b := by exact_mod_cast h2
    have q3 : (2 : ℚ) ^ 23 * b ≤ a * 2 ^ places a b := by exact_mod_cast h3
    have hE : (0 : ℚ) < 2 ^ places a b := by positivity
    generalize (2 : ℚ) ^ places a b = E at q1 q2 q3 hE
    have e1 : (m : ℚ) / E - a / b = (m * b - a * E) / (E * b) := by
      field_simp
      ring
    have e2 : (a : ℚ) / b / 2 ^ 24 = (a * E / 2 ^ 24) / (E * b) := by
      field_simp
      ring
    rw [e1, e2, abs_le]
    have hEB : (0 : ℚ) < E * b := mul_pos hE hB
    constructor
    · rw [← neg_div, div_le_div_iff_of_pos_right hEB]
      linarith
    · rw [div_le_div_iff_of_pos_right hEB]
      linarith

theorem f32_mul_int_near (n : Nat) (x : F32) (hs : (n : ℚ) * f32_val x < 2 ^ 24) :
    |f32_val (f32_mul_int n x) - n * f32_val x| ≤ n * f32_val x / 2 ^ 24 := by
  have e : (n : ℚ) * f32_val x = ((n * x.m : Nat) : ℚ) / ((2 ^ x.e : Nat) : ℚ) := by
    unfold f32_val
    push_cast
    ring
  rw [e] at hs ⊢
  exact f32_round_near _ _ (by positivity) hs

theorem f32_add_near (x y : F32) (hs : f32_val x + f32_val y < 2 ^ 24) :
    |f32_val (f32_add x y) - (f32_val x + f32_val y)| ≤ (f32_val x + f32_val y) / 2 ^ 24 := by
  have e : f32_val x + f32_val y =
      ((x.m * 2 ^ y.e + y.m * 2 ^ x.e : Nat) : ℚ) / ((2 ^ (x.e + y.e) : Nat) : ℚ) := by
    unfold f32_val
    push_cast
    rw [div_add_div _ _ (by positivity) (by positivity), pow_add]
    congr 1
    ring
  rw [e] at hs ⊢
  exact f32_round_near _ _ (by positivity) hs

theorem f32_div_int_near (x : F32) (n : Nat) (hn : 0 < n) (hs : f32_val x / n < 2 ^ 24) :
    |f32_val (f32_div_int x n) - f32_val x / n| ≤ f32_val x / n / 2 ^ 24 := by
  have e : f32_val x / n = ((x.m : Nat) : ℚ) / ((n * 2 ^ x.e : Nat) : ℚ) := by
    unfold f32_val
    push_cast
    rw [div_div, mul_comm]
  rw [e] at hs ⊢
  exact f32_round_near _ _ (by positivity) hs

theorem f32_val_nonneg (x : F32) : 0 ≤ f32_val x := by
  unfold f32_val
  positivity

theorem f32_trunc_floor (x : F32) :
    (f32_trunc x : ℚ) ≤ f32_val x ∧ f32_val x < f32_trunc x + 1 := by
  unfold f32_trunc f32_val
  have hE : (0 : ℚ) < 2 ^ x.e := by positivity
  have h1 := Nat.div_add_mod x.m (2 ^ x.e)
  have h2 : x.m % 2 ^ x.e < 2 ^ x.e := Nat.mod_lt _ (by positivity)
  generalize x.m / 2 ^ x.e = q at h1
  generalize x.m % 2 ^ x.e = r at h1 h2
  have q1 : (2 : ℚ) ^ x.e * q + r = x.m := by exact_mod_cast h1
  have q2 : (r : ℚ) < 2 ^ x.e := by exact_mod_cast h2
  have q3 : (0 : ℚ) ≤ r := by positivity
  rw [le_div_iff₀ hE, div_lt_iff₀ hE]
  constructor <;> nlinarith

theorem f32_const_val :
    f32_val (f32_const 299) = 10032775 / 2 ^ 25 ∧ f32_val (f32_const 587) = 9848226 / 2 ^ 24 ∧
      f32_val (f32_const 114) = 15300821 / 2 ^ 27 := by
  have h1 : f32_const 299 = ⟨10032775, 25⟩ := by decide
  have h2 : f32_const 587 = ⟨9848226, 24⟩ := by decide
  have h3 : f32_const 114 = ⟨15300821, 27⟩ := by decide
  rw [h1, h2, h3]
  simp only [f32_val]
  norm_num

theorem channel_range (c : Fin 256) : (0 : ℚ) ≤ (c.val : ℚ) ∧ ((c.val : ℚ)) ≤ 255 := by
  have h : c.val ≤ 255 := by omega
  constructor
  · positivity
  · exact_mod_cast h

theorem brightness_near (p : Pixel) :
    |f32_val (brightness p) -
        (299 * (p.r.val : ℚ) + 587 * (p.g.val : ℚ) + 114 * (p.b.val : ℚ)) / 255000| ≤
      1 / 2 ^ 20 := by
  obtain ⟨c1, c2, c3⟩ := f32_const_val
  obtain ⟨r0, r1⟩ := channel_range p.r
  obtain ⟨g0, g1⟩ := channel_range p.g
  obtain ⟨b0, b1⟩ := channel_range p.b
  unfold brightness
  have hr := f32_mul_int_near p.r.val (f32_const 299) (by rw [c1]; linarith)
  have hg := f32_mul_int_near p.g.val (f32_const 587) (by rw [c2]; linarith)
  have hb := f32_mul_int_near p.b.val (f32_const 114) (by rw [c3]; linarith)
  rw [c1, abs_le] at hr
  rw [c2, abs_le] at hg
  rw [c3, abs_le] at hb
  generalize f32_mul_int p.r.val (f32_const 299) = pr at hr ⊢
  generalize f32_mul_int p.g.val (f32_const 587) = pg at hg ⊢
  generalize f32_mul_int p.b.val (f32_const 114) = pb at hb ⊢
  generalize (p.r.val : ℚ) = r at r0 r1 hr ⊢
  generalize (p.g.val : ℚ) = g at g0 g1 hg ⊢
  generalize (p.b.val : ℚ) = b at b0 b1 hb ⊢
  have hs1 := f32_add_near pr pg (by linarith)
  rw [abs_le] at hs1
  generalize f32_add pr pg = s1 at hs1 ⊢
  have hs := f32_add_near s1 pb (by linarith)
  rw [abs_le] at hs
  generalize f32_add s1 pb = s at hs ⊢
  have hd := f32_div_int_near s 255 (by decide) (by push_cast; linarith)
  push_cast at hd
  rw [abs_le] at hd
  generalize f32_val (f32_div_int s 255) = d at hd ⊢
  generalize f32_val s = vs at hs hd
  generalize f32_val s1 = vs1 at hs1 hs
  generalize f32_val pr = vr at hr hs1
  generalize f32_val pg = vg at hg hs1
  generalize f32_val pb = vb at hb hs
  rw [abs_le]
  constructor <;> linarith

theorem exact_shade_floor (c : Nat) (p : Pixel) :
    (exact_shade c p : ℚ) ≤
        c * ((299 * (p.r.val : ℚ) + 587 * (p.g.val : ℚ) + 114 * (p.b.val : ℚ)) / 255000) ∧
      c * ((299 * (p.r.val : ℚ) + 587 * (p.g.val : ℚ) + 114 * (p.b.val : ℚ)) / 255000) <
        exact_shade c p + 1 := by
  unfold exact_shade
  have h1 := Nat.div_add_mod (c * (299 * p.r.val + 587 * p.g.val + 114 * p.b.val)) 255000
  have h2 : c * (299 * p.r.val + 587 * p.g.val + 114 * p.b.val) % 255000 < 255000 :=
    Nat.mod_lt _ (by decide)
  generalize c * (299 * p.r.val + 587 * p.g.val + 114 * p.b.val) / 255000 = q at h1
  generalize c * (299 * p.r.val + 587 * p.g.val + 114 * p.b.val) % 255000 = m at h1 h2
  have q1 : (255000 : ℚ) * q + m =
      c * (299 * (p.r.val : ℚ) + 587 * (p.g.val : ℚ) + 114 * (p.b.val : ℚ)) := by
    exact_mod_cast h1
  have q2 : (m : ℚ) < 255000 := by exact_mod_cast h2
  have q3 : (0 : ℚ) ≤ m := by positivity
  constructor <;> linarith

theorem shade_near (c : Nat) (hc : c ≤ 255) (p : Pixel) :
    f32_trunc (f32_mul_int c (brightness p)) ≤ c ∧
      f32_trunc (f32_mul_int c (brightness p)) ≤ exact_shade c p + 1 ∧
      exact_shade c p ≤ f32_trunc (f32_mul_int c (brightness p)) + 1 := by
  obtain ⟨r0, r1⟩ := channel_range p.r
  obtain ⟨g0, g1⟩ := channel_range p.g
  obtain ⟨b0, b1⟩ := channel_range p.b
  have hb := brightness_near p
  obtain ⟨e1, e2⟩ := exact_shade_floor c p
  rw [abs_le] at hb
  have c0 : (0 : ℚ) ≤ c := by positivity
  have c1 : (c : ℚ) ≤ 255 := by exact_mod_cast hc
  have hL0 : 0 ≤ (299 * (p.r.val : ℚ) + 587 * (p.g.val : ℚ) + 114 * (p.b.val : ℚ)) / 255000 := by
    positivity
  have hL1 : (299 * (p.r.val : ℚ) + 587 * (p.g.val : ℚ) + 114 * (p.b.val : ℚ)) / 255000 ≤ 1 := by
    rw [div_le_one (by norm_num)]
    linarith
  generalize (299 * (p.r.val : ℚ) + 587 * (p.g.val : ℚ) + 114 * (p.b.val : ℚ)) / 255000 = L
    at hb e1 e2 hL0 hL1
  have x1 : (c : ℚ) * f32_val (brightness p) ≤ c * (L + 1 / 2 ^ 20) :=
    mul_le_mul_of_nonneg_left (by linarith) c0
  have x2 : (c : ℚ) * (L - 1 / 2 ^ 20) ≤ c * f32_val (brightness p) :=
    mul_le_mul_of_nonneg_left (by linarith) c0
  have x3 : (c : ℚ) * L ≤ c * 1 := mul_le_mul_of_nonneg_left hL1 c0
  have x4 : 0 ≤ (c : ℚ) * L := mul_nonneg c0 hL0
  rw [mul_add] at x1
  rw [mul_sub] at x2
  have hm := f32_mul_int_near c (brightness p) (by linarith)
  obtain ⟨t1, t2⟩ := f32_trunc_floor (f32_mul_int c (brightness p))
  rw [abs_le] at hm
  generalize f32_trunc (f32_mul_int c (brightness p)) = t at t1 t2 ⊢
  generalize f32_val (f32_mul_int c (brightness p)) = V at hm t1 t2
  generalize (c : ℚ) * f32_val (brightness p) = X at x1 x2 hm
  generalize exact_shade c p = x at e1 e2 ⊢
  generalize (c : ℚ) * L = E at x1 x2 x3 x4 e1 e2
  have k1 : (t : ℚ) < c + 1 := by linarith
  have k2 : (t : ℚ) < x + 1 + 1 := by linarith
  have k3 : (x : ℚ) < t + 1 + 1 := by linarith
  have n1 : t < c + 1 := by exact_mod_cast k1
  have n2 : t < x + 1 + 1 := by exact_mod_cast k2
  have n3 : x < t + 1 + 1 := by exact_mod_cast k3
  omega

theorem shade_float_spec (c : Fin 256) (p : Pixel) :
    (shade_float c p).val = f32_trunc (f32_mul_int c.val (brightness p)) ∧
      (shade_float c p).val ≤ c.val ∧
      (shade_float c p).val ≤ exact_shade c.val p + 1 ∧
      exact_shade c.val p ≤ (shade_float c p).val + 1 := by
  have hc : c.val ≤ 255 := by omega
  obtain ⟨h1, h2, h3⟩ := shade_near c.val hc p
  have hv : (shade_float c p).val = f32_trunc (f32_mul_int c.val (brightness p)) := by
    unfold shade_float
    exact uchar_val (by omega)
  rw [hv]
  exact ⟨rfl, h1, h2, h3⟩


/-! ## Properties of the region grower -/

/-- C1: the specification says that a pixel with alpha <= 128 never receives a
positive label.  On the 2x1 image of an opaque pixel followed by a transparent
pixel of the same colour, with threshold 30, `find_components` starts one pass
at the opaque pixel and that pass labels the transparent pixel (alpha 0) with
1: the neighbour test of `BFS` does not look at alpha. -/
theorem transparent_neighbour_is_labelled :
    (img_opaque_transparent 1).a.val ≤ 128 ∧
      (find_components img_opaque_transparent zero_labels zero_components 2 1 30).map
        (fun st => (st.pixel_comp 0, st.pixel_comp 1)) = some (1, 1) := by
  decide

/-- C2: with an all-zero label grid on entry and any threshold,
`find_components` returns and every pixel with alpha > 128 carries a positive
label; a label that is positive when the scan reaches some column of some row
is the same in the final grid, and no neighbour test of any `BFS` pass changes
a positive label. -/
theorem opaque_pixels_labelled_once (image : Nat → Pixel) (components : Nat → Component)
    (width height : Nat) (threshold : Int) :
    ∃ st, find_components image zero_labels components width height threshold = some st ∧
      (∀ idx, idx < width * height → 128 < (image idx).a.val → 0 < st.pixel_comp idx) ∧
      (∀ y x s, y < height → x ≤ width →
        scan_upto image zero_labels components width height threshold y x = some s →
        ∀ idx, 0 < s.pixel_comp idx → st.pixel_comp idx = s.pixel_comp idx) ∧
      (∀ seed c p (s : BFSState) i idx, 0 < s.pixel_comp idx →
        (BFS_visit image width height seed c threshold p s i).pixel_comp idx =
          s.pixel_comp idx) := by
  obtain ⟨st, hst, hinv⟩ := find_components_inv image components width height threshold
  refine ⟨st, hst, ?_, ?_, ?_⟩
  · intro idx hidx ha
    exact Nat.pos_of_ne_zero (hinv.done idx (by rw [mul_comm]; exact hidx) ha)
  · intro y x s hy hx hs idx hpos
    exact scan_upto_keep image zero_labels components width height threshold st hst y x hy
      hx s hs idx (Nat.pos_iff_ne_zero.1 hpos)
  · intro seed c p s i idx hpos
    exact (BFS_visit_ext image width height seed c threshold p s i).keep idx
      (Nat.pos_iff_ne_zero.1 hpos)

/-- C3: with an all-zero label grid on entry, `find_components` returns; if it
has started `k` passes (the length of the seed log) then the next id is
`k + 1`, every label is at most `k`, every id in `1 .. k` labels some position
of the grid, the seed of the pass started `i + 1`-th is in the grid and carries
the label `i + 1`, and the seeds are strictly increasing in row-major order. -/
theorem component_ids_contiguous (image : Nat → Pixel) (components : Nat → Component)
    (width height : Nat) (threshold : Int) :
    ∃ st, find_components image zero_labels components width height threshold = some st ∧
      st.component_id = st.seeds.length + 1 ∧
      (∀ idx, st.pixel_comp idx ≤ st.seeds.length) ∧
      (∀ i, 1 ≤ i → i ≤ st.seeds.length →
        ∃ idx, idx < width * height ∧ st.pixel_comp idx = i) ∧
      (∀ i s, st.seeds[i]? = some s →
        s.1 < width ∧ s.2 < height ∧ st.pixel_comp (s.2 * width + s.1) = i + 1) ∧
      st.seeds.Pairwise (fun a b => a.2 * width + a.1 < b.2 * width + b.1) := by
  obtain ⟨st, hst, hinv⟩ := find_components_inv image components width height threshold
  refine ⟨st, hst, hinv.id_eq, ?_, ?_, ?_, hinv.sorted⟩
  · intro idx
    have := hinv.lab_lt idx
    rw [hinv.id_eq] at this
    omega
  · intro i h1 h2
    obtain ⟨s, _, hR⟩ := region_of_id hinv h1 h2
    exact ⟨pidx width ⟨s.1, s.2⟩, pidx_lt hR.seed_in, hR.seed_lab⟩
  · intro i s hs
    have hR := hinv.regions i s hs
    have hin := hR.seed_in
    have hlab := hR.seed_lab
    rw [pidx_mk] at hlab
    unfold InGrid at hin
    simp only at hin
    exact ⟨by omega, by omega, hlab⟩

/-- C4: the specification says that the sum of `pixel_cnt` over all records
equals the number of pixels with alpha > 128.  On the 2x1 image of an opaque
pixel followed by a transparent pixel of the same colour, with threshold 30,
one record is written and its `pixel_cnt` is 2, while one pixel has
alpha > 128. -/
theorem pixel_cnt_sum_exceeds_opaque_count :
    opaque_count img_opaque_transparent (2 * 1) = 1 ∧
      (find_components img_opaque_transparent zero_labels zero_components 2 1 30).map
        (fun st => (st.seeds.length, pixel_cnt_sum st.components st.seeds.length)) =
          some (1, 2) := by
  decide

/-- C5: with an all-zero label grid on entry, `find_components` returns and the
record of every id `i` in `1 .. k` has `pixel_cnt` equal to the number of grid
positions whose final label is `i`, which is at least 1. -/
theorem pixel_cnt_counts_labels (image : Nat → Pixel) (components : Nat → Component)
    (width height : Nat) (threshold : Int) :
    ∃ st, find_components image zero_labels components width height threshold = some st ∧
      ∀ i, 1 ≤ i → i ≤ st.seeds.length →
        (st.components i).pixel_cnt = label_count st.pixel_comp (width * height) i ∧
        1 ≤ label_count st.pixel_comp (width * height) i := by
  obtain ⟨st, hst, hinv⟩ := find_components_inv image components width height threshold
  refine ⟨st, hst, ?_⟩
  intro i h1 h2
  obtain ⟨s, _, hR⟩ := region_of_id hinv h1 h2
  exact ⟨hR.cnt, hR.count_pos⟩

/-- C6: when `255 * width * height < 2^31` and the label grid is all zero on
entry, `find_components` returns and the record of every id `i` in `1 .. k`
holds in `avg_r`, `avg_g`, `avg_b` the quotient, rounded down, of the sum of
that channel over the positions labelled `i` by the number of those positions;
each quotient is at most 255, so the cast to `unsigned char` changes nothing. -/
theorem averages_are_integer_means (image : Nat → Pixel) (components : Nat → Component)
    (width height : Nat) (threshold : Int) (hsize : 255 * width * height < 2 ^ 31) :
    ∃ st, find_components image zero_labels components width height threshold = some st ∧
      ∀ i, 1 ≤ i → i ≤ st.seeds.length →
        ((st.components i).avg_r =
            label_sum (fun j => (image j).r.val) st.pixel_comp (width * height) i /
              label_count st.pixel_comp (width * height) i ∧
          (st.components i).avg_r ≤ 255) ∧
        ((st.components i).avg_g =
            label_sum (fun j => (image j).g.val) st.pixel_comp (width * height) i /
              label_count st.pixel_comp (width * height) i ∧
          (st.components i).avg_g ≤ 255) ∧
        ((st.components i).avg_b =
            label_sum (fun j => (image j).b.val) st.pixel_comp (width * height) i /
              label_count st.pixel_comp (width * height) i ∧
          (st.components i).avg_b ≤ 255) := by
  obtain ⟨st, hst, hinv⟩ := find_components_inv image components width height threshold
  refine ⟨st, hst, ?_⟩
  intro i h1 h2
  obtain ⟨s, _, hR⟩ := region_of_id hinv h1 h2
  have hN : 255 * (width * height) < 2147483648 := by
    rw [← mul_assoc]; exact hsize
  have hpos := hR.count_pos
  have hle := label_count_le st.pixel_comp (width * height) i
  have hr := avg_exact hpos hle (label_sum_le (fun j => (image j).r.val)
    (fun j => Nat.le_of_lt_succ (image j).r.isLt) st.pixel_comp (width * height) i) hN
  have hg := avg_exact hpos hle (label_sum_le (fun j => (image j).g.val)
    (fun j => Nat.le_of_lt_succ (image j).g.isLt) st.pixel_comp (width * height) i) hN
  have hb := avg_exact hpos hle (label_sum_le (fun j => (image j).b.val)
    (fun j => Nat.le_of_lt_succ (image j).b.isLt) st.pixel_comp (width * height) i) hN
  rw [hR.avg_r, hR.avg_g, hR.avg_b]
  exact ⟨⟨hr.1, hr.1 ▸ hr.2⟩, ⟨hg.1, hg.1 ▸ hg.2⟩, ⟨hb.1, hb.1 ▸ hb.2⟩⟩

/-- Witness for C6 on a 3x3 image. -/
theorem averages_are_integer_means_witness :
    255 * 3 * 3 < 2 ^ 31 ∧
    ∃ st, find_components img_lone_centre zero_labels zero_components 3 3 30 = some st ∧
      ∀ i, 1 ≤ i → i ≤ st.seeds.length →
        ((st.components i).avg_r =
            label_sum (fun j => (img_lone_centre j).r.val) st.pixel_comp (3 * 3) i /
              label_count st.pixel_comp (3 * 3) i ∧
          (st.components i).avg_r ≤ 255) ∧
        ((st.components i).avg_g =
            label_sum (fun j => (img_lone_centre j).g.val) st.pixel_comp (3 * 3) i /
              label_count st.pixel_comp (3 * 3) i ∧
          (st.components i).avg_g ≤ 255) ∧
        ((st.components i).avg_b =
            label_sum (fun j => (img_lone_centre j).b.val) st.pixel_comp (3 * 3) i /
              label_count st.pixel_comp (3 * 3) i ∧
          (st.components i).avg_b ≤ 255) :=
  ⟨by decide, averages_are_integer_means img_lone_centre zero_components 3 3 30 (by decide)⟩

/-- C7: with an all-zero label grid on entry, `find_components` returns and every
position labelled `i + 1` other than the seed of the pass started `i + 1`-th
has a summed absolute channel difference to that seed's colour below the
threshold. -/
theorem members_within_threshold_of_seed (image : Nat → Pixel)
    (components : Nat → Component) (width height : Nat) (threshold : Int) :
    ∃ st, find_components image zero_labels components width height threshold = some st ∧
      ∀ i s, st.seeds[i]? = some s → ∀ idx, idx < width * height →
        st.pixel_comp idx = i + 1 → idx ≠ s.2 * width + s.1 →
          color_diff (image (s.2 * width + s.1)) (image idx) < threshold := by
  obtain ⟨st, hst, hinv⟩ := find_components_inv image components width height threshold
  refine ⟨st, hst, ?_⟩
  intro i s hs idx _ hlab hne
  have hR := hinv.regions i s hs
  have := hR.diff idx hlab
  rw [pidx_mk] at this
  rcases this with h | h
  · exact absurd h hne
  · exact h

/-- C8, counterexample: the two pixels of the 2x1 image are fully opaque,
4-adjacent and byte-identical, and with threshold 0 `find_components` gives
them the different labels 1 and 2. -/
theorem threshold_zero_splits_equal_pixels :
    img_two_equal 0 = img_two_equal 1 ∧ 128 < (img_two_equal 0).a.val ∧
      Adj4 ⟨0, 0⟩ ⟨1, 0⟩ ∧
      (find_components img_two_equal zero_labels zero_components 2 1 0).map
        (fun st => (st.pixel_comp 0, st.pixel_comp 1)) = some (1, 2) := by
  decide

/-- C8, amended: with threshold 0 the strict test `diff < threshold` never
holds, so no neighbour test of `BFS` changes anything, whatever the colours; on
a fully opaque grid `find_components` therefore makes every pixel its own
component, the pixel of row-major index `idx` getting the label `idx + 1`.
Exactly the byte-identical colours pass the test with threshold 1. -/
theorem threshold_zero_isolates_pixels (image : Nat → Pixel)
    (components : Nat → Component) (width height : Nat)
    (hop : ∀ idx, idx < width * height → 128 < (image idx).a.val) :
    (∀ seed current : Pixel, ¬ color_diff seed current < 0) ∧
      (∀ seed c p (s : BFSState) i, BFS_visit image width height seed c 0 p s i = s) ∧
      (∃ st, find_components image zero_labels components width height 0 = some st ∧
        st.seeds.length = width * height ∧
        ∀ idx, idx < width * height → st.pixel_comp idx = idx + 1) ∧
      (∀ seed current : Pixel, color_diff seed current < 1 ↔
        (seed.r = current.r ∧ seed.g = current.g ∧ seed.b = current.b)) := by
  refine ⟨?_, ?_, ?_, color_diff_lt_one⟩
  · intro seed current h
    have := color_diff_nonneg seed current
    omega
  · intro seed c p s i
    exact BFS_visit_threshold_nonpos image width height seed c (le_refl 0) p s i
  · obtain ⟨st, hst, hinv⟩ := find_components_inv image components width height 0
    obtain ⟨h1, h2⟩ := singleton_classes hinv hop
    exact ⟨st, hst, h1, h2⟩

/-- Witness for C8 on the 2x1 image of two equal opaque pixels. -/
theorem threshold_zero_isolates_pixels_witness :
    (∀ idx, idx < 2 * 1 → 128 < (img_two_equal idx).a.val) ∧
    ((∀ seed current : Pixel, ¬ color_diff seed current < 0) ∧
      (∀ seed c p (s : BFSState) i, BFS_visit img_two_equal 2 1 seed c 0 p s i = s) ∧
      (∃ st, find_components img_two_equal zero_labels zero_components 2 1 0 = some st ∧
        st.seeds.length = 2 * 1 ∧
        ∀ idx, idx < 2 * 1 → st.pixel_comp idx = idx + 1) ∧
      (∀ seed current : Pixel, color_diff seed current < 1 ↔
        (seed.r = current.r ∧ seed.g = current.g ∧ seed.b = current.b))) :=
  ⟨by decide, threshold_zero_isolates_pixels img_two_equal zero_components 2 1 (by decide)⟩

/-- C9: the specification says that a grid with exactly one pixel of alpha > 128
yields one component with `pixel_cnt = 1` and the average colour of that pixel,
whatever the colours of the transparent pixels.  On the 3x3 image whose centre
is opaque (200,10,10) and whose other pixels are transparent (190,10,10), with
threshold 30, `find_components` starts one pass and writes a record with
`pixel_cnt = 9` and average colour (191,10,10). -/
theorem lone_pixel_absorbs_transparent_neighbours :
    opaque_count img_lone_centre (3 * 3) = 1 ∧
      (find_components img_lone_centre zero_labels zero_components 3 3 30).map
        (fun st => (st.seeds, st.components 1)) = some ([(1, 1)], ⟨9, 191, 10, 10⟩) := by
  decide

/-- C10, counterexample: two fully opaque uniform images.
On the zero-size grid `find_components` starts no pass, so there is not exactly
one component.  On the white 4000x3000 image (threshold 30) there is one
component of 12000000 pixels, but the red sum 255 * 12000000 leaves the range
of `int`, and the stored red average is 154, not the region's 255. -/
theorem uniform_image_counterexample :
    (find_components img_white zero_labels zero_components 0 0 30).map
        (fun st => st.seeds.length) = some 0 ∧
      (img_white 0).r.val = 255 ∧
      ∃ st, find_components img_white zero_labels zero_components 4000 3000 30 = some st ∧
        st.seeds.length = 1 ∧ (st.components 1).pixel_cnt = 4000 * 3000 ∧
        (st.components 1).avg_r = 154 :=
  ⟨by decide, by decide, white_image_average⟩

/-- C10, amended: on a fully opaque grid, with a threshold > 0 such that any two
pixels have identical (r,g,b) or differ by at least the threshold,
`find_components` returns and gives two grid positions the same label exactly
when a 4-connected path of pixels of one colour joins them; the record of the
label of a position holds the size of that position's monochrome region and,
when `255 * width * height < 2^31`, its colour as averages; every id in
`1 .. k` labels some position.  A non-empty uniform image yields exactly one
component with `pixel_cnt = width * height`; an image covered by the
monochrome regions of two pixels of different colours, of 4 positions each,
yields exactly 2 components with `pixel_cnt = 4`. -/
theorem monochrome_regions_are_components (image : Nat → Pixel)
    (components : Nat → Component) (width height : Nat) (threshold : Int)
    (hop : ∀ idx, idx < width * height → 128 < (image idx).a.val)
    (hthr : 0 < threshold)
    (hdich0 : ∀ i, i < width * height → ∀ j, j < width * height →
      same_rgb (image i) (image j) ∨ threshold ≤ color_diff (image i) (image j)) :
    ∃ st, find_components image zero_labels components width height threshold = some st ∧
      (∀ p q, InGrid width height p → InGrid width height q →
        (st.pixel_comp (pidx width p) = st.pixel_comp (pidx width q) ↔
          Relation.ReflTransGen (MonoStep image width height) p q)) ∧
      (∀ p, InGrid width height p →
        (st.components (st.pixel_comp (pidx width p))).pixel_cnt =
            (mono_region image width height p).ncard ∧
          (255 * width * height < 2 ^ 31 →
            (st.components (st.pixel_comp (pidx width p))).avg_r =
              (image (pidx width p)).r.val ∧
            (st.components (st.pixel_comp (pidx width p))).avg_g =
              (image (pidx width p)).g.val ∧
            (st.components (st.pixel_comp (pidx width p))).avg_b =
              (image (pidx width p)).b.val)) ∧
      (∀ i, 1 ≤ i → i ≤ st.seeds.length →
        ∃ p, InGrid width height p ∧ st.pixel_comp (pidx width p) = i) ∧
      (0 < width * height →
        (∀ i j, i < width * height → j < width * height →
          same_rgb (image i) (image j)) →
        st.seeds.length = 1 ∧ (st.components 1).pixel_cnt = width * height) ∧
      (∀ a b, InGrid width height a → InGrid width height b →
        ¬ same_rgb (image (pidx width a)) (image (pidx width b)) →
        (mono_region image width height a).ncard = 4 →
        (mono_region image width height b).ncard = 4 →
        (∀ p, InGrid width height p →
          p ∈ mono_region image width height a ∨ p ∈ mono_region image width height b) →
        st.seeds.length = 2 ∧ (st.components 1).pixel_cnt = 4 ∧
          (st.components 2).pixel_cnt = 4) := by
  obtain ⟨st, hst, hinv⟩ := find_components_inv image components width height threshold
  have hdich : ∀ i j, i < width * height → j < width * height →
      same_rgb (image i) (image j) ∨ threshold ≤ color_diff (image i) (image j) :=
    fun i j hi hj => hdich0 i hi j hj
  have hcnt : ∀ p, InGrid width height p →
      (st.components (st.pixel_comp (pidx width p))).pixel_cnt =
        (mono_region image width height p).ncard := by
    intro p hp
    have hr := label_range hinv hop (pidx_lt hp)
    obtain ⟨s, _, hR⟩ := region_of_id hinv hr.1 hr.2
    rw [region_eq_class hinv hop hthr hdich hp, class_ncard, hR.cnt]
  refine ⟨st, hst, ?_, ?_, ?_, ?_, ?_⟩
  · intro p q hp hq
    constructor
    · exact same_label_mono_path hinv hop hdich hp hq
    · intro hpath
      exact (mono_path_same_label hinv hop hthr hdich hp hpath).2
  · intro p hp
    refine ⟨hcnt p hp, ?_⟩
    intro hsize
    have hN : 255 * (width * height) < 2147483648 := by
      rw [← mul_assoc]; exact hsize
    have hr := label_range hinv hop (pidx_lt hp)
    obtain ⟨s, _, hR⟩ := region_of_id hinv hr.1 hr.2
    have hc0 : st.pixel_comp (pidx width p) ≠ 0 := by omega
    have hsp : same_rgb (image (pidx width ⟨s.1, s.2⟩)) (image (pidx width p)) :=
      class_color hinv hdich hR hc0 rfl
    have hmem : ∀ j, st.pixel_comp j = st.pixel_comp (pidx width p) →
        same_rgb (image (pidx width p)) (image j) := fun j hj =>
      same_rgb_trans (same_rgb_symm hsp) (class_color hinv hdich hR hc0 hj)
    refine ⟨?_, ?_, ?_⟩
    · rw [hR.avg_r]
      exact avg_of_const (fun j hj => congrArg Fin.val (hmem j hj).1.symm)
        (Nat.le_of_lt_succ (image (pidx width p)).r.isLt) hR.count_pos hN
    · rw [hR.avg_g]
      exact avg_of_const (fun j hj => congrArg Fin.val (hmem j hj).2.1.symm)
        (Nat.le_of_lt_succ (image (pidx width p)).g.isLt) hR.count_pos hN
    · rw [hR.avg_b]
      exact avg_of_const (fun j hj => congrArg Fin.val (hmem j hj).2.2.symm)
        (Nat.le_of_lt_succ (image (pidx width p)).b.isLt) hR.count_pos hN
  · intro i h1 h2
    obtain ⟨s, _, hR⟩ := region_of_id hinv h1 h2
    exact ⟨_, hR.seed_in, hR.seed_lab⟩
  · intro hpos huni
    obtain ⟨k1, _, k3⟩ := uniform_one_component hinv hop hthr huni hpos
    exact ⟨k1, k3⟩
  · intro a b ha hb hcol hna hnb hcover
    obtain ⟨hk, hlab⟩ := two_regions hinv hop hthr hdich ha hb hcol hcover
    have ca := hcnt a ha
    have cb := hcnt b hb
    rw [hna] at ca
    rw [hnb] at cb
    rcases hlab with ⟨h1, h2⟩ | ⟨h1, h2⟩
    · rw [h1] at ca; rw [h2] at cb; exact ⟨hk, ca, cb⟩
    · rw [h1] at ca; rw [h2] at cb; exact ⟨hk, cb, ca⟩

/-- Witness for C10 on the 4x2 image of two solid 2x2 blocks, threshold 30. -/
theorem monochrome_regions_are_components_witness :
    (∀ idx, idx < 4 * 2 → 128 < (img_two_blocks idx).a.val) ∧
    (0 : Int) < 30 ∧
    (∀ i, i < 4 * 2 → ∀ j, j < 4 * 2 →
      same_rgb (img_two_blocks i) (img_two_blocks j) ∨
        (30 : Int) ≤ color_diff (img_two_blocks i) (img_two_blocks j)) ∧
    ∃ st, find_components img_two_blocks zero_labels zero_components 4 2 30 = some st ∧
      (∀ p q, InGrid 4 2 p → InGrid 4 2 q →
        (st.pixel_comp (pidx 4 p) = st.pixel_comp (pidx 4 q) ↔
          Relation.ReflTransGen (MonoStep img_two_blocks 4 2) p q)) ∧
      (∀ p, InGrid 4 2 p →
        (st.components (st.pixel_comp (pidx 4 p))).pixel_cnt =
            (mono_region img_two_blocks 4 2 p).ncard ∧
          (255 * 4 * 2 < 2 ^ 31 →
            (st.components (st.pixel_comp (pidx 4 p))).avg_r =
              (img_two_blocks (pidx 4 p)).r.val ∧
            (st.components (st.pixel_comp (pidx 4 p))).avg_g =
              (img_two_blocks (pidx 4 p)).g.val ∧
            (st.components (st.pixel_comp (pidx 4 p))).avg_b =
              (img_two_blocks (pidx 4 p)).b.val)) ∧
      (∀ i, 1 ≤ i → i ≤ st.seeds.length →
        ∃ p, InGrid 4 2 p ∧ st.pixel_comp (pidx 4 p) = i) ∧
      (0 < 4 * 2 →
        (∀ i j, i < 4 * 2 → j < 4 * 2 →
          same_rgb (img_two_blocks i) (img_two_blocks j)) →
        st.seeds.length = 1 ∧ (st.components 1).pixel_cnt = 4 * 2) ∧
      (∀ a b, InGrid 4 2 a → InGrid 4 2 b →
        ¬ same_rgb (img_two_blocks (pidx 4 a)) (img_two_blocks (pidx 4 b)) →
        (mono_region img_two_blocks 4 2 a).ncard = 4 →
        (mono_region img_two_blocks 4 2 b).ncard = 4 →
        (∀ p, InGrid 4 2 p →
          p ∈ mono_region img_two_blocks 4 2 a ∨ p ∈ mono_region img_two_blocks 4 2 b) →
        st.seeds.length = 2 ∧ (st.components 1).pixel_cnt = 4 ∧
          (st.components 2).pixel_cnt = 4) :=
  ⟨by decide, by decide, by decide,
    monochrome_regions_are_components img_two_blocks zero_components 4 2 30
      (by decide) (by decide) (by decide)⟩

/-- C18: the specification says that every component id handed to `BFS` is below
`width * height`, the number of entries of the component table in `main`.  On
the 1x1 image of one opaque pixel `find_components` starts one pass, at (0,0),
with id 1 (the label of that pixel), and 1 is not below `1 * 1`: the record
is written at index 1 of a table whose only entry is index 0. -/
theorem single_pixel_id_outside_table :
    (find_components img_one_pixel zero_labels zero_components 1 1 30).map
        (fun st => (st.seeds, st.pixel_comp 0, st.component_id, st.components 1)) =
      some ([(0, 0)], 1, 2, ⟨1, 10, 10, 10⟩) ∧ ¬ (1 < 1 * 1) := by
  decide

/-- C19: with an all-zero label grid on entry, `find_components` returns and
every grid position labelled `i + 1` is joined to the seed of the pass started
`i + 1`-th, which is in the grid and labelled `i + 1` itself, by a path of
steps between horizontally or vertically adjacent positions, each step ending
on an in-grid position labelled `i + 1`. -/
theorem members_joined_to_seed (image : Nat → Pixel) (components : Nat → Component)
    (width height : Nat) (threshold : Int) :
    ∃ st, find_components image zero_labels components width height threshold = some st ∧
      ∀ i s, st.seeds[i]? = some s →
        InGrid width height ⟨s.1, s.2⟩ ∧ st.pixel_comp (pidx width ⟨s.1, s.2⟩) = i + 1 ∧
        ∀ p, InGrid width height p → st.pixel_comp (pidx width p) = i + 1 →
          Relation.ReflTransGen (InRegion st.pixel_comp width height (i + 1)) ⟨s.1, s.2⟩ p := by
  obtain ⟨st, hst, hinv⟩ := find_components_inv image components width height threshold
  refine ⟨st, hst, ?_⟩
  intro i s hs
  have hR := hinv.regions i s hs
  exact ⟨hR.seed_in, hR.seed_lab, hR.conn⟩

/-- C20: with an all-zero label grid on entry, `find_components` returns and, for
every grid position `p` labelled `i + 1` and every in-grid position `q`
horizontally or vertically adjacent to `p` whose final label is 0 or greater
than `i + 1`, the summed absolute channel difference between the colour of the
seed of the pass started `i + 1`-th and the colour of `q` is at least the
threshold. -/
theorem components_are_maximal (image : Nat → Pixel) (components : Nat → Component)
    (width height : Nat) (threshold : Int) :
    ∃ st, find_components image zero_labels components width height threshold = some st ∧
      ∀ i s, st.seeds[i]? = some s → ∀ p q, InGrid width height p → InGrid width height q →
        Adj4 p q → st.pixel_comp (pidx width p) = i + 1 →
        (st.pixel_comp (pidx width q) = 0 ∨ i + 1 < st.pixel_comp (pidx width q)) →
          threshold ≤ color_diff (image (s.2 * width + s.1)) (image (pidx width q)) := by
  obtain ⟨st, hst, hinv⟩ := find_components_inv image components width height threshold
  refine ⟨st, hst, ?_⟩
  intro i s hs p q hp hq hadj hlab hq2
  have hR := hinv.regions i s hs
  have := hR.closed p hp hlab q hadj hq
  rw [pidx_mk] at this
  rcases this with ⟨h1, h2⟩ | h
  · omega
  · omega

/-- C17: take any pass that `find_components` starts: the scan has reached
column `x` of row `y` in state `s`, the position is unlabelled and its alpha is
above 128.  Then `BFS` returns; the queue has `width * height` slots, which is
at least 1, so the seed is written inside it; and after any number of
iterations of the loop `front <= rear <= width * height` holds and no point
occurs twice among the enqueued ones.  If the loop goes on, the read index
`front` is below `width * height`, and at every neighbour test of that
iteration `front <= rear <= width * height` holds and a neighbour that joins
is written at an index `rear` below `width * height`. -/
theorem queue_stays_in_bounds (image : Nat → Pixel) (pixel_comp : Nat → Nat)
    (components : Nat → Component) (width height : Nat) (threshold : Int)
    (y x : Nat) (s : ScanState) (hy : y < height) (hx : x < width)
    (hs : scan_upto image pixel_comp components width height threshold y x = some s)
    (hz : s.pixel_comp (y * width + x) = 0)
    (_ha : 128 < (image (y * width + x)).a.val) :
    (∃ res, BFS image s.pixel_comp s.components width height x y s.component_id threshold =
        some res) ∧
      (BFS_init image s.pixel_comp width height x y s.component_id).queue.size =
        width * height ∧
      0 < width * height ∧
      ∀ n sn, BFS_after image width height (image (y * width + x)) s.component_id threshold
          (BFS_init image s.pixel_comp width height x y s.component_id) n = some sn →
        sn.queue.size = width * height ∧
        sn.queue.front ≤ sn.queue.rear ∧ sn.queue.rear ≤ width * height ∧
        (∀ i j, i < sn.queue.rear → j < sn.queue.rear →
          sn.queue.data i = sn.queue.data j → i = j) ∧
        (sn.queue.front ≠ sn.queue.rear →
          sn.queue.front < width * height ∧
          ∀ m, m ≤ 4 →
            (BFS_midway image width height (image (y * width + x)) s.component_id
              threshold sn m).queue.front ≤
              (BFS_midway image width height (image (y * width + x)) s.component_id
                threshold sn m).queue.rear ∧
            (BFS_midway image width height (image (y * width + x)) s.component_id
              threshold sn m).queue.rear ≤ width * height ∧
            (Joins image width height (image (y * width + x)) threshold
                (BFS_midway image width height (image (y * width + x)) s.component_id
                  threshold sn m) (neighbor (sn.queue.data sn.queue.front) m) →
              (BFS_midway image width height (image (y * width + x)) s.component_id
                threshold sn m).queue.rear < width * height)) := by
  have hc : s.component_id ≠ 0 := by
    have := scan_upto_id_pos image pixel_comp components width height threshold y x s hs
    omega
  have hq0 := BFS_init_qinv image s.pixel_comp hc hx hy hz
  have hle0 : (BFS_init image s.pixel_comp width height x y s.component_id).queue.front ≤
      (BFS_init image s.pixel_comp width height x y s.component_id).queue.rear := by
    simp [BFS_init, createQueue]
  have hpos : 0 < width * height := Nat.mul_pos (by omega) (by omega)
  refine ⟨?_, rfl, hpos, ?_⟩
  · obtain ⟨st2, h2⟩ := BFS_loop_terminates image (image (y * width + x)) threshold hc
      (width * height) _ hq0 hle0 (Nat.le_add_right _ _)
    exact ⟨(st2.pixel_comp, store s.components s.component_id (BFS_record st2)), by
      simp only [BFS, h2]⟩
  · intro n sn hn
    obtain ⟨hq, hle⟩ := BFS_after_qinv image (image (y * width + x)) threshold hc hq0 hle0
      n sn hn
    have hpot := hq.pot
    refine ⟨hq.size_eq, hle, by omega, hq.distinct, ?_⟩
    intro hfr
    refine ⟨by omega, ?_⟩
    intro m _
    obtain ⟨p1, p2, p3⟩ := BFS_midway_qinv image (image (y * width + x)) threshold hc hq m
    have hpot2 := p1.pot
    refine ⟨by omega, by omega, ?_⟩
    intro hj
    have hpos0 : 1 ≤ label_count (BFS_midway image width height (image (y * width + x))
        s.component_id threshold sn m).pixel_comp (width * height) 0 := by
      unfold label_count
      apply Finset.card_pos.2
      refine ⟨pidx width (neighbor (sn.queue.data sn.queue.front) m), ?_⟩
      simp only [labelled, Finset.mem_filter, Finset.mem_range]
      exact ⟨pidx_lt hj.1, hj.2.1⟩
    omega

/-- Witness for C17: the pass that the scan of the 2x1 image of an opaque and a
transparent pixel starts at its first position. -/
theorem queue_stays_in_bounds_witness :
    0 < 1 ∧ 0 < 2 ∧
    scan_upto img_opaque_transparent zero_labels zero_components 2 1 30 0 0 =
      some ⟨zero_labels, zero_components, 1, []⟩ ∧
    zero_labels (0 * 2 + 0) = 0 ∧
    128 < (img_opaque_transparent (0 * 2 + 0)).a.val ∧
    ((∃ res, BFS img_opaque_transparent zero_labels zero_components 2 1 0 0 1 30 =
        some res) ∧
      (BFS_init img_opaque_transparent zero_labels 2 1 0 0 1).queue.size = 2 * 1 ∧
      0 < 2 * 1 ∧
      ∀ n sn, BFS_after img_opaque_transparent 2 1 (img_opaque_transparent (0 * 2 + 0)) 1 30
          (BFS_init img_opaque_transparent zero_labels 2 1 0 0 1) n = some sn →
        sn.queue.size = 2 * 1 ∧
        sn.queue.front ≤ sn.queue.rear ∧ sn.queue.rear ≤ 2 * 1 ∧
        (∀ i j, i < sn.queue.rear → j < sn.queue.rear →
          sn.queue.data i = sn.queue.data j → i = j) ∧
        (sn.queue.front ≠ sn.queue.rear →
          sn.queue.front < 2 * 1 ∧
          ∀ m, m ≤ 4 →
            (BFS_midway img_opaque_transparent 2 1 (img_opaque_transparent (0 * 2 + 0)) 1
              30 sn m).queue.front ≤
              (BFS_midway img_opaque_transparent 2 1 (img_opaque_transparent (0 * 2 + 0)) 1
                30 sn m).queue.rear ∧
            (BFS_midway img_opaque_transparent 2 1 (img_opaque_transparent (0 * 2 + 0)) 1
              30 sn m).queue.rear ≤ 2 * 1 ∧
            (Joins img_opaque_transparent 2 1 (img_opaque_transparent (0 * 2 + 0)) 30
                (BFS_midway img_opaque_transparent 2 1
                  (img_opaque_transparent (0 * 2 + 0)) 1 30 sn m)
                (neighbor (sn.queue.data sn.queue.front) m) →
              (BFS_midway img_opaque_transparent 2 1 (img_opaque_transparent (0 * 2 + 0)) 1
                30 sn m).queue.rear < 2 * 1))) :=
  ⟨by decide, by decide, rfl, rfl, by decide,
    queue_stays_in_bounds img_opaque_transparent zero_labels zero_components 2 1 30 0 0
      ⟨zero_labels, zero_components, 1, []⟩ (by decide) (by decide) rfl rfl (by decide)⟩

/-- C14, counterexample: at the centre of the 3x3 image that is black except
for (1,1,1) at the top centre and at the right centre, both Sobel sums of every
channel are 2, so the root is that of 8.  `sobel_filter` writes the grey value
2, the root rounded down; with the root rounded to the nearest integer the
value would be 3. -/
theorem sobel_rounds_root_down :
    grad_x red img_corner 3 1 1 = 2 ∧ grad_y red img_corner 3 1 1 = 2 ∧
      sobel_filter img_corner blank_image 3 3 (1 * 3 + 1) = ⟨2, 2, 2, 255⟩ ∧
      grey_value round_sqrt img_corner 3 1 1 = 3 := by
  decide

/-- C14, amended: at every interior position (1 <= x < width-1,
1 <= y < height-1) `sobel_filter` writes a pixel with alpha 255 and
r = g = b = min(255, (m_r + m_g + m_b) / 3), where `m_c` is the square root,
rounded down, of `gx_c^2 + gy_c^2` and `gx_c`, `gy_c` are the sums of the 3x3
neighbourhood of channel `c` weighted by the two kernels; the root rounded down
is the `k` with `k^2 <= v < (k+1)^2`. -/
theorem sobel_interior_value (image out_image : Nat → Pixel) (width height : Nat)
    (x y : Nat) (hx1 : 1 ≤ x) (hx2 : x + 1 < width) (hy1 : 1 ≤ y) (hy2 : y + 1 < height) :
    (sobel_filter image out_image width height (y * width + x)).r.val =
        grey_value floor_sqrt image width x y ∧
      (sobel_filter image out_image width height (y * width + x)).g.val =
        grey_value floor_sqrt image width x y ∧
      (sobel_filter image out_image width height (y * width + x)).b.val =
        grey_value floor_sqrt image width x y ∧
      (sobel_filter image out_image width height (y * width + x)).a.val = 255 ∧
      ∀ v, floor_sqrt v * floor_sqrt v ≤ v ∧ v < (floor_sqrt v + 1) * (floor_sqrt v + 1) := by
  rw [sobel_filter_interior image out_image width height x y hx1 hx2 hy1 hy2]
  obtain ⟨h1, h2, h3, h4⟩ := sobel_pixel_val image width x y
  exact ⟨h1, h2, h3, h4, fun v => ⟨floor_sqrt_le v, floor_sqrt_lt v⟩⟩

/-- Witness for C14 at the centre of the 3x3 image `img_corner`. -/
theorem sobel_interior_value_witness :
    1 ≤ 1 ∧ 1 + 1 < 3 ∧ 1 ≤ 1 ∧ 1 + 1 < 3 ∧
    ((sobel_filter img_corner blank_image 3 3 (1 * 3 + 1)).r.val =
        grey_value floor_sqrt img_corner 3 (1 : Nat) (1 : Nat) ∧
      (sobel_filter img_corner blank_image 3 3 (1 * 3 + 1)).g.val =
        grey_value floor_sqrt img_corner 3 (1 : Nat) (1 : Nat) ∧
      (sobel_filter img_corner blank_image 3 3 (1 * 3 + 1)).b.val =
        grey_value floor_sqrt img_corner 3 (1 : Nat) (1 : Nat) ∧
      (sobel_filter img_corner blank_image 3 3 (1 * 3 + 1)).a.val = 255 ∧
      ∀ v, floor_sqrt v * floor_sqrt v ≤ v ∧
        v < (floor_sqrt v + 1) * (floor_sqrt v + 1)) :=
  ⟨by decide, by decide, by decide, by decide,
    sobel_interior_value img_corner blank_image 3 3 1 1 (by decide) (by decide) (by decide)
      (by decide)⟩

/-- C15: on a grid in which all pixels have the same (r,g,b), whatever their
alpha, `sobel_filter` writes (0,0,0,255) at every interior position
(1 <= x < width-1, 1 <= y < height-1). -/
theorem sobel_uniform_is_black (image out_image : Nat → Pixel) (width height : Nat)
    (huni : ∀ i, i < width * height → ∀ j, j < width * height →
      same_rgb (image i) (image j))
    (x y : Nat) (hx1 : 1 ≤ x) (hx2 : x + 1 < width) (hy1 : 1 ≤ y) (hy2 : y + 1 < height) :
    sobel_filter image out_image width height (y * width + x) = ⟨0, 0, 0, 255⟩ := by
  rw [sobel_filter_interior image out_image width height x y hx1 hx2 hy1 hy2]
  have h0 : sobel_grad image width x y = 0 := by
    rw [sobel_grad_eq, grey_value_uniform huni hx1 hx2 hy1 hy2]
    rfl
  simp only [sobel_pixel, h0]
  rfl

/-- Witness for C15 at the centre of a 3x3 image of white pixels. -/
theorem sobel_uniform_is_black_witness :
    (∀ i, i < 3 * 3 → ∀ j, j < 3 * 3 → same_rgb (img_white i) (img_white j)) ∧
    1 ≤ 1 ∧ 1 + 1 < 3 ∧ 1 ≤ 1 ∧ 1 + 1 < 3 ∧
    sobel_filter img_white blank_image 3 3 (1 * 3 + 1) = ⟨0, 0, 0, 255⟩ :=
  ⟨by decide, by decide, by decide, by decide, by decide,
    sobel_uniform_is_black img_white blank_image 3 3 (by decide) 1 1 (by decide) (by decide)
      (by decide) (by decide)⟩

/-- C11: the specification says that the background is the record of the
smallest id in `1 .. k` with the largest `pixel_cnt`.  On the 1x1 image of one
opaque pixel of colour (200,10,10) `find_components` discovers one component,
id 1 with `pixel_cnt = 1`; called with `num_components = 1 * 1` as in `main`,
the loop `for (i = 1; i < num_components; i++)` examines no id, and the
background is the all-zero record, which the record of id 1 is not near. -/
theorem lone_component_is_not_background :
    (find_components img_one_red zero_labels zero_components 1 1 30).map
        (fun st => (st.seeds.length, st.components 1,
          find_background st.components (1 * 1),
          decide (near_background (st.components 1)
            (find_background st.components (1 * 1))))) =
      some (1, ⟨1, 200, 10, 10⟩, ⟨0, 0, 0, 0⟩, false) := by
  decide

/-- C12: at every pixel index of the grid `generate_component_colors` writes the
original pixel, all four channels, when the label is 0 or when the absolute
differences between the `avg_r`, `avg_g`, `avg_b` of the pixel's record and of
the background record are all three below 30; otherwise it writes the shaded
palette colour with alpha 255.  In particular a pixel whose record is the
background record is passed through unchanged. -/
theorem near_background_passes_through (shade : Fin 256 → Pixel → Fin 256)
    (output : Nat → Pixel) (pixel_comp : Nat → Nat) (components : Nat → Component)
    (width height num_components : Nat) (original : Nat → Pixel) (x y : Nat)
    (hx : x < width) (hy : y < height) :
    generate_component_colors shade output pixel_comp components width height
        num_components original (y * width + x) =
      (if pixel_comp (y * width + x) = 0 ∨
          ((((components (pixel_comp (y * width + x))).avg_r : Int) -
              (find_background components num_components).avg_r).natAbs < 30 ∧
            (((components (pixel_comp (y * width + x))).avg_g : Int) -
              (find_background components num_components).avg_g).natAbs < 30 ∧
            (((components (pixel_comp (y * width + x))).avg_b : Int) -
              (find_background components num_components).avg_b).natAbs < 30)
        then original (y * width + x)
        else
          { r := shade (segment_colors.getD ((pixel_comp (y * width + x) - 1) % 5)
                  ⟨0, 0, 0, 0⟩).r (original (y * width + x))
            g := shade (segment_colors.getD ((pixel_comp (y * width + x) - 1) % 5)
                  ⟨0, 0, 0, 0⟩).g (original (y * width + x))
            b := shade (segment_colors.getD ((pixel_comp (y * width + x) - 1) % 5)
                  ⟨0, 0, 0, 0⟩).b (original (y * width + x))
            a := 255 }) ∧
      (components (pixel_comp (y * width + x)) = find_background components num_components →
        generate_component_colors shade output pixel_comp components width height
          num_components original (y * width + x) = original (y * width + x)) := by
  rw [generate_at shade output pixel_comp components width height num_components original
    x y hx hy]
  constructor
  · unfold highlight_pixel near_background
    simp only
    split_ifs with h
    · rfl
    · have := palette_alpha (pixel_comp (y * width + x) - 1)
      rw [this]
      rfl
  · intro hbg
    unfold highlight_pixel
    simp only
    rw [if_pos]
    right
    rw [hbg]
    exact near_background_self _

/-- Witness for C12 at the only pixel of a 1x1 image. -/
theorem near_background_passes_through_witness :
    0 < 1 ∧ 0 < 1 ∧
    (generate_component_colors shade_full blank_image zero_labels zero_components 1 1 1
        img_one_pixel (0 * 1 + 0) =
      (if zero_labels (0 * 1 + 0) = 0 ∨
          ((((zero_components (zero_labels (0 * 1 + 0))).avg_r : Int) -
              (find_background zero_components 1).avg_r).natAbs < 30 ∧
            (((zero_components (zero_labels (0 * 1 + 0))).avg_g : Int) -
              (find_background zero_components 1).avg_g).natAbs < 30 ∧
            (((zero_components (zero_labels (0 * 1 + 0))).avg_b : Int) -
              (find_background zero_components 1).avg_b).natAbs < 30)
        then img_one_pixel (0 * 1 + 0)
        else
          { r := shade_full (segment_colors.getD ((zero_labels (0 * 1 + 0) - 1) % 5)
                  ⟨0, 0, 0, 0⟩).r (img_one_pixel (0 * 1 + 0))
            g := shade_full (segment_colors.getD ((zero_labels (0 * 1 + 0) - 1) % 5)
                  ⟨0, 0, 0, 0⟩).g (img_one_pixel (0 * 1 + 0))
            b := shade_full (segment_colors.getD ((zero_labels (0 * 1 + 0) - 1) % 5)
                  ⟨0, 0, 0, 0⟩).b (img_one_pixel (0 * 1 + 0))
            a := 255 }) ∧
      (zero_components (zero_labels (0 * 1 + 0)) = find_background zero_components 1 →
        generate_component_colors shade_full blank_image zero_labels zero_components 1 1 1
          img_one_pixel (0 * 1 + 0) = img_one_pixel (0 * 1 + 0))) :=
  ⟨by decide, by decide,
    near_background_passes_through shade_full blank_image zero_labels zero_components 1 1 1
      img_one_pixel 0 0 (by decide) (by decide)⟩

/-- C13, counterexample: on the 3x1 opaque image (200,200,200), (200,200,200),
(8,80,32) with threshold 30, `find_components` gives the third pixel label 2;
its record is not near the background record, the palette entry at index
(2 - 1) mod 5 is (174,0,255), and `generate_component_colors` writes
(36,0,52,255): the blue channel is 52.  The luminance of (8,80,32) is
L = 53000/255000, so that floor(255 * L) = 53: the `float` product is just
below 53 and the cast truncates it. -/
theorem float_product_below_floor :
    (find_components img_grey_green zero_labels zero_components 3 1 30).map
        (fun st => (st.pixel_comp 2,
          decide (near_background (st.components (st.pixel_comp 2))
            (find_background st.components (3 * 1))),
          segment_colors.getD ((st.pixel_comp 2 - 1) % 5) ⟨0, 0, 0, 0⟩,
          generate_component_colors shade_float blank_image st.pixel_comp st.components 3 1
            (3 * 1) img_grey_green 2,
          exact_shade 255 (img_grey_green 2))) =
      some (2, false, ⟨174, 0, 255, 255⟩, ⟨36, 0, 52, 255⟩, 53) := by
  decide

/-- C13, amended: for every pixel of the grid with a positive label whose record
is not near the background, the output pixel of `generate_component_colors` has
alpha 255, and each of red, green, blue is the `float` product of the palette
channel `P_c` and `brightness`, truncated to an integer, where `P` is the entry
of `segment_colors` at index (label - 1) mod 5 and `brightness` is computed in
`float` from the original pixel.  That value does not exceed the palette
channel (so it lies in 0 .. 255) and differs from floor(P_c * L) by at most 1,
L = (0.299*R + 0.587*G + 0.114*B)/255 being the exact luminance. -/
theorem shaded_pixel_is_float_product (output : Nat → Pixel) (pixel_comp : Nat → Nat)
    (components : Nat → Component) (width height num_components : Nat)
    (original : Nat → Pixel) (x y : Nat) (hx : x < width) (hy : y < height)
    (hlabel : 0 < pixel_comp (y * width + x))
    (hfar : ¬ near_background (components (pixel_comp (y * width + x)))
      (find_background components num_components)) :
    segment_colors =
        [⟨255, 0, 0, 255⟩, ⟨174, 0, 255, 255⟩, ⟨0, 255, 0, 255⟩, ⟨255, 0, 170, 255⟩,
          ⟨0, 0, 255, 255⟩] ∧
      (generate_component_colors shade_float output pixel_comp components width height
        num_components original (y * width + x)).a = 255 ∧
      ∀ ch ∈ ([Pixel.r, Pixel.g, Pixel.b] : List (Pixel → Fin 256)),
        (ch (generate_component_colors shade_float output pixel_comp components width height
            num_components original (y * width + x))).val =
          f32_trunc (f32_mul_int
            (ch (segment_colors.getD ((pixel_comp (y * width + x) - 1) % 5) ⟨0, 0, 0, 0⟩)).val
            (brightness (original (y * width + x)))) ∧
        (ch (generate_component_colors shade_float output pixel_comp components width height
            num_components original (y * width + x))).val ≤
          (ch (segment_colors.getD ((pixel_comp (y * width + x) - 1) % 5) ⟨0, 0, 0, 0⟩)).val ∧
        (ch (generate_component_colors shade_float output pixel_comp components width height
            num_components original (y * width + x))).val ≤
          exact_shade
            (ch (segment_colors.getD ((pixel_comp (y * width + x) - 1) % 5) ⟨0, 0, 0, 0⟩)).val
            (original (y * width + x)) + 1 ∧
        exact_shade
            (ch (segment_colors.getD ((pixel_comp (y * width + x) - 1) % 5) ⟨0, 0, 0, 0⟩)).val
            (original (y * width + x)) ≤
          (ch (generate_component_colors shade_float output pixel_comp components width height
            num_components original (y * width + x))).val + 1 := by
  rw [generate_at shade_float output pixel_comp components width height num_components original
    x y hx hy]
  have hne : ¬ (pixel_comp (y * width + x) = 0 ∨
      near_background (components (pixel_comp (y * width + x)))
        (find_background components num_components)) := by
    rintro (h | h)
    · omega
    · exact hfar h
  have hpix : highlight_pixel shade_float pixel_comp components
      (find_background components num_components) original (y * width + x) =
      { r := shade_float (segment_colors.getD ((pixel_comp (y * width + x) - 1) % 5)
              ⟨0, 0, 0, 0⟩).r (original (y * width + x))
        g := shade_float (segment_colors.getD ((pixel_comp (y * width + x) - 1) % 5)
              ⟨0, 0, 0, 0⟩).g (original (y * width + x))
        b := shade_float (segment_colors.getD ((pixel_comp (y * width + x) - 1) % 5)
              ⟨0, 0, 0, 0⟩).b (original (y * width + x))
        a := 255 } := by
    unfold highlight_pixel
    simp only
    rw [if_neg hne]
    have := palette_alpha (pixel_comp (y * width + x) - 1)
    rw [this]
    rfl
  rw [hpix]
  refine ⟨rfl, rfl, ?_⟩
  intro ch hch
  simp only [List.mem_cons, List.mem_singleton, List.not_mem_nil, or_false] at hch
  rcases hch with h | h | h <;> subst h <;> exact shade_float_spec _ _

/-- Witness for C13 at the third pixel of the 3x1 image (200,200,200),
(200,200,200), (8,80,32), with the labels 1, 1, 2 and the records that
`find_components` computes for threshold 30. -/
theorem shaded_pixel_is_float_product_witness :
    2 < 3 ∧ 0 < 1 ∧ 0 < labels_grey_green (0 * 3 + 2) ∧
    ¬ near_background (components_grey_green (labels_grey_green (0 * 3 + 2)))
      (find_background components_grey_green 3) ∧
    (segment_colors =
        [⟨255, 0, 0, 255⟩, ⟨174, 0, 255, 255⟩, ⟨0, 255, 0, 255⟩, ⟨255, 0, 170, 255⟩,
          ⟨0, 0, 255, 255⟩] ∧
      (generate_component_colors shade_float blank_image labels_grey_green
        components_grey_green 3 1 3 img_grey_green (0 * 3 + 2)).a = 255 ∧
      ∀ ch ∈ ([Pixel.r, Pixel.g, Pixel.b] : List (Pixel → Fin 256)),
        (ch (generate_component_colors shade_float blank_image labels_grey_green
            components_grey_green 3 1 3 img_grey_green (0 * 3 + 2))).val =
          f32_trunc (f32_mul_int
            (ch (segment_colors.getD ((labels_grey_green (0 * 3 + 2) - 1) % 5)
              ⟨0, 0, 0, 0⟩)).val
            (brightness (img_grey_green (0 * 3 + 2)))) ∧
        (ch (generate_component_colors shade_float blank_image labels_grey_green
            components_grey_green 3 1 3 img_grey_green (0 * 3 + 2))).val ≤
          (ch (segment_colors.getD ((labels_grey_green (0 * 3 + 2) - 1) % 5)
            ⟨0, 0, 0, 0⟩)).val ∧
        (ch (generate_component_colors shade_float blank_image labels_grey_green
            components_grey_green 3 1 3 img_grey_green (0 * 3 + 2))).val ≤
          exact_shade
            (ch (segment_colors.getD ((labels_grey_green (0 * 3 + 2) - 1) % 5)
              ⟨0, 0, 0, 0⟩)).val
            (img_grey_green (0 * 3 + 2)) + 1 ∧
        exact_shade
            (ch (segment_colors.getD ((labels_grey_green (0 * 3 + 2) - 1) % 5)
              ⟨0, 0, 0, 0⟩)).val
            (img_grey_green (0 * 3 + 2)) ≤
          (ch (generate_component_colors shade_float blank_image labels_grey_green
            components_grey_green 3 1 3 img_grey_green (0 * 3 + 2))).val + 1) :=
  ⟨by decide, by decide, by decide, by decide,
    shaded_pixel_is_float_product blank_image labels_grey_green components_grey_green 3 1 3
      img_grey_green 2 0 (by decide) (by decide) (by decide) (by decide)⟩

/-- C16: on a grid of any size, zero included, in which every pixel has
alpha <= 128, with any threshold, `find_components` returns with the label grid
all zero, no pass started, the next id still 1 and the component table
untouched; `generate_component_colors` then writes the original pixel at every
index of the grid, whatever the shading and `num_components`. -/
theorem transparent_image_is_unchanged (image : Nat → Pixel)
    (components : Nat → Component) (width height : Nat) (threshold : Int)
    (htr : ∀ idx, idx < width * height → (image idx).a.val ≤ 128) :
    ∃ st, find_components image zero_labels components width height threshold = some st ∧
      (∀ idx, st.pixel_comp idx = 0) ∧ st.seeds = [] ∧ st.component_id = 1 ∧
      (∀ j, st.components j = components j) ∧
      ∀ (shade : Fin 256 → Pixel → Fin 256) (output : Nat → Pixel) (num_components idx : Nat),
        idx < width * height →
        generate_component_colors shade output st.pixel_comp st.components width height
          num_components image idx = image idx := by
  refine ⟨⟨zero_labels, components, 1, []⟩, ?_, fun _ => rfl, rfl, rfl, fun _ => rfl, ?_⟩
  · unfold find_components
    exact scan_rows_transparent image threshold _ htr height (le_refl _)
  · intro shade output num_components idx hidx
    obtain ⟨x, y, hx, hy, rfl⟩ := coords_of_idx hidx
    rw [generate_at shade output _ _ width height num_components image x y hx hy]
    unfold highlight_pixel
    simp only
    rw [if_pos]
    left
    rfl

/-- Witness for C16 on a 3x3 image with alpha 0 everywhere. -/
theorem transparent_image_is_unchanged_witness :
    (∀ idx, idx < 3 * 3 → (img_transparent idx).a.val ≤ 128) ∧
    ∃ st, find_components img_transparent zero_labels zero_components 3 3 30 = some st ∧
      (∀ idx, st.pixel_comp idx = 0) ∧ st.seeds = [] ∧ st.component_id = 1 ∧
      (∀ j, st.components j = zero_components j) ∧
      ∀ (shade : Fin 256 → Pixel → Fin 256) (output : Nat → Pixel) (num_components idx : Nat),
        idx < 3 * 3 →
        generate_component_colors shade output st.pixel_comp st.components 3 3
          num_components img_transparent idx = img_transparent idx :=
  ⟨by decide, transparent_image_is_unchanged img_transparent zero_components 3 3 30
    (by decide)⟩

end BigTask
